import Mathlib

/-!
# NetworKit: elimination levels of the LAMG solver, the LinearSolver facade and
# the run/query protocol of the algebraic algorithms

A shallow embedding of

* `networkit/cpp/numerics/LAMG/Level/LevelElimination.h`
* `networkit/cpp/numerics/LinearSolver.h`
* `networkit/cpp/algebraic/algorithms/AlgebraicPageRank.h`
* `networkit/cpp/algebraic/algorithms/AlgebraicTriangleCounting.h`
* `networkit/cpp/distance/NeighborhoodFunctionApproximation.cpp`
* `networkit/cpp/community/PartitionHubDominance.cpp`
* `networkit/cpp/numerics/test/LAMGGTest.cpp`

Conventions of the embedding.

* `double` is embedded as `ℚ` (exact arithmetic). The scores that
  `AlgebraicPageRank::run` stores are the quotients of line 118, whose divisor can be
  zero: they are values of the type `double` below, a number or `+inf`, `-inf`, NaN.
* A member function that can abort (a failed `assert`, an index outside a
  container, a dimension mismatch in a vector or matrix operation) returns
  `Option`; a member function that throws `std::runtime_error` returns `Except`.
* Out-parameters (`Vector& xc`, `std::vector<Vector>& bStages`, ...) are passed in
  as their value on entry and returned as their value on exit.
* `#pragma omp parallel for` loops are run in increasing index order.
-/

namespace NetworKit

/-! ## Loops -/

/-- The loop `for (index i = 0; i < n; ++i) body(i)` over a state `σ`; it stops
with `none` as soon as one iteration aborts. -/
def forUp {σ : Type} : Nat → (Nat → σ → Option σ) → σ → Option σ
  | 0, _, s => some s
  | n + 1, body, s => (forUp n body s).bind (body n)

/-- The loop `for (index k = n; k-- > 0;) body(k)` over a state `σ`: the
iterations run for `k = n-1, n-2, .., 0`. -/
def forDown {σ : Type} : Nat → (Nat → σ → Option σ) → σ → Option σ
  | 0, _, s => some s
  | n + 1, body, s => (body n s).bind (forDown n body)

/-- The range-based loop `for (const T& s : l) body(s)` over a state `σ`. -/
def forEach {α σ : Type} : List α → (α → σ → Option σ) → σ → Option σ
  | [], _, s => some s
  | a :: l, body, s => (body a s).bind (forEach l body)

/-! ## Containers

The unsigned types `index`, `count` and `node` of the sources are all `Nat`. -/

/-- The assignment `v[i] = x` into a `std::vector` or a `Vector`: it needs
`i < v.size()`. -/
def writeAt {α : Type} (v : List α) (i : Nat) (x : α) : Option (List α) :=
  if i < v.length then some (v.set i x) else none

/-- The statement `assert(p)`: it aborts when `p` is false. -/
def assertThat (p : Prop) [Decidable p] : Option Unit :=
  if p then some () else none

/-- The call `v.resize(n)` of a `std::vector`: the first `n` elements are kept,
missing ones are default-constructed. -/
def resize {α : Type} (v : List α) (n : Nat) (dflt : α) : List α :=
  v.take n ++ List.replicate (n - v.length) dflt

/-- Modelled from the spec: the class `Vector` (algebraic/Vector.h is not part of
the sources), "dense ordered sequence of real values indexed 0..n-1". The
dimension is the length of the list, `v[i]` is `v[i]?`. -/
abbrev Vector := List ℚ

/-- Modelled from the spec: the constructor `Vector(n)` of Vector.h, a vector of
dimension `n` filled with zeros. -/
def Vector.zero (n : Nat) : Vector := List.replicate n 0

/-- Modelled from the spec: `Vector::operator+` of Vector.h ("vector arithmetic
(add ..)"), elementwise and defined for equal dimensions only. -/
def Vector.add (a b : Vector) : Option Vector :=
  if a.length = b.length then some (List.zipWith (· + ·) a b) else none

/-- Modelled from the spec: the class `Matrix` (CSRMatrix.h, DynamicMatrix.h are
not part of the sources): "row/column count" and the entries. -/
structure Matrix where
  numberOfRows : Nat
  numberOfColumns : Nat
  entry : Nat → Nat → ℚ

/-- The dot product of row `i` of `M` with `v`. -/
def Matrix.rowDot (M : Matrix) (v : Vector) (i : Nat) : ℚ :=
  ((List.range M.numberOfColumns).map (fun j => M.entry i j * v.getD j 0)).sum

/-- Modelled from the spec: `Matrix::operator*(const Vector&)` ("matrix-vector
product"), defined when the vector has as many entries as the matrix has
columns. -/
def Matrix.mulVec (M : Matrix) (v : Vector) : Option Vector :=
  if M.numberOfColumns = v.length then
    some ((List.range M.numberOfRows).map (M.rowDot v))
  else none

/-! ## LAMG/Level/LevelElimination.h -/

/-- Modelled from the spec: the class `EliminationStage` (EliminationStage.h is not
part of the sources): "a restriction operator R", "an interpolation/prolongation
operator P", "a diagonal correction operator Q", the F-set and the C-set;
`n` is what `getN()` returns, the number of fine indices of the stage. -/
structure EliminationStage where
  P : Matrix
  R : Matrix
  q : Vector
  fSet : List Nat
  cSet : List Nat
  n : Nat

/-- The class `LevelElimination<Matrix>`: the matrix `A` of the base class `Level`
and the two private members. -/
structure LevelElimination where
  A : Matrix
  coarseningStages : List EliminationStage
  cIndexFine : List Nat

/-- `LevelElimination::subVectorExtract` (lines 113-120). -/
def subVectorExtract (vector : Vector) (elements : List Nat) : Option Vector :=
  forUp elements.length (fun i subVector => do
    let e ← elements[i]?
    let x ← vector[e]?
    writeAt subVector i x) (Vector.zero elements.length)

/-- The inner loop of the constructor (lines 44-47) for the stage `s`. -/
def newInner (s : EliminationStage) (cIndexFine : List Nat) : Option (List Nat) :=
  forUp cIndexFine.length (fun i cIdx => do
    let ci ← cIdx[i]?
    let _ ← assertThat (ci < s.cSet.length)
    let v ← s.cSet[ci]?
    writeAt cIdx i v) cIndexFine

/-- The body of the outer loop of the constructor (lines 43-48) for the stage
index `k`. -/
def newBody (coarseningStages : List EliminationStage) (k : Nat) (cIndexFine : List Nat) :
    Option (List Nat) := do
  let s ← coarseningStages[k]?
  newInner s cIndexFine

/-- The constructor `LevelElimination::LevelElimination` (lines 35-49). -/
def LevelElimination.new (A : Matrix) (coarseningStages : List EliminationStage) :
    Option LevelElimination := do
  let cIndexFine : List Nat := List.replicate A.numberOfRows 0
  let cIndexFine ← forUp cIndexFine.length (fun i cIdx => writeAt cIdx i i) cIndexFine
  let cIndexFine ← forDown coarseningStages.length (newBody coarseningStages) cIndexFine
  pure ⟨A, coarseningStages, cIndexFine⟩

/-- `LevelElimination::coarseType` (lines 51-58): the new value of `xc`. -/
def LevelElimination.coarseType (L : LevelElimination) (xf : Vector) : Option Vector :=
  let xc := Vector.zero L.A.numberOfRows
  forUp xc.length (fun i xc => do
    let ci ← L.cIndexFine[i]?
    let x ← xf[ci]?
    writeAt xc i x) xc

/-- One pass through the body of the loop of `LevelElimination::restrict`
(lines 68-73): the new value of `bc` for the stage `s`. -/
def restrictStage (s : EliminationStage) (bc : Vector) : Option Vector := do
  let bCSet ← subVectorExtract bc s.cSet
  let bFSet ← subVectorExtract bc s.fSet
  let RbF ← s.R.mulVec bFSet
  Vector.add bCSet RbF

/-- The body of the loop of `LevelElimination::restrict` (lines 67-76) on the
state `(bc, bStages, curStage)`. -/
def restrictBody (s : EliminationStage) (st : Vector × List Vector × Nat) :
    Option (Vector × List Vector × Nat) := do
  let (bc, bStages, curStage) := st
  let bc ← restrictStage s bc
  let bStages ← writeAt bStages (curStage + 1) bc
  pure (bc, bStages, curStage + 1)

/-- `LevelElimination::restrict` (lines 60-78): `bStages` is the value of the
out-parameter on entry, the result is `(bc, bStages)` on exit. -/
def LevelElimination.restrict (L : LevelElimination) (bf : Vector)
    (bStages : List Vector) : Option (Vector × List Vector) := do
  let bStages := resize bStages (L.coarseningStages.length + 1) []
  let bStages ← writeAt bStages 0 bf
  let bc := bf
  let (bc, bStages, _) ← forEach L.coarseningStages restrictBody (bc, bStages, 0)
  pure (bc, bStages)

/-- One pass through the body of the loop of `LevelElimination::interpolate`
(lines 85-107) for the stage `s`, the current coarse vector `currX` and the
recorded right-hand side `bk = bStages[k]`: the new value of `xf`. -/
def interpolateStage (s : EliminationStage) (currX : Vector) (bk : Vector) :
    Option Vector := do
  let xf := Vector.zero s.n
  let bFSet ← subVectorExtract bk s.fSet
  let bq := Vector.zero bFSet.length
  let q := s.q
  let bq ← forUp bq.length (fun i bq => do
    let qi ← q[i]?
    let bi ← bFSet[i]?
    writeAt bq i (qi * bi)) bq
  let PcurrX ← s.P.mulVec currX
  let xFSet ← Vector.add PcurrX bq
  let fSet := s.fSet
  let xf ← forUp xFSet.length (fun i xf => do
    let fi ← fSet[i]?
    let x ← xFSet[i]?
    writeAt xf fi x) xf
  let cSet := s.cSet
  let xf ← forUp currX.length (fun i xf => do
    let ci ← cSet[i]?
    let x ← currX[i]?
    writeAt xf ci x) xf
  pure xf

/-- The body of the loop of `LevelElimination::interpolate` (lines 84-109) for the
stage index `k`, on the state `(currX, xf)`. -/
def interpolateBody (L : LevelElimination) (bStages : List Vector) (k : Nat)
    (st : Vector × Vector) : Option (Vector × Vector) := do
  let (currX, _) := st
  let s ← L.coarseningStages[k]?
  let bk ← bStages[k]?
  let xf ← interpolateStage s currX bk
  pure (xf, xf)

/-- `LevelElimination::interpolate` (lines 80-111): `xf` is the value of the
out-parameter on entry, the result is its value on exit. -/
def LevelElimination.interpolate (L : LevelElimination) (xc : Vector) (xf : Vector)
    (bStages : List Vector) : Option Vector := do
  let currX := xc
  let (_, xf) ← forDown L.coarseningStages.length (interpolateBody L bStages) (currX, xf)
  pure xf

/-! ## Notions used to state the properties of an elimination level -/

/-- The sub-vector `extract(v, S)` with `extract(v, S)[i] = v[S[i]]`. -/
def extract (v : Vector) (S : List Nat) : Vector := S.map (fun e => v.getD e 0)

/-- The partition invariant of a stage: every fine index `0..n-1` occurs exactly
once in the F-set followed by the C-set. -/
def EliminationStage.Partition (s : EliminationStage) : Prop :=
  (s.fSet ++ s.cSet).Perm (List.range s.n)

instance (s : EliminationStage) : Decidable s.Partition :=
  inferInstanceAs (Decidable ((s.fSet ++ s.cSet).Perm (List.range s.n)))

/-- The operators of a stage have the dimensions of its sets: `P` is
`|F| x |C|`, `R` is `|C| x |F|` and `q` has one entry per F-index. -/
def EliminationStage.OperatorDims (s : EliminationStage) : Prop :=
  s.P.numberOfRows = s.fSet.length ∧ s.P.numberOfColumns = s.cSet.length ∧
  s.R.numberOfRows = s.cSet.length ∧ s.R.numberOfColumns = s.fSet.length ∧
  s.q.length = s.fSet.length

instance (s : EliminationStage) : Decidable s.OperatorDims :=
  inferInstanceAs (Decidable (_ ∧ _))

/-- Consistent dimensions along the stages of a level: the first stage has
`nFine` fine indices, every stage satisfies the partition invariant and has
operators of the right dimensions, stage `k+1` has as many fine indices as
stage `k` has C-indices, and the last C-set has `nCoarse` indices. -/
def ValidStages : List EliminationStage → Nat → Nat → Prop
  | [], nFine, nCoarse => nFine = nCoarse
  | s :: ss, nFine, nCoarse =>
    s.n = nFine ∧ s.Partition ∧ s.OperatorDims ∧ ValidStages ss s.cSet.length nCoarse

/-- The decision procedure of `ValidStages`. -/
def ValidStages.dec : ∀ (ss : List EliminationStage) (nFine nCoarse : Nat),
    Decidable (ValidStages ss nFine nCoarse)
  | [], nFine, nCoarse => inferInstanceAs (Decidable (nFine = nCoarse))
  | s :: ss, nFine, nCoarse =>
    have := ValidStages.dec ss s.cSet.length nCoarse
    inferInstanceAs (Decidable (s.n = nFine ∧ s.Partition ∧ s.OperatorDims ∧
      ValidStages ss s.cSet.length nCoarse))

instance (ss : List EliminationStage) (nFine nCoarse : Nat) :
    Decidable (ValidStages ss nFine nCoarse) := ValidStages.dec ss nFine nCoarse

/-- The dimensions that `interpolate` needs of the operators of a stage: `P` is
`|F| x |C|` and `q` has an entry for every F-index. -/
def EliminationStage.InterpolationDims (s : EliminationStage) : Prop :=
  s.P.numberOfRows = s.fSet.length ∧ s.P.numberOfColumns = s.cSet.length ∧
  s.fSet.length ≤ s.q.length

instance (s : EliminationStage) : Decidable s.InterpolationDims :=
  inferInstanceAs (Decidable (_ ∧ _))

/-- The partition invariant with consistent dimensions along the stages of a level:
the first stage has `nFine` fine indices, the sets of every stage partition its
fine indices, stage `k+1` has as many fine indices as stage `k` has C-indices, and
the last C-set has `nCoarse` indices. -/
def PartitionChain : List EliminationStage → Nat → Nat → Prop
  | [], nFine, nCoarse => nFine = nCoarse
  | s :: ss, nFine, nCoarse =>
    s.n = nFine ∧ s.Partition ∧ PartitionChain ss s.cSet.length nCoarse

/-- The decision procedure of `PartitionChain`. -/
def PartitionChain.dec : ∀ (ss : List EliminationStage) (nFine nCoarse : Nat),
    Decidable (PartitionChain ss nFine nCoarse)
  | [], nFine, nCoarse => inferInstanceAs (Decidable (nFine = nCoarse))
  | s :: ss, nFine, nCoarse =>
    have := PartitionChain.dec ss s.cSet.length nCoarse
    inferInstanceAs (Decidable (s.n = nFine ∧ s.Partition ∧
      PartitionChain ss s.cSet.length nCoarse))

instance (ss : List EliminationStage) (nFine nCoarse : Nat) :
    Decidable (PartitionChain ss nFine nCoarse) := PartitionChain.dec ss nFine nCoarse

/-- The dimensions that `restrict` needs along the stages, for a right-hand side
with `n` entries: the sets of a stage hold indices of its right-hand side, `R` is
`|C| x |F|`, and the next stage gets a right-hand side with `|C|` entries. -/
def RestrictDims : List EliminationStage → Nat → Prop
  | [], _ => True
  | s :: ss, n =>
    ((∀ e ∈ s.cSet, e < n) ∧ (∀ e ∈ s.fSet, e < n) ∧
      s.R.numberOfColumns = s.fSet.length ∧ s.cSet.length = s.R.numberOfRows) ∧
    RestrictDims ss s.cSet.length

/-- The decision procedure of `RestrictDims`. -/
def RestrictDims.dec : ∀ (ss : List EliminationStage) (n : Nat), Decidable (RestrictDims ss n)
  | [], _ => inferInstanceAs (Decidable True)
  | s :: ss, n =>
    have := RestrictDims.dec ss s.cSet.length
    inferInstanceAs (Decidable (((∀ e ∈ s.cSet, e < n) ∧ (∀ e ∈ s.fSet, e < n) ∧
      s.R.numberOfColumns = s.fSet.length ∧ s.cSet.length = s.R.numberOfRows) ∧
      RestrictDims ss s.cSet.length))

instance (ss : List EliminationStage) (n : Nat) : Decidable (RestrictDims ss n) :=
  RestrictDims.dec ss n

/-- The recorded right-hand sides have the dimensions of the stages: `bStages[k]`
exists and has `n_k` entries for every stage `k`. -/
def RhsDims : List EliminationStage → List Vector → Prop
  | [], _ => True
  | _ :: _, [] => False
  | s :: ss, b :: bs => b.length = s.n ∧ RhsDims ss bs

/-- The decision procedure of `RhsDims`. -/
def RhsDims.dec : ∀ (ss : List EliminationStage) (bs : List Vector), Decidable (RhsDims ss bs)
  | [], _ => inferInstanceAs (Decidable True)
  | _ :: _, [] => inferInstanceAs (Decidable False)
  | s :: ss, b :: bs =>
    have := RhsDims.dec ss bs
    inferInstanceAs (Decidable (b.length = s.n ∧ RhsDims ss bs))

instance (ss : List EliminationStage) (bs : List Vector) : Decidable (RhsDims ss bs) :=
  RhsDims.dec ss bs

/-- The right-hand sides `b_1, .., b_m` that the stages `s_0, .., s_{m-1}` produce
one after the other from `b_0 = b`: `b_{k+1}` is `restrictStage s_k b_k`. -/
def restrictStages : List EliminationStage → Vector → Option (List Vector)
  | [], _ => some []
  | s :: ss, b => do
    let b1 ← restrictStage s b
    let bs ← restrictStages ss b1
    pure (b1 :: bs)

/-- The stages `s_0, .., s_{m-1}` of `interpolate` composed from the coarsest one:
`I_{s_0}(I_{s_1}(.. I_{s_{m-1}}(xc, b_{m-1}) .., b_1), b_0)` for the recorded
right-hand sides `b_0 :: b_1 :: ..`. -/
def interpolateStages : List EliminationStage → Vector → List Vector → Option Vector
  | [], xc, _ => some xc
  | s :: ss, xc, bs => do
    let x ← interpolateStages ss xc bs.tail
    let b ← bs.head?
    interpolateStage s x b

/-- The fine index `C_0[C_1[..C_{m-1}[i]..]]` that the coarse index `i` stands for,
when every lookup is inside its C-set. -/
def compIndex : List EliminationStage → Nat → Option Nat
  | [], i => some i
  | s :: ss, i => (compIndex ss i).bind (fun j => s.cSet[j]?)

/-- The C-set sub-vector extracted stage by stage in construction order:
`extract(..extract(extract(xf, C_0), C_1).., C_{m-1})`. -/
def extractStages (stages : List EliminationStage) (xf : Vector) : Vector :=
  stages.foldl (fun v s => extract v s.cSet) xf

/-- The entry `(i, j)` of the block `A[rows, cols]` of a matrix. -/
def Matrix.block (A : Matrix) (rows cols : List Nat) (i j : Nat) : ℚ :=
  A.entry (rows.getD i 0) (cols.getD j 0)

/-- The stage `s` eliminates the F-set of the fine matrix `Af` exactly and `Ac` is
the Schur complement: the sets partition the fine indices, `Af[F,F]` is diagonal
with non-zero diagonal, `P = -Af[F,F]^-1 * Af[F,C]`, `R = -Af[C,F] * Af[F,F]^-1`,
`q = 1/diag(Af[F,F])` and `Ac = Af[C,C] - Af[C,F] * Af[F,F]^-1 * Af[F,C]`. -/
def SchurStage (Af Ac : Matrix) (s : EliminationStage) : Prop :=
  s.Partition ∧ s.OperatorDims ∧
  Af.numberOfRows = s.n ∧ Af.numberOfColumns = s.n ∧
  Ac.numberOfRows = s.cSet.length ∧ Ac.numberOfColumns = s.cSet.length ∧
  (∀ i k, i < s.fSet.length → k < s.fSet.length → i ≠ k →
    Af.block s.fSet s.fSet i k = 0) ∧
  (∀ k, k < s.fSet.length → Af.block s.fSet s.fSet k k ≠ 0) ∧
  (∀ k j, k < s.fSet.length → j < s.cSet.length →
    s.P.entry k j = -(Af.block s.fSet s.fSet k k)⁻¹ * Af.block s.fSet s.cSet k j) ∧
  (∀ i k, i < s.cSet.length → k < s.fSet.length →
    s.R.entry i k = -(Af.block s.cSet s.fSet i k * (Af.block s.fSet s.fSet k k)⁻¹)) ∧
  (∀ k, k < s.fSet.length → s.q.getD k 0 = 1 / Af.block s.fSet s.fSet k k) ∧
  (∀ i j, i < s.cSet.length → j < s.cSet.length →
    Ac.entry i j = Af.block s.cSet s.cSet i j -
      ((List.range s.fSet.length).map (fun k =>
        Af.block s.cSet s.fSet i k * (Af.block s.fSet s.fSet k k)⁻¹ *
          Af.block s.fSet s.cSet k j)).sum)

/-- The matrices `A_0, A_1, .., A_m` of an elimination level: stage `k` eliminates
its F-set from `A_k` exactly and `A_{k+1}` is the Schur complement. -/
def SchurChain : List Matrix → List EliminationStage → Prop
  | [_], [] => True
  | Af :: Ac :: As, s :: ss => SchurStage Af Ac s ∧ SchurChain (Ac :: As) ss
  | _, _ => False

/-- The C-sets fit the dimensions along the stages of a level: the C-set of the
first stage holds indices below `nFine`, the C-set of stage `k+1` holds indices of
the C-set of stage `k`, and the last C-set has `nCoarse` indices. -/
def CSetChain : List EliminationStage → Nat → Nat → Prop
  | [], nFine, nCoarse => nFine = nCoarse
  | s :: ss, nFine, nCoarse => (∀ e ∈ s.cSet, e < nFine) ∧ CSetChain ss s.cSet.length nCoarse

/-- The decision procedure of `CSetChain`. -/
def CSetChain.dec : ∀ (ss : List EliminationStage) (nFine nCoarse : Nat),
    Decidable (CSetChain ss nFine nCoarse)
  | [], nFine, nCoarse => inferInstanceAs (Decidable (nFine = nCoarse))
  | s :: ss, nFine, nCoarse =>
    have := CSetChain.dec ss s.cSet.length nCoarse
    inferInstanceAs (Decidable ((∀ e ∈ s.cSet, e < nFine) ∧ CSetChain ss s.cSet.length nCoarse))

instance (ss : List EliminationStage) (nFine nCoarse : Nat) :
    Decidable (CSetChain ss nFine nCoarse) := CSetChain.dec ss nFine nCoarse

/-! ## A small elimination level on which the theorems are instantiated -/

/-- The Laplacian of the graph with the single edge `0 - 1` of weight 2. -/
def exampleFine : Matrix := ⟨2, 2, fun i j => if i = j then 2 else -2⟩

/-- The Schur complement of `exampleFine` after the elimination of node 0. -/
def exampleCoarse : Matrix := ⟨1, 1, fun _ _ => 0⟩

/-- The stage that eliminates node 0 of `exampleFine`: `F = {0}`, `C = {1}`,
`P = R = (1)` and `q = (1/2)`. -/
def exampleStage : EliminationStage :=
  ⟨⟨1, 1, fun _ _ => 1⟩, ⟨1, 1, fun _ _ => 1⟩, [1 / 2], [0], [1], 2⟩

/-- The elimination level with the single stage `exampleStage`. -/
def exampleLevel : LevelElimination := ⟨exampleCoarse, [exampleStage], [1]⟩

/-- An elimination level without any stage. -/
def emptyLevel : LevelElimination := ⟨exampleCoarse, [], [0]⟩

/-! ## The stage-by-stage reading of restrict and interpolate -/

/-- The level with the matrix and the index table of `L` whose only stage is `s`. -/
def LevelElimination.withStage (L : LevelElimination) (s : EliminationStage) :
    LevelElimination :=
  { L with coarseningStages := [s] }

/-- The single-stage restriction: the `bc` that `restrict` returns on the level
whose only stage is `s`. -/
def singleStageRestrict (L : LevelElimination) (s : EliminationStage) (b : Vector) :
    Option Vector :=
  ((L.withStage s).restrict b []).map Prod.fst

/-- The single-stage interpolation `I_s(x, b)`: what `interpolate` returns on the
level whose only stage is `s`, for the recorded right-hand side `b`. -/
def singleStageInterpolate (L : LevelElimination) (s : EliminationStage) (x b : Vector) :
    Option Vector :=
  (L.withStage s).interpolate x [] [b]

/-- The single-stage restrictions applied in the order `s_0, s_1, .., s_{m-1}`; the
right-hand side that enters each stage is recorded, followed by the final one. -/
def composedRestrict (L : LevelElimination) :
    List EliminationStage → Vector → Option (Vector × List Vector)
  | [], b => some (b, [b])
  | s :: ss, b => do
    let b1 ← singleStageRestrict L s b
    let (bc, bs) ← composedRestrict L ss b1
    pure (bc, b :: bs)

/-- The single-stage interpolations composed in the reverse order,
`I_{s_0}(I_{s_1}(.. I_{s_{m-1}}(xc, bStages[m-1]) .., bStages[1]), bStages[0])`:
stage `k` is given `bStages[k]`. -/
def composedInterpolate (L : LevelElimination) :
    List EliminationStage → Vector → List Vector → Option Vector
  | [], xc, _ => some xc
  | s :: ss, xc, bStages => do
    let x ← composedInterpolate L ss xc bStages.tail
    let b ← bStages.head?
    singleStageInterpolate L s x b

/-! ## Graphs -/

/-- Modelled from the spec: the class `Graph` (graph/Graph.h is not part of the
sources), "node count, connectivity query, adjacency iteration": the nodes are
`0..n-1`, an edge is `(u, v, weight)`. -/
structure Graph where
  n : Nat
  directed : Bool
  edges : List (Nat × Nat × ℚ)

/-- The weight of the edge from `u` to `v` (0 without an edge); an edge of an
undirected graph counts in both directions. -/
def Graph.weight (G : Graph) (u v : Nat) : ℚ :=
  ((G.edges.filter (fun e =>
      (e.1 == u && e.2.1 == v) || (!G.directed && e.1 == v && e.2.1 == u))).map
    (fun e => e.2.2)).sum

/-- The nodes that have an edge from or to a node of `S`, together with `S`. -/
def Graph.grow (G : Graph) (S : List Nat) : List Nat :=
  S ++ (List.range G.n).filter (fun v =>
    G.edges.any (fun e => (S.contains e.1 && e.2.1 == v) || (S.contains e.2.1 && e.1 == v)))

/-- The nodes connected to `u` (edge directions ignored): `n` rounds of `grow`. -/
def Graph.component (G : Graph) (u : Nat) : List Nat :=
  Nat.iterate G.grow G.n [u]

/-- Modelled from the spec: the "connectivity query" (components/ConnectedComponents.h
is not part of the sources): the number of connected components, counted as the
nodes that are the smallest node of their component. -/
def Graph.numberOfComponents (G : Graph) : Nat :=
  ((List.range G.n).filter (fun u => (G.component u).all (fun v => u ≤ v))).length

/-- Modelled from the spec: `Matrix::adjacencyMatrix(graph)` (not part of the
sources). -/
def Matrix.adjacencyMatrix (G : Graph) : Matrix := ⟨G.n, G.n, G.weight⟩

/-- Modelled from the spec: `Matrix::laplacianMatrix(graph)` (not part of the
sources), "diagonal entries equal node degree (or weighted degree) and
off-diagonal entries are negative edge weights; rows sum to zero". -/
def Matrix.laplacianMatrix (G : Graph) : Matrix :=
  ⟨G.n, G.n, fun i j =>
    if i = j then (((List.range G.n).filter (fun k => k ≠ i)).map (G.weight i)).sum
    else -G.weight i j⟩

/-! ## numerics/LinearSolver.h -/

/-- What a member function throws: `std::runtime_error` with its message,
`std::out_of_range` (from `std::vector::at`), or an abort (a failed `assert`, an
index outside a container). -/
inductive Error where
  | runtime_error (what : String)
  | out_of_range
  | aborted
  deriving DecidableEq, Repr

/-- The struct `SolverStatus` (lines 19-23). -/
structure SolverStatus where
  numIters : Nat
  residual : ℚ
  converged : Bool

/-- The abstract class `LinearSolver<Matrix>` (lines 28-87) for a concrete solver
with state `S`: the member `tolerance` and the pure virtual member functions
`setup(matrix)`, `setupConnected(matrix)` and `solve`, which act on the state of the
solver; `solve` also returns the new value of `result`. -/
structure LinearSolver (S : Type) where
  tolerance : ℚ
  setup : Matrix → S → Except Error S
  setupConnected : Matrix → S → Except Error S
  solve : Vector → Vector → Nat → Nat → S → Except Error (SolverStatus × Vector × S)

/-- `LinearSolver::setup(const Graph&)` (lines 89-92). -/
def LinearSolver.setupGraph {S : Type} (slv : LinearSolver S) (graph : Graph) (st : S) :
    Except Error S :=
  slv.setup (Matrix.laplacianMatrix graph) st

/-- `LinearSolver::setupConnected(const Graph&)` (lines 94-97). -/
def LinearSolver.setupConnectedGraph {S : Type} (slv : LinearSolver S) (graph : Graph)
    (st : S) : Except Error S :=
  slv.setupConnected (Matrix.laplacianMatrix graph) st

/-- The loop `for (index i = 0; i < n; ++i) body(i)` for a body that can throw. -/
def forUpE {σ : Type} : Nat → (Nat → σ → Except Error σ) → σ → Except Error σ
  | 0, _, s => .ok s
  | n + 1, body, s => (forUpE n body s).bind (body n)

/-- The element access `v[i]` of a `std::vector`, an abort outside the container. -/
def readAt {α : Type} (v : List α) (i : Nat) : Except Error α :=
  match v[i]? with
  | some x => .ok x
  | none => .error .aborted

/-- The body of the loop of `LinearSolver::parallelSolve` (line 102) on the state
`(results, solver state)`. -/
def LinearSolver.parallelSolveBody {S : Type} (slv : LinearSolver S) (rhs : List Vector)
    (maxConvergenceTime maxIterations : Nat) (i : Nat) (st : List Vector × S) :
    Except Error (List Vector × S) := do
  let (results, solver) := st
  let b ← readAt rhs i
  let x ← readAt results i
  let (_, x, solver) ← slv.solve b x maxConvergenceTime maxIterations solver
  pure (results.set i x, solver)

/-- The default `LinearSolver::parallelSolve` (lines 99-104): `results` is passed in
and returned, together with the state of the solver. -/
def LinearSolver.parallelSolve {S : Type} (slv : LinearSolver S) (rhs : List Vector)
    (results : List Vector) (maxConvergenceTime maxIterations : Nat) (solver : S) :
    Except Error (List Vector × S) :=
  forUpE rhs.length (slv.parallelSolveBody rhs maxConvergenceTime maxIterations)
    (results, solver)

/-- The sequential reading of `parallelSolve`: `solve(rhs[i], results[i], t, it)` is
called for `i = 0, 1, ..` in increasing order on the solver as the previous call
left it, and `results[i]` becomes what the call leaves in it. -/
def LinearSolver.solveEach {S : Type} (slv : LinearSolver S)
    (maxConvergenceTime maxIterations : Nat) :
    List Vector → List Vector → S → Except Error (List Vector × S)
  | [], results, solver => .ok (results, solver)
  | _ :: _, [], _ => .error .aborted
  | b :: rhs, x :: results, solver => do
    let (_, x, solver) ← slv.solve b x maxConvergenceTime maxIterations solver
    let (results, solver) ← slv.solveEach maxConvergenceTime maxIterations rhs results solver
    pure (x :: results, solver)

/-- A solver that records the right-hand side of every `solve` call and the matrix
of every set-up call, and returns the right-hand side as the result. -/
def recordingSolver : LinearSolver (List Matrix × List Vector) where
  tolerance := 0
  setup := fun A st => .ok (st.1 ++ [A], st.2)
  setupConnected := fun A st => .ok (st.1 ++ [A], st.2)
  solve := fun b _ _ _ st => .ok (⟨0, 0, true⟩, b, (st.1, st.2 ++ [b]))

/-- The graph with the two nodes 0 and 1 and no edge: two connected components. -/
def twoIsolatedNodes : Graph := ⟨2, false, []⟩

/-! ## algebraic/algorithms/AlgebraicPageRank.h -/

/-- Modelled from the spec: `Vector::operator-` of Vector.h, elementwise and defined
for equal dimensions only. -/
def Vector.sub (a b : Vector) : Option Vector :=
  if a.length = b.length then some (List.zipWith (· - ·) a b) else none

/-- Modelled from the spec: the comparison `v.length() > tol` for the Euclidean
length `Vector::length()` of Vector.h ("vector norm"), decided exactly: the length
is greater than `tol` when `tol` is negative or `tol^2` is less than the sum of the
squares. -/
def Vector.lengthGreater (v : Vector) (tol : ℚ) : Bool :=
  decide (tol < 0) || decide (tol ^ 2 < (v.map (fun x => x ^ 2)).sum)

/-- Modelled from the spec: `GraphBLAS::rowReduce(A)` (algebraic/GraphBLAS.h is not
part of the sources): the vector of the row sums of `A`. -/
def rowReduce (A : Matrix) : Vector :=
  (List.range A.numberOfRows).map (fun i =>
    ((List.range A.numberOfColumns).map (A.entry i)).sum)

/-- A stored value of type `double`: a number, which the model keeps without
rounding, or one of the special values `+inf`, `-inf` and NaN of IEEE 754. -/
inductive double where
  | finite (x : ℚ)
  | posInf
  | negInf
  | nan
  deriving DecidableEq

instance (n : Nat) : OfNat double n := ⟨double.finite (OfNat.ofNat n)⟩

/-- The comparison `x <= y` of two `double` values: false as soon as one of them is
NaN. -/
def double.le : double → double → Bool
  | .nan, _ => false
  | _, .nan => false
  | .negInf, _ => true
  | _, .posInf => true
  | .finite a, .finite b => decide (a ≤ b)
  | _, _ => false

/-- The comparison `x < y` of two `double` values: false as soon as one of them is
NaN. -/
def double.lt : double → double → Bool
  | .nan, _ => false
  | _, .nan => false
  | .finite a, .finite b => decide (a < b)
  | .negInf, .negInf => false
  | .negInf, _ => true
  | .posInf, _ => false
  | .finite _, .posInf => true
  | .finite _, .negInf => false

instance : LE double := ⟨fun x y => double.le x y = true⟩

instance : LT double := ⟨fun x y => double.lt x y = true⟩

instance (x y : double) : Decidable (x < y) :=
  inferInstanceAs (Decidable (double.lt x y = true))

instance (x y : double) : Decidable (x ≤ y) :=
  inferInstanceAs (Decidable (double.le x y = true))

/-- The quotient `x / y` of two numbers as the `double` division computes it, rounding
apart: `0.0 / 0.0` is NaN, and a number other than zero divided by `0.0` is the
infinity with its sign. The divisor of line 118 is never `-0.0`: it is a sum that
starts from `0.0`, and an IEEE sum is `-0.0` only when both of its terms are. -/
def double.div (x y : ℚ) : double :=
  if y ≠ 0 then .finite (x / y)
  else if x = 0 then .nan
  else if 0 < x then .posInf
  else .negInf

/-- The class `AlgebraicPageRank<Matrix>` (lines 86-93) with the flag `hasRun` of
its base class `Algorithm`. -/
structure AlgebraicPageRank where
  M : Matrix
  damp : ℚ
  tol : ℚ
  scoreData : List double
  edgeScoreData : List double
  hasRun : Bool

/-- The constructor of `AlgebraicPageRank` (lines 35-50): `M(j, i)` is
`damp * A(i, j) * invOutDeg[i]` for every non-zero `A(i, j)`. The entries of `M`
are numbers: when a row of `A` with a non-zero entry sums to zero, line 41 stores
`1.0 / 0.0` and the entries of `M` are not the ones of the code. Modelled from the
spec: the constructor of the base class `Algorithm` (base/Algorithm.h is not part of
the sources) leaves `hasRun = false`. -/
def AlgebraicPageRank.new (graph : Graph) (damp tol : ℚ) : AlgebraicPageRank :=
  let A := Matrix.adjacencyMatrix graph
  let invOutDeg : Vector := (rowReduce A).map (fun x => 1 / x)
  let M : Matrix := ⟨A.numberOfRows, A.numberOfRows,
    fun j i => if A.entry i j = 0 then 0 else damp * A.entry i j * invOutDeg.getD i 0⟩
  ⟨M, damp, tol, [], [], false⟩

/-- The `do .. while` loop of `AlgebraicPageRank::run` (lines 103-107), at most
`fuel` passes: `none` when the loop has not stopped by then. -/
def AlgebraicPageRank.iterate (M : Matrix) (teleportProb tol : ℚ) :
    Nat → Vector → Option Vector
  | 0, _ => none
  | fuel + 1, rank => do
    let lastRank := rank
    let rank ← M.mulVec rank
    let rank := rank.map (fun value => value + teleportProb)
    let diff ← Vector.sub rank lastRank
    if diff.lengthGreater tol then AlgebraicPageRank.iterate M teleportProb tol fuel rank
    else pure rank

/-- `AlgebraicPageRank::run` (lines 96-122) with at most `fuel` passes through its
loop. -/
def AlgebraicPageRank.run (self : AlgebraicPageRank) (fuel : Nat) :
    Option AlgebraicPageRank := do
  let n := self.M.numberOfRows
  let teleportProb := (1 - self.damp) / (n : ℚ)
  let rank : Vector := List.replicate n (1 / (n : ℚ))
  let rank ← AlgebraicPageRank.iterate self.M teleportProb self.tol fuel rank
  let sum := rank.foldl (· + ·) 0
  let scoreData := resize self.scoreData n 0
  let scoreData ← forUp rank.length (fun i scoreData => do
    let x ← rank[i]?
    writeAt scoreData i (double.div x sum)) scoreData
  pure { self with scoreData := scoreData, hasRun := true }

/-- `AlgebraicPageRank::scores` (lines 124-129): the returned scores and the object
after the call; a moved-from `std::vector` is empty. -/
def AlgebraicPageRank.scores (self : AlgebraicPageRank) (moveOut : Bool) :
    Except Error (List double × AlgebraicPageRank) :=
  if !self.hasRun then .error (.runtime_error "Call run method first")
  else .ok (self.scoreData,
    { self with hasRun := !moveOut, scoreData := if moveOut then [] else self.scoreData })

/-- `AlgebraicPageRank::ranking` (lines 131-140). Modelled from the spec:
`Aux::Parallel::sort` (auxiliary/Parallel.h is not part of the sources) as the
insertion sort for the comparison `x.second > y.second` of line 138: a pair stays in
front of every pair that does not compare greater than it. -/
def AlgebraicPageRank.ranking (self : AlgebraicPageRank) :
    Except Error (List (Nat × double)) :=
  if !self.hasRun then .error (.runtime_error "Call run method first")
  else
    let ranking : List (Nat × double) := (List.range self.scoreData.length).zip self.scoreData
    .ok (ranking.insertionSort (fun x y => ¬ y.2 > x.2))

/-- `AlgebraicPageRank::score` (lines 142-146); `at` throws `std::out_of_range`. -/
def AlgebraicPageRank.score (self : AlgebraicPageRank) (v : Nat) : Except Error double :=
  if !self.hasRun then .error (.runtime_error "Call run method first")
  else match self.scoreData[v]? with
    | some x => .ok x
    | none => .error .out_of_range

/-! ## algebraic/algorithms/AlgebraicTriangleCounting.h -/

/-- Modelled from the spec: `Matrix::operator*(const Matrix&)` (not part of the
sources), defined when the left factor has as many columns as the right factor has
rows. -/
def Matrix.mul (A B : Matrix) : Option Matrix :=
  if A.numberOfColumns = B.numberOfRows then
    some ⟨A.numberOfRows, B.numberOfColumns, fun i j =>
      ((List.range A.numberOfColumns).map (fun k => A.entry i k * B.entry k j)).sum⟩
  else none

/-- The conversion of a `double` to `count` in an assignment: the fraction is
dropped. -/
def toCount (x : ℚ) : Nat := x.floor.toNat

/-- The class `AlgebraicTriangleCounting<Matrix>` (lines 55-58) with the flag
`hasRun` of its base class `Algorithm`. -/
structure AlgebraicTriangleCounting where
  A : Matrix
  directed : Bool
  nodeScores : List Nat
  hasRun : Bool

/-- The constructor of `AlgebraicTriangleCounting` (line 26). Modelled from the spec:
the constructor of the base class `Algorithm` leaves `hasRun = false`. -/
def AlgebraicTriangleCounting.new (graph : Graph) : AlgebraicTriangleCounting :=
  ⟨Matrix.adjacencyMatrix graph, graph.directed, [], false⟩

/-- `AlgebraicTriangleCounting::run` (lines 61-74). -/
def AlgebraicTriangleCounting.run (self : AlgebraicTriangleCounting) :
    Option AlgebraicTriangleCounting := do
  let AA ← self.A.mul self.A
  let powA ← AA.mul self.A
  let nodeScores : List Nat := List.replicate self.A.numberOfRows 0
  let nodeScores ← forUp powA.numberOfRows (fun i nodeScores =>
    writeAt nodeScores i
      (toCount (if self.directed then powA.entry i i else powA.entry i i / 2))) nodeScores
  pure { self with nodeScores := nodeScores, hasRun := true }

/-- `AlgebraicTriangleCounting::score` (lines 38-42). -/
def AlgebraicTriangleCounting.score (self : AlgebraicTriangleCounting) (u : Nat) :
    Except Error Nat :=
  if !self.hasRun then
    .error (.runtime_error "AlgebraicTriangleCounting::score(node u): Call run() method first.")
  else if u < self.A.numberOfRows then readAt self.nodeScores u
  else .error .aborted

/-- `AlgebraicTriangleCounting::getScores` (lines 49-53): the returned scores and the
object after the call; a moved-from `std::vector` is empty. -/
def AlgebraicTriangleCounting.getScores (self : AlgebraicTriangleCounting) (moveOut : Bool) :
    Except Error (List Nat × AlgebraicTriangleCounting) :=
  if !self.hasRun then
    .error (.runtime_error "AlgebraicTriangleCounting::getScores(): Call run() method first.")
  else .ok (self.nodeScores,
    { self with hasRun := !moveOut, nodeScores := if moveOut then [] else self.nodeScores })

/-! ## distance/NeighborhoodFunctionApproximation.cpp -/

/-- The class `NeighborhoodFunctionApproximation` (its header is not part of the
sources): the members that the constructor initialises (line 20) and the flag
`hasRun` of its base class `Algorithm`. -/
structure NeighborhoodFunctionApproximation where
  G : Graph
  k : Nat
  r : Nat
  result : List Nat
  hasRun : Bool

/-- The constructor of `NeighborhoodFunctionApproximation` (lines 20-25). -/
def NeighborhoodFunctionApproximation.new (G : Graph) (k r : Nat) :
    Except Error NeighborhoodFunctionApproximation :=
  if G.directed then
    .error (.runtime_error "current implementation can only deal with undirected graphs")
  else if G.numberOfComponents > 1 then
    .error (.runtime_error
      "current implementation only runs on graphs with 1 connected component")
  else .ok ⟨G, k, r, [], false⟩

/-- `NeighborhoodFunctionApproximation::run` (lines 27-132) when it completes. The
values that the loop of lines 74-130 pushes onto `result` come from random bitmasks
and floating-point rounding; they are the parameter `estimates`. -/
def NeighborhoodFunctionApproximation.run (self : NeighborhoodFunctionApproximation)
    (estimates : List Nat) : NeighborhoodFunctionApproximation :=
  { self with result := self.result ++ estimates, hasRun := true }

/-- `NeighborhoodFunctionApproximation::getNeighborhoodFunction` (lines 134-139). -/
def NeighborhoodFunctionApproximation.getNeighborhoodFunction
    (self : NeighborhoodFunctionApproximation) : Except Error (List Nat) :=
  if !self.hasRun then .error (.runtime_error "Call run()-function first.")
  else .ok self.result

/-- The graph with the single node 0. -/
def oneNode : Graph := ⟨1, false, []⟩

/-- The directed graph with the nodes 0, 1, 2 and the single edge from 0 to 1 of
weight 1. -/
def oneArc : Graph := ⟨3, true, [(0, 1, 1)]⟩

/-! ## Notions used to state the properties of AlgebraicTriangleCounting -/

/-- Whether the graph has an edge between `u` and `v` (from `u` to `v` in a directed
graph). -/
def Graph.hasEdge (G : Graph) (u v : Nat) : Bool :=
  G.edges.any (fun e =>
    (e.1 == u && e.2.1 == v) || (!G.directed && e.1 == v && e.2.1 == u))

/-- An undirected, unweighted graph without self-loops or multi-edges: every edge
has weight 1 and two different nodes, and no two edges join the same two nodes. -/
def Graph.Simple (G : Graph) : Prop :=
  G.directed = false ∧ (∀ e ∈ G.edges, e.2.2 = 1 ∧ e.1 ≠ e.2.1) ∧
    G.edges.Pairwise (fun e f =>
      ¬ ((e.1 = f.1 ∧ e.2.1 = f.2.1) ∨ (e.1 = f.2.1 ∧ e.2.1 = f.1)))

/-- The number of triangles that contain `u`: the unordered pairs `{v, w}` of
distinct neighbours of `u` that are adjacent to each other, each counted with
`v < w`. -/
def Graph.triangles (G : Graph) (u : Nat) : Nat :=
  ((List.range G.n).map (fun w =>
    ((List.range w).filter (fun v =>
      G.hasEdge u v && G.hasEdge u w && G.hasEdge v w)).length)).sum

/-- The undirected triangle on the nodes 0, 1, 2. -/
def triangleGraph : Graph := ⟨3, false, [(0, 1, 1), (1, 2, 1), (0, 2, 1)]⟩

/-- The number of node sets `{u, v, w}` that form a triangle: the unordered pairs
`{v, w}`, each counted with `v < w`, for which the edges of one orientation
`u - v - w - u` or `u - w - v - u` are present. -/
def Graph.triangleSets (G : Graph) (u : Nat) : Nat :=
  ((List.range G.n).map (fun w =>
    ((List.range w).filter (fun v =>
      (G.hasEdge u v && G.hasEdge v w && G.hasEdge w u) ||
      (G.hasEdge u w && G.hasEdge w v && G.hasEdge v u))).length)).sum

/-- The directed graph on the nodes 0, 1, 2 with an edge of weight 1 from every node
to every other node. -/
def completeDigraph : Graph :=
  ⟨3, true, [(0, 1, 1), (1, 0, 1), (1, 2, 1), (2, 1, 1), (0, 2, 1), (2, 0, 1)]⟩

/-! ## community/PartitionHubDominance.cpp -/

/-- Modelled from the spec: the class `Partition` (structures/Partition.h is not part
of the sources) as far as `PartitionHubDominance::run` and `LAMGGTest::randZeroSum`
use it: `P[u]` is `data[u]`, the subset id of the element `u` or `none` for an
element without subset, and `upperBound()` is a bound above every subset id. -/
structure Partition where
  data : List (Option Nat)
  upperBound : Nat

/-- Modelled from the spec: the nodes that `Graph::forNeighborsOf(u, ..)` visits
(graph/Graph.h is not part of the sources), one per edge at `u`. -/
def Graph.neighbors (G : Graph) (u : Nat) : List Nat :=
  G.edges.filterMap (fun e =>
    if e.1 == u then some e.2.1
    else if !G.directed && e.2.1 == u then some e.1
    else none)

/-- The value of `std::numeric_limits<double>::max()`. -/
def doubleMax : ℚ := (2 ^ 53 - 1) * 2 ^ 971

/-- The value of `std::numeric_limits<double>::lowest()`. -/
def doubleLowest : ℚ := -doubleMax

/-- Modelled from the spec: the class `PartitionHubDominance` (its header is not part
of the sources): the graph and the partition it is constructed with, the members
that `run` assigns and the flag `hasRun` of its base class `Algorithm`. -/
structure PartitionHubDominance where
  G : Graph
  P : Partition
  weightedAverage : ℚ
  unweightedAverage : ℚ
  maximumValue : ℚ
  minimumValue : ℚ
  values : List ℚ
  hasRun : Bool

/-- The body of the loop over the nodes of `PartitionHubDominance::run` (lines
20-36) on the state `(maxInternalDeg, clusterSizes)`. -/
def PartitionHubDominance.nodeBody (G : Graph) (P : Partition) (u : Nat)
    (st : List Nat × List Nat) : Option (List Nat × List Nat) := do
  let cId ← P.data[u]?
  match cId with
  | none => pure st
  | some cId =>
    let internalDeg ← forEach (G.neighbors u) (fun v internalDeg => do
      let pv ← P.data[v]?
      pure (if pv == some cId then internalDeg + 1 else internalDeg)) 0
    let old ← st.1[cId]?
    let maxInternalDeg ← writeAt st.1 cId (max old internalDeg)
    let size ← st.2[cId]?
    let clusterSizes ← writeAt st.2 cId (size + 1)
    pure (maxInternalDeg, clusterSizes)

/-- The state of the loop over the clusters of `PartitionHubDominance::run`. -/
structure PartitionHubDominance.Sums where
  numClusters : Nat
  weightedAverage : ℚ
  unweightedAverage : ℚ
  maximumValue : ℚ
  minimumValue : ℚ
  values : List ℚ

/-- The body of the loop over the clusters of `PartitionHubDominance::run` (lines
48-64). -/
def PartitionHubDominance.clusterBody (maxInternalDeg clusterSizes : List Nat) (i : Nat)
    (s : PartitionHubDominance.Sums) : Option PartitionHubDominance.Sums := do
  let size ← clusterSizes[i]?
  if size > 0 then
    let deg ← maxInternalDeg[i]?
    let dominance : ℚ := if size > 1 then (deg : ℚ) * 1 / ((size - 1 : Nat) : ℚ) else 1
    let values ← writeAt s.values i dominance
    pure { numClusters := s.numClusters + 1,
           values := values,
           unweightedAverage := s.unweightedAverage + dominance,
           weightedAverage := dominance * (size : ℚ),
           maximumValue := max dominance s.maximumValue,
           minimumValue := min dominance s.minimumValue }
  else pure s

/-- `PartitionHubDominance::run` (lines 10-71). -/
def PartitionHubDominance.run (self : PartitionHubDominance) :
    Option PartitionHubDominance := do
  let maxInternalDeg : List Nat := List.replicate self.P.upperBound 0
  let clusterSizes : List Nat := List.replicate self.P.upperBound 0
  let (maxInternalDeg, clusterSizes) ←
    forUp self.G.n (PartitionHubDominance.nodeBody self.G self.P) (maxInternalDeg, clusterSizes)
  let s : PartitionHubDominance.Sums :=
    { numClusters := 0, weightedAverage := 0, unweightedAverage := 0,
      maximumValue := doubleLowest, minimumValue := doubleMax,
      values := resize [] self.P.upperBound 0 }
  let s ← forUp self.P.upperBound
    (PartitionHubDominance.clusterBody maxInternalDeg clusterSizes) s
  pure { self with
    unweightedAverage := s.unweightedAverage / (s.numClusters : ℚ),
    weightedAverage := s.weightedAverage / (self.G.n : ℚ),
    maximumValue := s.maximumValue,
    minimumValue := s.minimumValue,
    values := s.values,
    hasRun := true }

/-- The number of elements of the subset `cId` of a partition. -/
def Partition.subsetSize (P : Partition) (cId : Nat) : Nat :=
  (P.data.filter (fun x => x == some cId)).length

/-- The average of the hub dominance values of the non-empty clusters weighted by
the cluster sizes, `(sum over the non-empty clusters c of values[c] * size(c)) / n`. -/
def PartitionHubDominance.sizeWeightedAverage (self : PartitionHubDominance) : ℚ :=
  (((List.range self.P.upperBound).filter (fun cId => self.P.subsetSize cId > 0)).map
    (fun cId => self.values.getD cId 0 * (self.P.subsetSize cId : ℚ))).sum / (self.G.n : ℚ)

/-- The partition of the nodes 0 and 1 into the clusters `{0}` and `{1}`. -/
def twoSingletons : Partition := ⟨[some 0, some 1], 2⟩

/-! ## numerics/test/LAMGGTest.cpp -/

/-- Modelled from the spec: `Partition::getSubsetIds()` (structures/Partition.h is not
part of the sources), the `std::set` of the subset ids in use: each id once, in
increasing order. -/
def Partition.getSubsetIds (P : Partition) : List Nat :=
  ((P.data.filterMap (fun x => x)).dedup).insertionSort (fun a b => a ≤ b)

/-- Modelled from the spec: `Partition::getMembers(id)` (structures/Partition.h is not
part of the sources), the `std::set` of the elements of the subset `id`, in
increasing order. -/
def Partition.getMembers (P : Partition) (id : Nat) : List Nat :=
  (List.range P.data.length).filter (fun e => decide (P.data[e]? = some (some id)))

/-- Modelled from the spec: the partition that `ConnectedComponents::getPartition()`
returns after `run()` (components/ConnectedComponents.h is not part of the sources):
every node is in the subset named after the smallest node connected to it. -/
def ConnectedComponents.getPartition (G : Graph) : Partition :=
  ⟨(List.range G.n).map (fun u => some ((G.component u).foldl min u)), G.n⟩

/-- The body of the inner loop of `LAMGGTest::randZeroSum` (lines 103-106) on the
state `(b, sum, k)`, where `k` counts the values drawn so far and `rand k` is the
value that the call number `k` of `rand_value(rand)` returns. -/
def randZeroSumInner (rand : Nat → ℚ) (entry : Nat) (st : Vector × ℚ × Nat) :
    Option (Vector × ℚ × Nat) := do
  let b ← writeAt st.1 entry (rand st.2.2)
  let x ← b[entry]?
  pure (b, st.2.1 + x, st.2.2 + 1)

/-- The body of the loop over the components of `LAMGGTest::randZeroSum` (lines
99-108) on the state `(b, k)`. -/
def randZeroSumBody (comps : Partition) (rand : Nat → ℚ) (id : Nat) (st : Vector × Nat) :
    Option (Vector × Nat) := do
  let indexes := comps.getMembers id
  assertThat (indexes ≠ [])
  let (b, sum, k) ← forEach indexes (randZeroSumInner rand) (st.1, 0, st.2)
  let first ← indexes.head?
  let x ← b[first]?
  let b ← writeAt b first (x - sum)
  pure (b, k)

/-- `LAMGGTest::randZeroSum` (lines 88-111). The partition `comps` is what
`con.getPartition()` returns for the graph, and `rand k` is the value that the call
number `k` of `rand_value(rand)` returns for the seed. -/
def randZeroSum (G : Graph) (comps : Partition) (rand : Nat → ℚ) : Option Vector := do
  let n := G.n
  let b : Vector := List.replicate n 0
  let (b, _) ← forEach comps.getSubsetIds (randZeroSumBody comps rand) (b, 0)
  pure b

/-- The undirected graph with the two nodes 0 and 1 and the edge between them. -/
def oneEdge : Graph := ⟨2, false, [(0, 1, 1)]⟩

/-- The AlgebraicPageRank of the directed graph with the nodes 0, 1, 2 and the edge
from 0 to 1, for `damp = 1/2` and `tol = 1/4`, after `run()`: the scores are
`1/4, 1/2, 1/4`. -/
def oneArcRanked : AlgebraicPageRank :=
  { AlgebraicPageRank.new oneArc (1 / 2) (1 / 4) with
    scoreData := [.finite (1 / 4), .finite (1 / 2), .finite (1 / 4)], hasRun := true }

/-! # Theorems -/

/-! ## Loop rules -/

theorem forUp_succ {σ : Type} (n : Nat) (body : Nat → σ → Option σ) (s : σ) :
    forUp (n + 1) body s = (forUp n body s).bind (body n) := rfl

theorem writeAt_eq_some {α : Type} {v : List α} {i : Nat} {x : α} {w : List α} :
    writeAt v i x = some w ↔ i < v.length ∧ w = v.set i x := by
  unfold writeAt
  split <;> simp_all [eq_comm]

/-- A loop that only writes `r[i] = g i`: what it leaves when it completes. -/
theorem forUp_fill_some {α : Type} (g : Nat → Option α) (body : Nat → List α → Option (List α))
    (init : List α)
    (hbody : ∀ i r, r[i]? = init[i]? → body i r = (g i).bind (fun x => writeAt r i x))
    (k : Nat) (xs : List α) (h : forUp k body init = some xs) :
    xs.length = init.length ∧ k ≤ init.length ∧ (∀ i, i < k → g i = xs[i]?) ∧
      (∀ i, k ≤ i → xs[i]? = init[i]?) := by
  induction k generalizing xs with
  | zero =>
    simp only [forUp, Option.some.injEq] at h
    subst h
    simp
  | succ k ih =>
    rw [forUp_succ] at h
    obtain ⟨ys, hys, hb⟩ := Option.bind_eq_some.mp h
    obtain ⟨hlen, hk, hlt, hge⟩ := ih ys hys
    rw [hbody k ys (hge k le_rfl)] at hb
    obtain ⟨x, hx, hw⟩ := Option.bind_eq_some.mp hb
    obtain ⟨hkl, rfl⟩ := writeAt_eq_some.mp hw
    refine ⟨by simp [hlen], by omega, ?_, ?_⟩
    · intro i hi
      rcases Nat.lt_succ_iff_lt_or_eq.mp hi with h1 | h1
      · rw [List.getElem?_set_ne (by omega)]
        exact hlt i h1
      · subst h1
        simp [hx, hkl]
    · intro i hi
      rw [List.getElem?_set_ne (by omega)]
      exact hge i (by omega)

/-- A loop that only writes `r[i] = g i` completes when every `g i` is defined. -/
theorem forUp_fill_isSome {α : Type} (g : Nat → Option α) (body : Nat → List α → Option (List α))
    (init : List α)
    (hbody : ∀ i r, r[i]? = init[i]? → body i r = (g i).bind (fun x => writeAt r i x))
    (k : Nat) (hk : k ≤ init.length) (hg : ∀ i, i < k → (g i).isSome) :
    ∃ xs, forUp k body init = some xs := by
  induction k with
  | zero => exact ⟨init, rfl⟩
  | succ k ih =>
    obtain ⟨ys, hys⟩ := ih (by omega) (fun i hi => hg i (by omega))
    obtain ⟨hlen, -, -, hge⟩ := forUp_fill_some g body init hbody k ys hys
    obtain ⟨x, hx⟩ := Option.isSome_iff_exists.mp (hg k (by omega))
    refine ⟨ys.set k x, ?_⟩
    rw [forUp_succ, hys, Option.some_bind, hbody k ys (hge k le_rfl), hx, Option.some_bind]
    exact writeAt_eq_some.mpr ⟨by omega, rfl⟩

/-- A loop `for i < n: r[i] = g i` on a vector of dimension `n` returns `xs` exactly
when `xs` has dimension `n` and `xs[i] = g i` everywhere. -/
theorem forUp_fill_iff {α : Type} (g : Nat → Option α) (body : Nat → List α → Option (List α))
    (init : List α)
    (hbody : ∀ i r, r[i]? = init[i]? → body i r = (g i).bind (fun x => writeAt r i x))
    (xs : List α) :
    forUp init.length body init = some xs ↔
      xs.length = init.length ∧ ∀ i, i < init.length → g i = xs[i]? := by
  constructor
  · intro h
    obtain ⟨h1, -, h3, -⟩ := forUp_fill_some g body init hbody _ xs h
    exact ⟨h1, h3⟩
  · rintro ⟨h1, h2⟩
    obtain ⟨ys, hys⟩ := forUp_fill_isSome g body init hbody init.length le_rfl
      (fun i hi => by rw [h2 i hi]; simp [h1, hi])
    obtain ⟨g1, -, g3, -⟩ := forUp_fill_some g body init hbody _ ys hys
    rw [hys]
    congr 1
    apply List.ext_getElem? 
    intro i
    by_cases hi : i < init.length
    · rw [← g3 i hi, ← h2 i hi]
    · rw [List.getElem?_eq_none (by omega), List.getElem?_eq_none (by omega)]

/-! ## subVectorExtract -/

theorem subVectorExtract_eq_some_iff (v : Vector) (S : List Nat) (r : Vector) :
    subVectorExtract v S = some r ↔
      r.length = S.length ∧ ∀ i, i < S.length → (S[i]?).bind (fun e => v[e]?) = r[i]? := by
  have h := forUp_fill_iff (fun i => (S[i]?).bind (fun e => v[e]?))
    (fun i subVector => do
      let e ← S[i]?
      let x ← v[e]?
      writeAt subVector i x) (Vector.zero S.length)
    (fun i r _ => by
      show (S[i]?.bind fun e => v[e]?.bind fun x => writeAt r i x) = _
      rw [Option.bind_assoc]) r
  simpa [subVectorExtract, Vector.zero] using h

/-- `subVectorExtract` completes exactly when every element of `elements` is an
index of `vector`, and then returns `extract vector elements`. -/
theorem subVectorExtract_eq (v : Vector) (S : List Nat) :
    subVectorExtract v S = if ∀ e ∈ S, e < v.length then some (extract v S) else none := by
  split
  · rename_i h
    rw [subVectorExtract_eq_some_iff]
    refine ⟨by simp [extract], fun i hi => ?_⟩
    have hv : S[i] < v.length := h _ (List.getElem_mem hi)
    simp [extract, List.getElem?_eq_getElem hi, List.getElem?_eq_getElem hv,
      List.getD_eq_getElem?_getD]
  · rename_i h
    rw [Option.eq_none_iff_forall_not_mem]
    intro r hr
    apply h
    obtain ⟨h1, h2⟩ := (subVectorExtract_eq_some_iff v S r).mp hr
    intro e he
    obtain ⟨i, hi, rfl⟩ := List.mem_iff_getElem.mp he
    have := h2 i hi
    rw [List.getElem?_eq_getElem hi, Option.some_bind] at this
    by_contra hcon
    rw [List.getElem?_eq_none (by omega)] at this
    have h3 := List.getElem?_eq_none_iff.mp this.symm
    omega

theorem extract_length (v : Vector) (S : List Nat) : (extract v S).length = S.length := by
  simp [extract]

theorem extract_getElem? (v : Vector) (S : List Nat) (i : Nat) (hi : i < S.length) :
    (extract v S)[i]? = some (v.getD S[i] 0) := by
  simp [extract, List.getElem?_eq_getElem hi]

/-! ## Scatter loops -/

/-- The loop `for i < n: xf[F[i]] = X[i]` when the indices `F[0..n-1]` are distinct
indices of `xf`. -/
theorem forUp_scatter {α : Type} (F : List Nat) (X : List α) (xf0 : List α) (n : Nat)
    (hF : n ≤ F.length) (hX : n ≤ X.length)
    (hb : ∀ i e, i < n → F[i]? = some e → e < xf0.length)
    (hinj : ∀ i j e, i < n → j < n → F[i]? = some e → F[j]? = some e → i = j) :
    ∃ xs, forUp n (fun i xf => do
        let fi ← F[i]?
        let x ← X[i]?
        writeAt xf fi x) xf0 = some xs ∧
      xs.length = xf0.length ∧
      (∀ i e, i < n → F[i]? = some e → xs[e]? = X[i]?) ∧
      (∀ j, (∀ i, i < n → F[i]? ≠ some j) → xs[j]? = xf0[j]?) := by
  induction n with
  | zero => exact ⟨xf0, rfl, rfl, by simp, by simp⟩
  | succ n ih =>
    obtain ⟨ys, hys, hlen, hset, hkeep⟩ := ih (by omega) (by omega)
      (fun i e hi => hb i e (by omega))
      (fun i j e hi hj => hinj i j e (by omega) (by omega))
    have hFn : F[n]? = some F[n] := List.getElem?_eq_getElem (by omega)
    have hXn : X[n]? = some X[n] := List.getElem?_eq_getElem (by omega)
    have hbn : F[n] < ys.length := by
      rw [hlen]; exact hb n _ (by omega) hFn
    refine ⟨ys.set F[n] X[n], ?_, by simp [hlen], ?_, ?_⟩
    · rw [forUp_succ, hys]
      simp [hFn, hXn, writeAt, hbn]
    · intro i e hi he
      rcases Nat.lt_succ_iff_lt_or_eq.mp hi with h1 | h1
      · have hne : F[n] ≠ e := by
          intro hcon
          have := hinj i n e (by omega) (by omega) he (by rw [hFn, hcon])
          omega
        rw [List.getElem?_set_ne hne]
        exact hset i e h1 he
      · subst h1
        rw [hFn] at he
        cases he
        rw [List.getElem?_set_self hbn, hXn]
    · intro j hj
      have hne : F[n] ≠ j := by
        intro hcon
        exact hj n (by omega) (by rw [hFn, hcon])
      rw [List.getElem?_set_ne hne]
      exact hkeep j (fun i hi => hj i (by omega))

/-- A loop `for i < n: r[i] = f i` on a vector of dimension `n`. -/
theorem forUp_fill_eq {α : Type} (g : Nat → Option α) (f : Nat → α)
    (body : Nat → List α → Option (List α)) (init : List α)
    (hbody : ∀ i r, r[i]? = init[i]? → body i r = (g i).bind (fun x => writeAt r i x))
    (hg : ∀ i, i < init.length → g i = some (f i)) :
    forUp init.length body init = some ((List.range init.length).map f) := by
  rw [forUp_fill_iff g body init hbody]
  refine ⟨by simp, fun i hi => ?_⟩
  rw [hg i hi]
  simp [List.getElem?_range hi]

/-! ## Consequences of the partition invariant -/

theorem EliminationStage.Partition.nodup {s : EliminationStage} (h : s.Partition) :
    (s.fSet ++ s.cSet).Nodup :=
  (List.Perm.nodup_iff h).mpr (List.nodup_range s.n)

theorem EliminationStage.Partition.length_eq {s : EliminationStage} (h : s.Partition) :
    s.fSet.length + s.cSet.length = s.n := by
  have := List.Perm.length_eq h
  simpa using this

theorem EliminationStage.Partition.fSet_lt {s : EliminationStage} (h : s.Partition)
    (e : Nat) (he : e ∈ s.fSet) : e < s.n := by
  have : e ∈ List.range s.n := (List.Perm.mem_iff h).mp (List.mem_append_left _ he)
  simpa using this

theorem EliminationStage.Partition.cSet_lt {s : EliminationStage} (h : s.Partition)
    (e : Nat) (he : e ∈ s.cSet) : e < s.n := by
  have : e ∈ List.range s.n := (List.Perm.mem_iff h).mp (List.mem_append_right _ he)
  simpa using this

theorem EliminationStage.Partition.disjoint {s : EliminationStage} (h : s.Partition)
    (e : Nat) (hf : e ∈ s.fSet) (hc : e ∈ s.cSet) : False :=
  (List.nodup_append.mp h.nodup).2.2 hf hc

theorem nodup_getElem?_inj {l : List Nat} (h : l.Nodup) (i j e : Nat)
    (hi : l[i]? = some e) (hj : l[j]? = some e) : i = j := by
  obtain ⟨hi1, hi2⟩ := List.getElem?_eq_some.mp hi
  obtain ⟨hj1, hj2⟩ := List.getElem?_eq_some.mp hj
  exact (List.Nodup.getElem_inj_iff h).mp (hi2.trans hj2.symm)

/-! ## One stage of interpolate -/

theorem Vector.add_eq (a b : Vector) (h : a.length = b.length) :
    Vector.add a b = some (List.zipWith (· + ·) a b) := by
  simp [Vector.add, h]

theorem Matrix.mulVec_eq (M : Matrix) (v : Vector) (h : M.numberOfColumns = v.length) :
    M.mulVec v = some ((List.range M.numberOfRows).map (M.rowDot v)) := by
  simp [Matrix.mulVec, h]

/-- One stage of `interpolate` on vectors of the right dimensions: the F-entries
are `P * currX + q .* b_F`, the C-entries are those of `currX`. -/
theorem interpolateStage_valid (s : EliminationStage) (currX bk : Vector)
    (hpart : s.Partition) (hP1 : s.P.numberOfRows = s.fSet.length)
    (hP2 : s.P.numberOfColumns = s.cSet.length) (hq : s.fSet.length ≤ s.q.length)
    (hx : currX.length = s.cSet.length) (hb : bk.length = s.n) :
    ∃ xf, interpolateStage s currX bk = some xf ∧ xf.length = s.n ∧
      (∀ i (h : i < s.fSet.length),
        xf[s.fSet[i]]? = some (s.P.rowDot currX i + s.q.getD i 0 * bk.getD s.fSet[i] 0)) ∧
      (∀ i (h : i < s.cSet.length), xf[s.cSet[i]]? = some (currX.getD i 0)) := by
  have hnd := List.nodup_append.mp hpart.nodup
  have h1 : subVectorExtract bk s.fSet = some (extract bk s.fSet) := by
    rw [subVectorExtract_eq, if_pos]
    intro e he
    rw [hb]
    exact hpart.fSet_lt e he
  have h2 := forUp_fill_eq
    (fun i => (s.q[i]?).bind (fun qi => ((extract bk s.fSet)[i]?).bind (fun bi => some (qi * bi))))
    (fun i => s.q.getD i 0 * bk.getD (s.fSet.getD i 0) 0)
    (fun i bq => do
      let qi ← s.q[i]?
      let bi ← (extract bk s.fSet)[i]?
      writeAt bq i (qi * bi))
    (Vector.zero (extract bk s.fSet).length)
    (fun i r _ => by
      show (s.q[i]?.bind fun qi => (extract bk s.fSet)[i]?.bind fun bi => writeAt r i (qi * bi)) =
        (s.q[i]?.bind fun qi => (extract bk s.fSet)[i]?.bind fun bi => some (qi * bi)).bind
          fun x => writeAt r i x
      simp only [Option.bind_assoc, Option.some_bind])
    (fun i hi => by
      have hi1 : i < s.fSet.length := by simpa [Vector.zero, extract] using hi
      have hi2 : i < s.q.length := by omega
      beta_reduce
      rw [List.getElem?_eq_getElem hi2, extract_getElem? bk s.fSet i hi1]
      simp [List.getD_eq_getElem?_getD, List.getElem?_eq_getElem hi2,
        List.getElem?_eq_getElem hi1])
  have h3 := s.P.mulVec_eq currX (by omega)
  set bqv : Vector := (List.range (Vector.zero (extract bk s.fSet).length).length).map
    (fun i => s.q.getD i 0 * bk.getD (s.fSet.getD i 0) 0) with hbqv
  have hbql : bqv.length = s.fSet.length := by simp [hbqv, Vector.zero, extract]
  set Px : Vector := (List.range s.P.numberOfRows).map (s.P.rowDot currX) with hPx
  have hPxl : Px.length = s.fSet.length := by simp [hPx, hP1]
  have h4 := Vector.add_eq Px bqv (by omega)
  set xF : Vector := List.zipWith (· + ·) Px bqv with hxF
  have hxFl : xF.length = s.fSet.length := by simp [hxF, hPxl, hbql]
  obtain ⟨xs1, hs1, hl1, hset1, -⟩ := forUp_scatter s.fSet xF (Vector.zero s.n) xF.length
    (by omega) le_rfl
    (fun i e _ he => by
      simpa [Vector.zero] using hpart.fSet_lt e (List.mem_iff_getElem?.mpr ⟨i, he⟩))
    (fun i j e _ _ hi hj => nodup_getElem?_inj hnd.1 i j e hi hj)
  obtain ⟨xs2, hs2, hl2, hset2, hkeep2⟩ := forUp_scatter s.cSet currX xs1 currX.length
    (by omega) le_rfl
    (fun i e _ he => by
      rw [hl1]
      simpa [Vector.zero] using hpart.cSet_lt e (List.mem_iff_getElem?.mpr ⟨i, he⟩))
    (fun i j e _ _ hi hj => nodup_getElem?_inj hnd.2.1 i j e hi hj)
  refine ⟨xs2, ?_, by simp [hl2, hl1, Vector.zero], ?_, ?_⟩
  · simp only [Option.bind_eq_bind] at h2 hs1 hs2
    simp only [interpolateStage, Option.bind_eq_bind, h1, Option.some_bind, h2, h3, h4, hs1,
      hs2, Option.pure_def]
  · intro i hi
    have hFi : s.fSet[i]? = some s.fSet[i] := List.getElem?_eq_getElem hi
    rw [hkeep2 _ (fun j _ hj => hpart.disjoint s.fSet[i] (List.getElem_mem hi)
      (List.mem_iff_getElem?.mpr ⟨j, hj⟩)), hset1 i _ (by omega) hFi]
    have hiP : Px[i]? = some (s.P.rowDot currX i) := by
      simp [hPx, List.getElem?_range (by omega : i < s.P.numberOfRows)]
    have hib : bqv[i]? = some (s.q.getD i 0 * bk.getD s.fSet[i] 0) := by
      have : i < (Vector.zero (extract bk s.fSet).length).length := by
        simpa [Vector.zero, extract] using hi
      simp [hbqv, List.getElem?_range this, List.getD_eq_getElem?_getD, hFi]
    simp [hxF, List.getElem?_zipWith, hiP, hib]
  · intro i hi
    have hCi : s.cSet[i]? = some s.cSet[i] := List.getElem?_eq_getElem hi
    rw [hset2 i _ (by omega) hCi, List.getD_eq_getElem?_getD,
      List.getElem?_eq_getElem (by omega : i < currX.length)]
    rfl

/-- What must hold for one stage of `interpolate` to complete: `P * currX` is defined
and has one entry per F-index, and `q` has an entry for every F-index. -/
theorem interpolateStage_dims (s : EliminationStage) (currX bk xf : Vector)
    (h : interpolateStage s currX bk = some xf) :
    s.P.numberOfRows = s.fSet.length ∧ s.P.numberOfColumns = currX.length ∧
      s.fSet.length ≤ s.q.length := by
  simp only [interpolateStage, Option.bind_eq_bind] at h
  obtain ⟨bF, h1, h⟩ := Option.bind_eq_some.mp h
  obtain ⟨bq, h2, h⟩ := Option.bind_eq_some.mp h
  obtain ⟨Px, h3, h⟩ := Option.bind_eq_some.mp h
  obtain ⟨xF, h4, -⟩ := Option.bind_eq_some.mp h
  have hbF : bF.length = s.fSet.length := ((subVectorExtract_eq_some_iff bk s.fSet bF).mp h1).1
  obtain ⟨hbq, -, hfill, -⟩ := forUp_fill_some
    (fun i => (s.q[i]?).bind (fun qi => (bF[i]?).bind (fun bi => some (qi * bi))))
    _ (Vector.zero bF.length)
    (fun i r _ => by
      show (s.q[i]?.bind fun qi => bF[i]?.bind fun bi => writeAt r i (qi * bi)) =
        (s.q[i]?.bind fun qi => bF[i]?.bind fun bi => some (qi * bi)).bind
          fun x => writeAt r i x
      simp only [Option.bind_assoc, Option.some_bind]) _ bq h2
  have hbql : bq.length = s.fSet.length := by simpa [Vector.zero, hbF] using hbq
  have hPx : s.P.numberOfColumns = currX.length ∧ Px.length = s.P.numberOfRows := by
    unfold Matrix.mulVec at h3
    split at h3
    · rename_i hc
      cases h3
      exact ⟨hc, by simp⟩
    · cases h3
  have hadd : Px.length = bq.length := by
    unfold Vector.add at h4
    split at h4
    · assumption
    · cases h4
  refine ⟨by omega, hPx.1, ?_⟩
  by_contra hcon
  have hlt : s.q.length < s.fSet.length := by omega
  have := hfill s.q.length (by simpa [Vector.zero, hbF] using hlt)
  rw [List.getElem?_eq_none (le_refl _), Option.none_bind,
    List.getElem?_eq_getElem (by omega : s.q.length < bq.length)] at this
  cases this

/-! ## The loops of restrict and interpolate -/

theorem forEach_restrictBody (stages : List EliminationStage) :
    ∀ (bc : Vector) (pre post : List Vector) (cur : Nat),
      pre.length = cur + 1 → post.length = stages.length →
      forEach stages restrictBody (bc, pre ++ post, cur) =
        (restrictStages stages bc).map
          (fun bs => (bs.getLastD bc, pre ++ bs, cur + stages.length)) := by
  induction stages with
  | nil =>
    intro bc pre post cur _ hpost
    have : post = [] := List.length_eq_zero.mp hpost
    subst this
    simp [forEach, restrictStages]
  | cons s ss ih =>
    intro bc pre post cur hpre hpost
    obtain ⟨p, post1, rfl⟩ : ∃ p post1, post = p :: post1 := by
      cases post with
      | nil => simp at hpost
      | cons p post1 => exact ⟨p, post1, rfl⟩
    simp only [forEach, restrictBody, restrictStages, Option.bind_eq_bind, Option.pure_def]
    rcases hrs : restrictStage s bc with _ | b1
    · simp
    · have hw : writeAt (pre ++ p :: post1) (cur + 1) b1 = some ((pre ++ [b1]) ++ post1) := by
        rw [writeAt_eq_some]
        refine ⟨by simp; omega, ?_⟩
        rw [← hpre, List.set_append_right _ _ le_rfl]
        simp
      simp only [Option.some_bind, hw]
      rw [ih b1 (pre ++ [b1]) post1 (cur + 1) (by simp [hpre]) (by simpa using hpost)]
      rcases restrictStages ss b1 with _ | bs
      · simp
      · have hl : bs.getLast?.getD b1 = (b1 :: bs).getLast?.getD bc := by
          cases bs with
          | nil => simp
          | cons h t =>
            rw [List.getLast?_cons_cons, List.getLast?_eq_getLast _ (List.cons_ne_nil h t)]
            simp
        simp [hl, Nat.add_assoc, Nat.add_comm 1]

/-- `restrict` runs the stages in construction order; whatever `bStages` holds on
entry, on exit it is `bf` followed by the right-hand sides of the stages, and `bc`
is the last of them. -/
theorem restrict_eq (L : LevelElimination) (bf : Vector) (bStages : List Vector) :
    L.restrict bf bStages =
      (restrictStages L.coarseningStages bf).map (fun bs => (bs.getLastD bf, bf :: bs)) := by
  have hlen : (resize bStages (L.coarseningStages.length + 1) ([] : Vector)).length =
      L.coarseningStages.length + 1 := by
    simp [resize]; omega
  obtain ⟨p, post, hp⟩ : ∃ p post,
      resize bStages (L.coarseningStages.length + 1) ([] : Vector) = p :: post := by
    cases h : resize bStages (L.coarseningStages.length + 1) ([] : Vector) with
    | nil => rw [h] at hlen; simp at hlen
    | cons p post => exact ⟨p, post, rfl⟩
  have hpost : post.length = L.coarseningStages.length := by
    rw [hp] at hlen; simpa using hlen
  have hw : writeAt (resize bStages (L.coarseningStages.length + 1) ([] : Vector)) 0 bf =
      some ([bf] ++ post) := by
    rw [hp, writeAt_eq_some]; simp
  simp only [LevelElimination.restrict, Option.bind_eq_bind, hw, Option.some_bind,
    Option.pure_def]
  rw [forEach_restrictBody L.coarseningStages bf [bf] post 0 rfl hpost]
  rcases restrictStages L.coarseningStages bf with _ | bs <;> simp

theorem forDown_succ_last {σ : Type} (n : Nat) (body : Nat → σ → Option σ) :
    ∀ s, forDown (n + 1) body s = (forDown n (fun k => body (k + 1)) s).bind (body 0) := by
  induction n with
  | zero =>
    intro s
    simp only [forDown, Option.some_bind]
    cases body 0 s <;> rfl
  | succ n ih =>
    intro s
    show (body (n + 1) s).bind (forDown (n + 1) body) = _
    rw [funext ih]
    show _ = ((body (n + 1) s).bind (forDown n fun k => body (k + 1))).bind (body 0)
    rw [Option.bind_assoc]

theorem interpolateBody_succ (A : Matrix) (cIndexFine : List Nat) (s : EliminationStage)
    (ss : List EliminationStage) (bStages : List Vector) :
    (fun k => interpolateBody ⟨A, s :: ss, cIndexFine⟩ bStages (k + 1)) =
      interpolateBody ⟨A, ss, cIndexFine⟩ bStages.tail := by
  funext k st
  cases bStages <;> simp [interpolateBody]

theorem forDown_interpolateBody (A : Matrix) (cIndexFine : List Nat)
    (stages : List EliminationStage) :
    ∀ (bStages : List Vector) (x xf : Vector),
      forDown stages.length (interpolateBody ⟨A, stages, cIndexFine⟩ bStages) (x, xf) =
        (interpolateStages stages x bStages).map
          (fun r => (r, if stages.isEmpty then xf else r)) := by
  induction stages with
  | nil => intro bStages x xf; simp [forDown, interpolateStages]
  | cons s ss ih =>
    intro bStages x xf
    rw [List.length_cons, forDown_succ_last, interpolateBody_succ, ih]
    simp only [interpolateStages, Option.bind_eq_bind]
    rcases interpolateStages ss x bStages.tail with _ | r
    · simp
    · cases bStages with
      | nil => simp [interpolateBody]
      | cons b bs =>
        simp only [Option.map_some', Option.some_bind, interpolateBody, List.getElem?_cons_zero,
          Option.bind_eq_bind, List.head?_cons, Option.pure_def]
        rcases interpolateStage s r b with _ | x1 <;> simp

/-- `interpolate` runs the stages from the last one to the first one, stage `k` with
`bStages[k]`; without any stage it leaves `xf` as it was on entry. -/
theorem interpolate_eq (L : LevelElimination) (xc xf : Vector) (bStages : List Vector) :
    L.interpolate xc xf bStages =
      if L.coarseningStages.isEmpty then some xf
      else interpolateStages L.coarseningStages xc bStages := by
  obtain ⟨A, stages, ci⟩ := L
  simp only [LevelElimination.interpolate, Option.bind_eq_bind, forDown_interpolateBody,
    Option.pure_def]
  cases stages with
  | nil => simp [interpolateStages]
  | cons s ss =>
    rcases h : interpolateStages (s :: ss) xc bStages with _ | r <;> simp

/-! ## One stage of restrict -/

/-- One stage of `restrict` completes exactly when the sets hold indices of `b` and
`R` has the dimensions of the sets; the result is `b_C + R * b_F`. -/
theorem restrictStage_eq (s : EliminationStage) (b : Vector) :
    restrictStage s b =
      if (∀ e ∈ s.cSet, e < b.length) ∧ (∀ e ∈ s.fSet, e < b.length) ∧
          s.R.numberOfColumns = s.fSet.length ∧ s.cSet.length = s.R.numberOfRows then
        some (List.zipWith (· + ·) (extract b s.cSet)
          ((List.range s.R.numberOfRows).map (s.R.rowDot (extract b s.fSet))))
      else none := by
  simp only [restrictStage, Option.bind_eq_bind, subVectorExtract_eq]
  by_cases hall : (∀ e ∈ s.cSet, e < b.length) ∧ (∀ e ∈ s.fSet, e < b.length) ∧
      s.R.numberOfColumns = s.fSet.length ∧ s.cSet.length = s.R.numberOfRows
  · obtain ⟨hC, hF, hR, hR2⟩ := hall
    rw [if_pos hC, if_pos hF, if_pos ⟨hC, hF, hR, hR2⟩]
    simp [hR, hR2, Matrix.mulVec, Vector.add, extract_length]
  · rw [if_neg hall]
    by_cases hC : ∀ e ∈ s.cSet, e < b.length
    · by_cases hF : ∀ e ∈ s.fSet, e < b.length
      · rw [if_pos hC, if_pos hF]
        by_cases hR : s.R.numberOfColumns = s.fSet.length
        · have hR2 : ¬ s.cSet.length = s.R.numberOfRows := fun h => hall ⟨hC, hF, hR, h⟩
          simp [hR, hR2, Matrix.mulVec, Vector.add, extract_length]
        · simp [hR, Matrix.mulVec, extract_length]
      · rw [if_pos hC, if_neg hF]
        simp
    · rw [if_neg hC]
      simp

theorem restrictStage_length (s : EliminationStage) (b b1 : Vector)
    (h : restrictStage s b = some b1) : b1.length = s.cSet.length := by
  rw [restrictStage_eq] at h
  split at h
  · rename_i hc
    cases h
    simp [extract_length, hc.2.2.2]
  · cases h

theorem restrictStage_valid (s : EliminationStage) (b : Vector) (hpart : s.Partition)
    (hdims : s.OperatorDims) (hb : b.length = s.n) :
    ∃ b1, restrictStage s b = some b1 ∧ b1.length = s.cSet.length := by
  obtain ⟨-, -, hR1, hR2, -⟩ := hdims
  have : restrictStage s b ≠ none := by
    rw [restrictStage_eq, if_pos]
    · simp
    · exact ⟨fun e he => hb ▸ hpart.cSet_lt e he, fun e he => hb ▸ hpart.fSet_lt e he, hR2,
        hR1.symm⟩
  obtain ⟨b1, hb1⟩ := Option.ne_none_iff_exists'.mp this
  exact ⟨b1, hb1, restrictStage_length s b b1 hb1⟩

/-! ## All stages of restrict -/

theorem restrictStages_some (stages : List EliminationStage) :
    ∀ (b : Vector) (bs : List Vector), restrictStages stages b = some bs →
      bs.length = stages.length ∧
      ∀ k (hk : k < stages.length), ∃ bk bk1,
        (b :: bs)[k]? = some bk ∧ bs[k]? = some bk1 ∧ restrictStage stages[k] bk = some bk1 := by
  induction stages with
  | nil =>
    intro b bs h
    simp only [restrictStages, Option.some.injEq] at h
    subst h
    simp
  | cons s ss ih =>
    intro b bs h
    simp only [restrictStages, Option.bind_eq_bind, Option.pure_def] at h
    obtain ⟨b1, hb1, h⟩ := Option.bind_eq_some.mp h
    obtain ⟨bs1, hbs1, h⟩ := Option.bind_eq_some.mp h
    cases h
    obtain ⟨hlen, hstep⟩ := ih b1 bs1 hbs1
    refine ⟨by simp [hlen], fun k hk => ?_⟩
    cases k with
    | zero => exact ⟨b, b1, by simp, by simp, by simpa using hb1⟩
    | succ k =>
      obtain ⟨bk, bk1, h1, h2, h3⟩ := hstep k (by simpa using hk)
      exact ⟨bk, bk1, by simpa using h1, by simpa using h2, by simpa using h3⟩

/-- `restrict` completes exactly on the right-hand sides and stages whose dimensions
fit. -/
theorem restrictStages_isSome_iff (stages : List EliminationStage) :
    ∀ (b : Vector), (restrictStages stages b).isSome ↔ RestrictDims stages b.length := by
  induction stages with
  | nil => intro b; simp [restrictStages, RestrictDims]
  | cons s ss ih =>
    intro b
    simp only [restrictStages, Option.bind_eq_bind, Option.pure_def, RestrictDims]
    rw [restrictStage_eq]
    by_cases hc : (∀ e ∈ s.cSet, e < b.length) ∧ (∀ e ∈ s.fSet, e < b.length) ∧
        s.R.numberOfColumns = s.fSet.length ∧ s.cSet.length = s.R.numberOfRows
    · rw [if_pos hc, Option.some_bind]
      have hl : (List.zipWith (· + ·) (extract b s.cSet)
          ((List.range s.R.numberOfRows).map (s.R.rowDot (extract b s.fSet)))).length =
          s.cSet.length := by
        simp [extract_length, hc.2.2.2]
      have := ih (List.zipWith (· + ·) (extract b s.cSet)
          ((List.range s.R.numberOfRows).map (s.R.rowDot (extract b s.fSet))))
      rw [hl] at this
      rw [← this]
      cases restrictStages ss (List.zipWith (· + ·) (extract b s.cSet)
          ((List.range s.R.numberOfRows).map (s.R.rowDot (extract b s.fSet)))) with
      | none => simp
      | some bs => simpa using ⟨hc.1, hc.2.1, hc.2.2.1, hc.2.2.2⟩
    · rw [if_neg hc]
      simp [hc]

theorem restrictStages_valid (stages : List EliminationStage) :
    ∀ (b : Vector) (nCoarse : Nat), ValidStages stages b.length nCoarse →
      ∃ bs, restrictStages stages b = some bs ∧ RhsDims stages (b :: bs) ∧
        (bs.getLastD b).length = nCoarse := by
  induction stages with
  | nil =>
    intro b nCoarse h
    exact ⟨[], rfl, trivial, h⟩
  | cons s ss ih =>
    intro b nCoarse h
    obtain ⟨hn, hpart, hdims, hrest⟩ := h
    obtain ⟨b1, hb1, hl1⟩ := restrictStage_valid s b hpart hdims hn.symm
    obtain ⟨bs, hbs, hd, hlast⟩ := ih b1 nCoarse (hl1 ▸ hrest)
    refine ⟨b1 :: bs, by simp [restrictStages, hb1, hbs], ⟨hn.symm, ?_⟩, ?_⟩
    · cases ss with
      | nil => trivial
      | cons s1 ss1 => exact hd
    · rw [← hlast]
      cases bs with
      | nil => rfl
      | cons h t =>
        simp only [List.getLastD_eq_getLast?, List.getLast?_cons_cons,
          List.getLast?_eq_getLast _ (List.cons_ne_nil h t), Option.getD_some]

/-! ## The constructor and coarseType -/

/-- The inner loop of the constructor (lines 44-47) replaces every entry `ci` of
`cIndexFine` by `cSet[ci]`. -/
theorem newInner_iff (s : EliminationStage) (cIdx r : List Nat) :
    newInner s cIdx = some r ↔
      r.length = cIdx.length ∧
        ∀ i, i < cIdx.length → (cIdx[i]?).bind (fun ci => s.cSet[ci]?) = r[i]? := by
  apply forUp_fill_iff (fun i => (cIdx[i]?).bind (fun ci => s.cSet[ci]?))
  intro i r hr
  show (r[i]?.bind fun ci => (assertThat (ci < s.cSet.length)).bind fun _ =>
      s.cSet[ci]?.bind fun v => writeAt r i v) = _
  rw [hr]
  rcases cIdx[i]? with _ | ci
  · rfl
  · by_cases h : ci < s.cSet.length
    · simp [assertThat, h]
    · simp [assertThat, h, List.getElem?_eq_none (Nat.le_of_not_lt h)]

theorem newBody_succ (s : EliminationStage) (ss : List EliminationStage) :
    (fun k => newBody (s :: ss) (k + 1)) = newBody ss := by
  funext k cIdx
  simp [newBody]

/-- The outer loop of the constructor (lines 43-48): when it completes, every entry
`ci` of `cIndexFine` has become `C_0[C_1[..C_{m-1}[ci]..]]`. -/
theorem newOuter_some (stages : List EliminationStage) :
    ∀ (cIdx r : List Nat), forDown stages.length (newBody stages) cIdx = some r →
      r.length = cIdx.length ∧
        ∀ i, i < cIdx.length → (cIdx[i]?).bind (compIndex stages) = r[i]? := by
  induction stages with
  | nil =>
    intro cIdx r h
    simp only [List.length_nil, forDown, Option.some.injEq] at h
    subst h
    refine ⟨rfl, fun i hi => ?_⟩
    rw [List.getElem?_eq_getElem hi]
    rfl
  | cons s ss ih =>
    intro cIdx r h
    rw [List.length_cons, forDown_succ_last, newBody_succ] at h
    obtain ⟨c1, hc1, h⟩ := Option.bind_eq_some.mp h
    obtain ⟨hl1, hi1⟩ := ih cIdx c1 hc1
    simp only [newBody, List.getElem?_cons_zero, Option.bind_eq_bind, Option.some_bind] at h
    have h2 := (newInner_iff s c1 r).mp h
    refine ⟨by omega, fun i hi => ?_⟩
    rw [← h2.2 i (by omega), ← hi1 i hi]
    simp only [compIndex]
    rw [Option.bind_assoc]

/-- The outer loop of the constructor completes when every composed index is
defined. -/
theorem newOuter_isSome (stages : List EliminationStage) :
    ∀ (cIdx : List Nat),
      (∀ i, i < cIdx.length → ((cIdx[i]?).bind (compIndex stages)).isSome) →
      ∃ r, forDown stages.length (newBody stages) cIdx = some r := by
  induction stages with
  | nil => intro cIdx _; exact ⟨cIdx, rfl⟩
  | cons s ss ih =>
    intro cIdx h
    obtain ⟨c1, hc1⟩ := ih cIdx (fun i hi => by
      have := h i hi
      simp only [compIndex] at this
      rw [← Option.bind_assoc] at this
      rcases hb : cIdx[i]?.bind (compIndex ss) with _ | j
      · rw [hb] at this; simp at this
      · rfl)
    obtain ⟨hl1, hi1⟩ := newOuter_some ss cIdx c1 hc1
    have hex : ∀ i, i < c1.length → ∃ v, (c1[i]?).bind (fun ci => s.cSet[ci]?) = some v := by
      intro i hi
      have := h i (by omega)
      simp only [compIndex] at this
      rw [← Option.bind_assoc, hi1 i (by omega)] at this
      exact Option.isSome_iff_exists.mp this
    have hin := (newInner_iff s c1
      ((List.range c1.length).map
        (fun i => ((c1[i]?).bind (fun ci => s.cSet[ci]?)).getD 0))).mpr
      ⟨by simp, fun i hi => by
        obtain ⟨v, hv⟩ := hex i hi
        simp [List.getElem?_range hi, hv]⟩
    refine ⟨(List.range c1.length).map
        (fun i => ((c1[i]?).bind (fun ci => s.cSet[ci]?)).getD 0), ?_⟩
    rw [List.length_cons, forDown_succ_last, newBody_succ, hc1]
    simp only [Option.some_bind, newBody, List.getElem?_cons_zero, Option.bind_eq_bind]
    exact hin

theorem newInit_eq (n : Nat) :
    forUp (List.replicate n 0).length (fun i cIdx => writeAt cIdx i i) (List.replicate n 0) =
      some (List.range n) := by
  have := forUp_fill_eq (fun i => some i) id (fun i cIdx => writeAt cIdx i i)
    (List.replicate n 0) (fun i r _ => rfl) (fun i _ => rfl)
  simpa using this

/-- What the constructor leaves in `cIndexFine`: one entry per row of the coarse
matrix, entry `i` being `C_0[C_1[..C_{m-1}[i]..]]`. -/
theorem new_some (A : Matrix) (stages : List EliminationStage) (L : LevelElimination)
    (h : LevelElimination.new A stages = some L) :
    L.A = A ∧ L.coarseningStages = stages ∧ L.cIndexFine.length = A.numberOfRows ∧
      ∀ i, i < A.numberOfRows → L.cIndexFine[i]? = compIndex stages i := by
  simp only [LevelElimination.new, Option.bind_eq_bind, newInit_eq, Option.some_bind,
    Option.pure_def] at h
  obtain ⟨r, hr, h⟩ := Option.bind_eq_some.mp h
  cases h
  obtain ⟨h1, h2⟩ := newOuter_some stages _ r hr
  refine ⟨rfl, rfl, by simpa using h1, fun i hi => ?_⟩
  have := h2 i (by simpa using hi)
  rw [List.getElem?_range hi, Option.some_bind] at this
  exact this.symm

theorem new_isSome (A : Matrix) (stages : List EliminationStage)
    (h : ∀ i, i < A.numberOfRows → (compIndex stages i).isSome) :
    ∃ L, LevelElimination.new A stages = some L := by
  obtain ⟨r, hr⟩ := newOuter_isSome stages (List.range A.numberOfRows) (fun i hi => by
    have hi : i < A.numberOfRows := by simpa using hi
    rw [List.getElem?_range hi, Option.some_bind]
    exact h i hi)
  exact ⟨⟨A, stages, r⟩, by
    simp only [LevelElimination.new, Option.bind_eq_bind, newInit_eq, Option.some_bind, hr,
      Option.pure_def]⟩

/-- `coarseType` returns `r` exactly when `r` has one entry per row of the coarse
matrix and `r[i] = xf[cIndexFine[i]]`. -/
theorem coarseType_iff (L : LevelElimination) (xf r : Vector) :
    L.coarseType xf = some r ↔
      r.length = L.A.numberOfRows ∧
        ∀ i, i < L.A.numberOfRows → (L.cIndexFine[i]?).bind (fun ci => xf[ci]?) = r[i]? := by
  have h := forUp_fill_iff (fun i => (L.cIndexFine[i]?).bind (fun ci => xf[ci]?))
    (fun i xc => do
      let ci ← L.cIndexFine[i]?
      let x ← xf[ci]?
      writeAt xc i x) (Vector.zero L.A.numberOfRows)
    (fun i r _ => by
      show (L.cIndexFine[i]?.bind fun e => xf[e]?.bind fun x => writeAt r i x) = _
      rw [Option.bind_assoc]) r
  simpa [LevelElimination.coarseType, Vector.zero] using h

/-! ## Composed indices along valid stages -/

theorem validStages_cSetChain (stages : List EliminationStage) :
    ∀ (nFine nCoarse : Nat), ValidStages stages nFine nCoarse →
      CSetChain stages nFine nCoarse := by
  induction stages with
  | nil => intro nFine nCoarse h; exact h
  | cons s ss ih =>
    intro nFine nCoarse h
    obtain ⟨hn, hpart, -, hrest⟩ := h
    exact ⟨fun e he => hn ▸ hpart.cSet_lt e he, ih _ _ hrest⟩

theorem compIndex_valid (stages : List EliminationStage) :
    ∀ (nFine nCoarse i : Nat), CSetChain stages nFine nCoarse → i < nCoarse →
      ∃ j, compIndex stages i = some j ∧ j < nFine := by
  induction stages with
  | nil =>
    intro nFine nCoarse i h hi
    exact ⟨i, rfl, by rw [show nFine = nCoarse from h]; exact hi⟩
  | cons s ss ih =>
    intro nFine nCoarse i h hi
    obtain ⟨hlt, hrest⟩ := h
    obtain ⟨j, hj, hjlt⟩ := ih s.cSet.length nCoarse i hrest hi
    refine ⟨s.cSet[j], ?_, ?_⟩
    · simp [compIndex, hj, List.getElem?_eq_getElem hjlt]
    · exact hlt _ (List.getElem_mem hjlt)

theorem extractStages_valid (stages : List EliminationStage) :
    ∀ (xf : Vector) (nCoarse : Nat), CSetChain stages xf.length nCoarse →
      (extractStages stages xf).length = nCoarse ∧
        ∀ i, i < nCoarse →
          (extractStages stages xf)[i]? = (compIndex stages i).bind (fun j => xf[j]?) := by
  induction stages with
  | nil =>
    intro xf nCoarse h
    exact ⟨h, fun i _ => rfl⟩
  | cons s ss ih =>
    intro xf nCoarse h
    obtain ⟨hltC, hrest⟩ := h
    have hv : CSetChain ss (extract xf s.cSet).length nCoarse := by
      rw [extract_length]; exact hrest
    obtain ⟨h1, h2⟩ := ih (extract xf s.cSet) nCoarse hv
    refine ⟨h1, fun i hi => ?_⟩
    show (extractStages ss (extract xf s.cSet))[i]? = _
    rw [h2 i hi]
    obtain ⟨j, hj, hjlt⟩ := compIndex_valid ss s.cSet.length nCoarse i hrest hi
    have hlt : s.cSet[j] < xf.length := hltC _ (List.getElem_mem hjlt)
    simp [compIndex, hj, extract_getElem? xf s.cSet j hjlt, List.getElem?_eq_getElem hjlt,
      List.getD_eq_getElem?_getD, List.getElem?_eq_getElem hlt]

/-! ## All stages of interpolate -/

theorem partitionChain_cSetChain (stages : List EliminationStage) :
    ∀ (nFine nCoarse : Nat), PartitionChain stages nFine nCoarse →
      CSetChain stages nFine nCoarse := by
  induction stages with
  | nil => intro nFine nCoarse h; exact h
  | cons s ss ih =>
    intro nFine nCoarse h
    obtain ⟨hn, hpart, hrest⟩ := h
    exact ⟨fun e he => hn ▸ hpart.cSet_lt e he, ih _ _ hrest⟩

theorem validStages_partitionChain (stages : List EliminationStage) :
    ∀ (nFine nCoarse : Nat), ValidStages stages nFine nCoarse →
      PartitionChain stages nFine nCoarse ∧ ∀ s ∈ stages, s.InterpolationDims := by
  induction stages with
  | nil => intro nFine nCoarse h; exact ⟨h, by simp⟩
  | cons s ss ih =>
    intro nFine nCoarse h
    obtain ⟨hn, hpart, hdims, hrest⟩ := h
    obtain ⟨h1, h2⟩ := ih _ _ hrest
    refine ⟨⟨hn, hpart, h1⟩, fun s1 hs1 => ?_⟩
    rcases List.mem_cons.mp hs1 with rfl | hm
    · exact ⟨hdims.1, hdims.2.1, le_of_eq hdims.2.2.2.2.symm⟩
    · exact h2 s1 hm

/-- Along stages with the partition invariant and consistent dimensions, whenever
`interpolate` completes it returns a fine vector in which the value of every coarse
index `i` is found unchanged at the fine index it stands for; and the operators of
every stage had the dimensions that `interpolate` needs. -/
theorem interpolateStages_some (stages : List EliminationStage) :
    ∀ (nFine nCoarse : Nat) (xc : Vector) (bStages : List Vector) (xf : Vector),
      PartitionChain stages nFine nCoarse → xc.length = nCoarse → RhsDims stages bStages →
      interpolateStages stages xc bStages = some xf →
      xf.length = nFine ∧
        (∀ i, i < nCoarse → (compIndex stages i).bind (fun j => xf[j]?) = xc[i]?) ∧
        ∀ s ∈ stages, s.InterpolationDims := by
  induction stages with
  | nil =>
    intro nFine nCoarse xc bStages xf h hx _ hxf
    simp only [interpolateStages, Option.some.injEq] at hxf
    subst hxf
    exact ⟨by rw [hx, show nFine = nCoarse from h], fun i _ => rfl, by simp⟩
  | cons s ss ih =>
    intro nFine nCoarse xc bStages xf h hx hb hxf
    obtain ⟨hn, hpart, hrest⟩ := h
    cases bStages with
    | nil => exact absurd hb (by simp [RhsDims])
    | cons b bs =>
      obtain ⟨hbl, hbs⟩ := hb
      simp only [interpolateStages, List.tail_cons, List.head?_cons, Option.bind_eq_bind,
        Option.some_bind] at hxf
      obtain ⟨x1, hx1, hxf⟩ := Option.bind_eq_some.mp hxf
      obtain ⟨hl1, hc1, hd1⟩ := ih s.cSet.length nCoarse xc bs x1 hrest hx hbs hx1
      obtain ⟨hP1, hP2, hq⟩ := interpolateStage_dims s x1 b xf hxf
      obtain ⟨xf1, hxf1, hlf, -, hC⟩ :=
        interpolateStage_valid s x1 b hpart hP1 (by omega) hq hl1 hbl
      rw [hxf] at hxf1
      cases hxf1
      refine ⟨by omega, fun i hi => ?_, fun s1 hs1 => ?_⟩
      · obtain ⟨j, hj, hjlt⟩ := compIndex_valid ss s.cSet.length nCoarse i
          (partitionChain_cSetChain ss _ _ hrest) hi
        have h3 := hc1 i hi
        rw [hj, Option.some_bind] at h3
        simp only [compIndex, hj, Option.some_bind, List.getElem?_eq_getElem hjlt]
        rw [hC j hjlt, ← h3, List.getD_eq_getElem?_getD,
          List.getElem?_eq_getElem (by omega : j < x1.length)]
        rfl
      · rcases List.mem_cons.mp hs1 with rfl | hm
        · exact ⟨hP1, by omega, hq⟩
        · exact hd1 s1 hm

/-- Along stages with the partition invariant and consistent dimensions
`interpolate` completes when the operators of every stage have the dimensions it
needs. -/
theorem interpolateStages_isSome (stages : List EliminationStage) :
    ∀ (nFine nCoarse : Nat) (xc : Vector) (bStages : List Vector),
      PartitionChain stages nFine nCoarse → xc.length = nCoarse → RhsDims stages bStages →
      (∀ s ∈ stages, s.InterpolationDims) →
      ∃ xf, interpolateStages stages xc bStages = some xf := by
  induction stages with
  | nil => intro nFine nCoarse xc bStages _ _ _ _; exact ⟨xc, rfl⟩
  | cons s ss ih =>
    intro nFine nCoarse xc bStages h hx hb hd
    have hrest := h.2.2
    cases bStages with
    | nil => exact absurd hb (by simp [RhsDims])
    | cons b bs =>
      obtain ⟨hbl, hbs⟩ := hb
      obtain ⟨x1, hx1⟩ := ih s.cSet.length nCoarse xc bs hrest hx hbs
        (fun s1 hs1 => hd s1 (List.mem_cons_of_mem _ hs1))
      obtain ⟨hl1, -, -⟩ := interpolateStages_some ss s.cSet.length nCoarse xc bs x1 hrest hx
        hbs hx1
      obtain ⟨hP1, hP2, hq⟩ := hd s (List.mem_cons_self _ _)
      obtain ⟨xf, hxf, -⟩ := interpolateStage_valid s x1 b h.2.1 hP1 hP2 hq hl1 hbl
      exact ⟨xf, by simp [interpolateStages, hx1, hxf]⟩

/-! ## Exactness of one elimination stage -/

theorem list_sum_range (f : Nat → ℚ) (n : Nat) :
    ((List.range n).map f).sum = ∑ i ∈ Finset.range n, f i := by
  induction n with
  | zero => simp
  | succ n ih => rw [List.sum_range_succ, Finset.sum_range_succ, ih]

theorem map_eq_map_range (l : List Nat) (f : Nat → ℚ) :
    l.map f = (List.range l.length).map (fun k => f (l.getD k 0)) := by
  apply List.ext_getElem?
  intro i
  by_cases hi : i < l.length
  · simp [List.getElem?_range hi, List.getElem?_eq_getElem hi, List.getD_eq_getElem?_getD]
  · rw [List.getElem?_eq_none (by simpa using hi), List.getElem?_eq_none (by simpa using hi)]

/-- A sum over the fine indices splits into the sum over the F-set and the sum over
the C-set. -/
theorem EliminationStage.Partition.sum_split {s : EliminationStage} (h : s.Partition)
    (f : Nat → ℚ) :
    ∑ j ∈ Finset.range s.n, f j =
      ∑ k ∈ Finset.range s.fSet.length, f (s.fSet.getD k 0) +
        ∑ j ∈ Finset.range s.cSet.length, f (s.cSet.getD j 0) := by
  rw [← list_sum_range, ← list_sum_range, ← list_sum_range, ← map_eq_map_range,
    ← map_eq_map_range, ← List.sum_append, ← List.map_append]
  exact (List.Perm.sum_eq (List.Perm.map f h)).symm

theorem Matrix.rowDot_eq (M : Matrix) (v : Vector) (i : Nat) :
    M.rowDot v i = ∑ j ∈ Finset.range M.numberOfColumns, M.entry i j * v.getD j 0 :=
  list_sum_range _ _

theorem EliminationStage.Partition.mem_cases {s : EliminationStage} (h : s.Partition)
    (r : Nat) (hr : r < s.n) :
    (∃ i, ∃ _ : i < s.fSet.length, s.fSet[i] = r) ∨ (∃ i, ∃ _ : i < s.cSet.length, s.cSet[i] = r) := by
  have : r ∈ s.fSet ++ s.cSet := (List.Perm.mem_iff h).mpr (by simpa using hr)
  rcases List.mem_append.mp this with h1 | h1
  · exact Or.inl (List.mem_iff_getElem.mp h1)
  · exact Or.inr (List.mem_iff_getElem.mp h1)

/-- One exact elimination stage: when the coarse vector solves the Schur-complement
system for the restricted right-hand side, the interpolated vector solves the fine
system. -/
theorem schurStage_exact (Af Ac : Matrix) (s : EliminationStage) (h : SchurStage Af Ac s)
    (b b1 xc : Vector) (hb : b.length = s.n) (hb1 : restrictStage s b = some b1)
    (hxc : Ac.mulVec xc = some b1) :
    ∃ xf, interpolateStage s xc b = some xf ∧ Af.mulVec xf = some b := by
  obtain ⟨hpart, hdims, hAr, hAc, hCr, hCc, hdiag, hnz, hP, hR, hq, hS⟩ := h
  have hxl : xc.length = s.cSet.length := by
    unfold Matrix.mulVec at hxc
    split at hxc
    · omega
    · cases hxc
  obtain ⟨hP1, hP2, hR1, hR2, hql⟩ := hdims
  obtain ⟨xf, hxf, hlen, hF, hC⟩ := interpolateStage_valid s xc b hpart hP1 hP2
    (le_of_eq hql.symm) hxl hb
  refine ⟨xf, hxf, ?_⟩
  -- the entries of `xf`
  have hxF : ∀ k, k < s.fSet.length → xf.getD (s.fSet.getD k 0) 0 =
      (∑ j ∈ Finset.range s.cSet.length, s.P.entry k j * xc.getD j 0) +
        s.q.getD k 0 * b.getD (s.fSet.getD k 0) 0 := by
    intro k hk
    rw [List.getD_eq_getElem _ _ hk, List.getD_eq_getElem?_getD, hF k hk, Option.getD_some,
      Matrix.rowDot_eq, hP2]
  have hxC : ∀ j, j < s.cSet.length → xf.getD (s.cSet.getD j 0) 0 = xc.getD j 0 := by
    intro j hj
    rw [List.getD_eq_getElem _ _ hj, List.getD_eq_getElem?_getD, hC j hj, Option.getD_some]
  -- the coarse system, row by row
  have hrow : ∀ i, i < s.cSet.length →
      (∑ j ∈ Finset.range s.cSet.length, Ac.entry i j * xc.getD j 0) =
        b.getD (s.cSet.getD i 0) 0 +
          ∑ k ∈ Finset.range s.fSet.length, s.R.entry i k * b.getD (s.fSet.getD k 0) 0 := by
    intro i hi
    rw [restrictStage_eq] at hb1
    split at hb1
    · cases hb1
      rw [Matrix.mulVec_eq _ _ (by omega)] at hxc
      have h1 := congrArg (fun l => l[i]?) (Option.some.inj hxc)
      simp only [List.getElem?_map, List.getElem?_range (by omega : i < Ac.numberOfRows),
        Option.map_some', List.getElem?_zipWith, extract_getElem? b s.cSet i hi,
        List.getElem?_range (by omega : i < s.R.numberOfRows)] at h1
      have h2 := Option.some.inj h1
      rw [Matrix.rowDot_eq, Matrix.rowDot_eq, hCc, hR2] at h2
      rw [h2, List.getD_eq_getElem _ _ hi]
      congr 1
      apply Finset.sum_congr rfl
      intro k hk
      have hk : k < s.fSet.length := Finset.mem_range.mp hk
      rw [List.getD_eq_getElem?_getD (extract b s.fSet), extract_getElem? b s.fSet k hk,
        Option.getD_some, List.getD_eq_getElem _ _ hk]
    · cases hb1
  -- a row of the fine system splits into its F-part and its C-part
  have hsplit : ∀ r, Af.rowDot xf r =
      ∑ k ∈ Finset.range s.fSet.length, Af.entry r (s.fSet.getD k 0) *
          ((∑ j ∈ Finset.range s.cSet.length, s.P.entry k j * xc.getD j 0) +
            s.q.getD k 0 * b.getD (s.fSet.getD k 0) 0) +
        ∑ j ∈ Finset.range s.cSet.length, Af.entry r (s.cSet.getD j 0) * xc.getD j 0 := by
    intro r
    rw [Matrix.rowDot_eq, hAc, hpart.sum_split]
    congr 1
    · exact Finset.sum_congr rfl (fun k hk => by rw [hxF k (Finset.mem_range.mp hk)])
    · exact Finset.sum_congr rfl (fun j hj => by rw [hxC j (Finset.mem_range.mp hj)])
  rw [Matrix.mulVec_eq _ _ (by omega)]
  congr 1
  apply List.ext_getElem (by simp; omega)
  intro r hr1 hr2
  simp only [List.getElem_map, List.getElem_range]
  have hrn : r < s.n := by omega
  rw [hsplit]
  rcases hpart.mem_cases r hrn with ⟨i, hi, hir⟩ | ⟨i, hi, hir⟩
  · -- a row of the F-set
    have hri : r = s.fSet.getD i 0 := by rw [List.getD_eq_getElem _ _ hi, hir]
    have hbr : b[r] = b.getD (s.fSet.getD i 0) 0 := by
      rw [List.getD_eq_getElem?_getD, ← hri, List.getElem?_eq_getElem hr2, Option.getD_some]
    rw [hbr, hri]
    rw [Finset.sum_eq_single i
      (fun k hk hne => by
        have := hdiag i k hi (Finset.mem_range.mp hk) (Ne.symm hne)
        unfold Matrix.block at this
        rw [this, zero_mul])
      (fun hni => absurd (Finset.mem_range.mpr hi) hni)]
    have hd := hnz i hi
    unfold Matrix.block at hd
    have hPi : (∑ j ∈ Finset.range s.cSet.length, s.P.entry i j * xc.getD j 0) =
        -(Af.entry (s.fSet.getD i 0) (s.fSet.getD i 0))⁻¹ *
          ∑ j ∈ Finset.range s.cSet.length,
            Af.entry (s.fSet.getD i 0) (s.cSet.getD j 0) * xc.getD j 0 := by
      rw [Finset.mul_sum]
      apply Finset.sum_congr rfl
      intro j hj
      rw [hP i j hi (Finset.mem_range.mp hj)]
      unfold Matrix.block
      ring
    rw [hPi, hq i hi]
    unfold Matrix.block
    have harith : ∀ (d S bF : ℚ), d ≠ 0 → d * (-d⁻¹ * S + 1 / d * bF) + S = bF := by
      intro d S bF hd
      field_simp
      ring
    exact harith _ _ _ hd
  · -- a row of the C-set
    have hri : r = s.cSet.getD i 0 := by rw [List.getD_eq_getElem _ _ hi, hir]
    have hbr : b[r] = b.getD (s.cSet.getD i 0) 0 := by
      rw [List.getD_eq_getElem?_getD, ← hri, List.getElem?_eq_getElem hr2, Option.getD_some]
    rw [hbr, hri]
    have hrow_i := hrow i hi
    have e1 : (∑ k ∈ Finset.range s.fSet.length, Af.entry (s.cSet.getD i 0) (s.fSet.getD k 0) *
          ((∑ j ∈ Finset.range s.cSet.length, s.P.entry k j * xc.getD j 0) +
            s.q.getD k 0 * b.getD (s.fSet.getD k 0) 0)) =
        -(∑ k ∈ Finset.range s.fSet.length, ∑ j ∈ Finset.range s.cSet.length,
            Af.block s.cSet s.fSet i k * (Af.block s.fSet s.fSet k k)⁻¹ *
              Af.block s.fSet s.cSet k j * xc.getD j 0) -
          ∑ k ∈ Finset.range s.fSet.length, s.R.entry i k * b.getD (s.fSet.getD k 0) 0 := by
      rw [← Finset.sum_neg_distrib, ← Finset.sum_sub_distrib]
      apply Finset.sum_congr rfl
      intro k hk
      have hk : k < s.fSet.length := Finset.mem_range.mp hk
      rw [hq k hk, hR i k hi hk, mul_add, Finset.mul_sum, ← Finset.sum_neg_distrib]
      have : ∀ j ∈ Finset.range s.cSet.length,
          Af.entry (s.cSet.getD i 0) (s.fSet.getD k 0) * (s.P.entry k j * xc.getD j 0) =
            -(Af.block s.cSet s.fSet i k * (Af.block s.fSet s.fSet k k)⁻¹ *
              Af.block s.fSet s.cSet k j * xc.getD j 0) := by
        intro j hj
        rw [hP k j hk (Finset.mem_range.mp hj)]
        unfold Matrix.block
        ring
      rw [Finset.sum_congr rfl this]
      unfold Matrix.block
      ring
    have e2 : (∑ j ∈ Finset.range s.cSet.length, Ac.entry i j * xc.getD j 0) =
        (∑ j ∈ Finset.range s.cSet.length,
            Af.entry (s.cSet.getD i 0) (s.cSet.getD j 0) * xc.getD j 0) -
          ∑ k ∈ Finset.range s.fSet.length, ∑ j ∈ Finset.range s.cSet.length,
            Af.block s.cSet s.fSet i k * (Af.block s.fSet s.fSet k k)⁻¹ *
              Af.block s.fSet s.cSet k j * xc.getD j 0 := by
      rw [Finset.sum_comm, ← Finset.sum_sub_distrib]
      apply Finset.sum_congr rfl
      intro j hj
      rw [hS i j hi (Finset.mem_range.mp hj), list_sum_range, sub_mul, Finset.sum_mul]
      rfl
    rw [e1]
    rw [e2] at hrow_i
    linarith

/-! ## Exactness of an elimination level -/

theorem getLastD_cons_eq {α : Type} (b b1 : α) (bs : List α) :
    (b1 :: bs).getLastD b = bs.getLastD b1 := by
  cases bs with
  | nil => rfl
  | cons h t =>
    simp only [List.getLastD_eq_getLast?, List.getLast?_cons_cons,
      List.getLast?_eq_getLast _ (List.cons_ne_nil h t), Option.getD_some]

theorem schurChain_exact (stages : List EliminationStage) :
    ∀ (A0 : Matrix) (As : List Matrix) (b : Vector),
      SchurChain (A0 :: As) stages → b.length = A0.numberOfRows →
      ∃ bs, restrictStages stages b = some bs ∧
        ∀ xc, ((A0 :: As).getLast (List.cons_ne_nil A0 As)).mulVec xc = some (bs.getLastD b) →
          ∃ xf, interpolateStages stages xc (b :: bs) = some xf ∧ A0.mulVec xf = some b := by
  induction stages with
  | nil =>
    intro A0 As b hchain _
    cases As with
    | nil => exact ⟨[], rfl, fun xc hxc => ⟨xc, rfl, hxc⟩⟩
    | cons A1 As1 => exact absurd hchain (by simp [SchurChain])
  | cons s ss ih =>
    intro A0 As b hchain hb
    cases As with
    | nil => exact absurd hchain (by simp [SchurChain])
    | cons A1 As1 =>
      obtain ⟨hs, hrest⟩ := hchain
      have hs' := hs
      obtain ⟨hpart, hdims, hAr, -, hCr, -⟩ := hs'
      obtain ⟨b1, hb1, hl1⟩ := restrictStage_valid s b hpart hdims (by omega)
      obtain ⟨bs, hbs, hex⟩ := ih A1 As1 b1 hrest (by omega)
      refine ⟨b1 :: bs, by simp [restrictStages, hb1, hbs], fun xc hxc => ?_⟩
      rw [getLastD_cons_eq, List.getLast_cons (List.cons_ne_nil A1 As1)] at hxc
      obtain ⟨x1, hx1, hA1⟩ := hex xc hxc
      obtain ⟨xf, hxf, hA0⟩ := schurStage_exact A0 A1 s hs b b1 x1 (by omega) hb1 hA1
      exact ⟨xf, by simp [interpolateStages, hx1, hxf], hA0⟩

/-- C1. Exactness of an elimination level (back-substitution): for a level with at
least one stage whose stages eliminate the matrices `A_0, .., A_m` exactly (the
sets partition the fine indices, `A_k[F,F]` is diagonal with non-zero diagonal,
`P_k = -A_k[F,F]^-1 * A_k[F,C]`, `R_k = -A_k[C,F] * A_k[F,F]^-1`,
`q_k = 1/diag(A_k[F,F])`, `A_{k+1}` is the Schur complement) and every fine
right-hand side `bf`, `restrict` returns `(bc, bStages)`, and for every `xc` with
`A_m * xc = bc`, `interpolate` returns a vector `xf` with `A_0 * xf = bf`. -/
theorem elimination_level_exact (L : LevelElimination) (A0 : Matrix) (As : List Matrix)
    (hne : L.coarseningStages ≠ [])
    (hchain : SchurChain (A0 :: As) L.coarseningStages)
    (bf : Vector) (hbf : bf.length = A0.numberOfRows) (bStagesIn : List Vector) (xfIn : Vector) :
    ∃ bc bStages, L.restrict bf bStagesIn = some (bc, bStages) ∧
      ∀ xc, ((A0 :: As).getLast (List.cons_ne_nil A0 As)).mulVec xc = some bc →
        ∃ xf, L.interpolate xc xfIn bStages = some xf ∧ A0.mulVec xf = some bf := by
  obtain ⟨bs, hbs, hex⟩ := schurChain_exact L.coarseningStages A0 As bf hchain hbf
  refine ⟨bs.getLastD bf, bf :: bs, by rw [restrict_eq, hbs]; rfl, fun xc hxc => ?_⟩
  obtain ⟨xf, hxf, hA0⟩ := hex xc hxc
  refine ⟨xf, ?_, hA0⟩
  rw [interpolate_eq, if_neg, hxf]
  simpa using hne

theorem exampleStage_schur : SchurStage exampleFine exampleCoarse exampleStage := by
  refine ⟨by decide, by decide, rfl, rfl, rfl, rfl, ?_, ?_, ?_, ?_, ?_, ?_⟩
  · intro i k hi hk hne
    simp only [exampleStage, List.length_singleton] at hi hk
    omega
  · intro k hk
    simp only [exampleStage, List.length_singleton] at hk
    obtain rfl : k = 0 := by omega
    simp [Matrix.block, exampleFine, exampleStage]
  · intro k j hk hj
    simp only [exampleStage, List.length_singleton] at hk hj
    obtain rfl : k = 0 := by omega
    obtain rfl : j = 0 := by omega
    simp [Matrix.block, exampleFine, exampleStage]
  · intro i k hi hk
    simp only [exampleStage, List.length_singleton] at hi hk
    obtain rfl : k = 0 := by omega
    obtain rfl : i = 0 := by omega
    simp [Matrix.block, exampleFine, exampleStage]
  · intro k hk
    simp only [exampleStage, List.length_singleton] at hk
    obtain rfl : k = 0 := by omega
    simp [Matrix.block, exampleFine, exampleStage]
  · intro i j hi hj
    simp only [exampleStage, List.length_singleton] at hi hj
    obtain rfl : i = 0 := by omega
    obtain rfl : j = 0 := by omega
    simp [Matrix.block, exampleFine, exampleStage, exampleCoarse]

/-- The instance of C1 on `exampleLevel` with the right-hand side `(1, -1)`. -/
theorem elimination_level_exact_witness :
    exampleLevel.coarseningStages ≠ [] ∧
    SchurChain [exampleFine, exampleCoarse] exampleLevel.coarseningStages ∧
    ∃ bc bStages, exampleLevel.restrict [1, -1] [] = some (bc, bStages) ∧
      ∀ xc, exampleCoarse.mulVec xc = some bc →
        ∃ xf, exampleLevel.interpolate xc [] bStages = some xf ∧
          exampleFine.mulVec xf = some [1, -1] :=
  ⟨by simp [exampleLevel], ⟨exampleStage_schur, trivial⟩,
    elimination_level_exact exampleLevel exampleFine [exampleCoarse] (by simp [exampleLevel])
      ⟨exampleStage_schur, trivial⟩ [1, -1] rfl [] []⟩

/-! ## The round trip through interpolate and coarseType -/

/-- C2. Interpolation/coarsening round trip: for stages that satisfy the partition
invariant with consistent dimensions (at least one stage), the constructor builds
the level `L`; for every coarse vector `xc` and every list of stage right-hand
sides of the right dimensions, `interpolate` returns exactly when the operators of
every stage have the dimensions it needs, and whenever it returns `xf`,
`coarseType(xf) = xc`; and for every fine vector `x`, `coarseType(x)` returns and
whatever `interpolate` makes of it agrees with `x` at every retained fine index
`cIndexFine[i]`. -/
theorem coarseType_interpolate_roundtrip (A : Matrix) (stages : List EliminationStage)
    (nFine : Nat) (hne : stages ≠ []) (hv : PartitionChain stages nFine A.numberOfRows) :
    ∃ L, LevelElimination.new A stages = some L ∧
      (∀ (xc xfIn : Vector) (bStages : List Vector),
        xc.length = A.numberOfRows → RhsDims stages bStages →
        ((L.interpolate xc xfIn bStages).isSome ↔ ∀ s ∈ stages, s.InterpolationDims) ∧
        ∀ xf, L.interpolate xc xfIn bStages = some xf → L.coarseType xf = some xc) ∧
      (∀ (x xfIn : Vector) (bStages : List Vector),
        x.length = nFine → RhsDims stages bStages →
        ∃ xc, L.coarseType x = some xc ∧
          ((L.interpolate xc xfIn bStages).isSome ↔ ∀ s ∈ stages, s.InterpolationDims) ∧
          ∀ xf, L.interpolate xc xfIn bStages = some xf →
            ∀ i, i < A.numberOfRows →
              ∃ ci, L.cIndexFine[i]? = some ci ∧ ci < nFine ∧ xf[ci]? = x[ci]?) := by
  have hcs := partitionChain_cSetChain stages nFine A.numberOfRows hv
  obtain ⟨L, hL⟩ := new_isSome A stages (fun i hi => by
    obtain ⟨j, hj, -⟩ := compIndex_valid stages nFine A.numberOfRows i hcs hi
    simp [hj])
  obtain ⟨hA, hS, -, hci⟩ := new_some A stages L hL
  have hemp : ¬ L.coarseningStages.isEmpty = true := by
    rw [hS]; simpa using hne
  have hint : ∀ (xc xfIn : Vector) (bStages : List Vector),
      L.interpolate xc xfIn bStages = interpolateStages stages xc bStages := by
    intro xc xfIn bStages
    rw [interpolate_eq, if_neg hemp, hS]
  have hiff : ∀ (xc xfIn : Vector) (bStages : List Vector),
      xc.length = A.numberOfRows → RhsDims stages bStages →
      ((L.interpolate xc xfIn bStages).isSome ↔ ∀ s ∈ stages, s.InterpolationDims) := by
    intro xc xfIn bStages hxc hb
    rw [hint]
    constructor
    · intro h
      obtain ⟨xf, hxf⟩ := Option.isSome_iff_exists.mp h
      exact (interpolateStages_some stages nFine A.numberOfRows xc bStages xf hv hxc hb hxf).2.2
    · intro h
      obtain ⟨xf, hxf⟩ := interpolateStages_isSome stages nFine A.numberOfRows xc bStages hv
        hxc hb h
      rw [hxf]
      rfl
  refine ⟨L, hL, ?_, ?_⟩
  · intro xc xfIn bStages hxc hb
    refine ⟨hiff xc xfIn bStages hxc hb, fun xf hxf => ?_⟩
    rw [hint] at hxf
    obtain ⟨-, hc, -⟩ :=
      interpolateStages_some stages nFine A.numberOfRows xc bStages xf hv hxc hb hxf
    rw [coarseType_iff, hA]
    exact ⟨hxc, fun i hi => by rw [hci i hi]; exact hc i hi⟩
  · intro x xfIn bStages hx hb
    obtain ⟨e1, e2⟩ := extractStages_valid stages x A.numberOfRows (hx ▸ hcs)
    refine ⟨extractStages stages x, ?_, hiff _ xfIn bStages e1 hb, fun xf hxf i hi => ?_⟩
    · rw [coarseType_iff, hA]
      exact ⟨e1, fun i hi => by rw [hci i hi, e2 i hi]⟩
    · rw [hint] at hxf
      obtain ⟨-, hc, -⟩ := interpolateStages_some stages nFine A.numberOfRows
        (extractStages stages x) bStages xf hv e1 hb hxf
      obtain ⟨j, hj, hjlt⟩ := compIndex_valid stages nFine A.numberOfRows i hcs hi
      refine ⟨j, by rw [hci i hi, hj], hjlt, ?_⟩
      have h1 := hc i hi
      rw [e2 i hi, hj, Option.some_bind, Option.some_bind] at h1
      exact h1

/-- The instance of C2 on the stage `exampleStage` with the coarse matrix
`exampleCoarse`: the level is built, and `interpolate` returns on the coarse vector
`(5)` with the recorded right-hand side `(1, -1)`. -/
theorem coarseType_interpolate_roundtrip_witness :
    [exampleStage] ≠ [] ∧ PartitionChain [exampleStage] 2 exampleCoarse.numberOfRows ∧
    ∃ L, LevelElimination.new exampleCoarse [exampleStage] = some L ∧
      (L.interpolate [5] [] [[1, -1]]).isSome ∧
      ∀ xf, L.interpolate [5] [] [[1, -1]] = some xf → L.coarseType xf = some [5] := by
  refine ⟨by simp, by decide, ?_⟩
  obtain ⟨L, hL, h1, -⟩ :=
    coarseType_interpolate_roundtrip exampleCoarse [exampleStage] 2 (by simp) (by decide)
  obtain ⟨h2, h3⟩ := h1 [5] [] [[1, -1]] rfl (by decide)
  exact ⟨L, hL, h2.mpr (by decide), h3⟩

/-! ## The postcondition of restrict -/

theorem getElem?_length_cons {α : Type} (bs : List α) :
    ∀ b : α, (b :: bs)[bs.length]? = some (bs.getLastD b) := by
  induction bs with
  | nil => intro b; rfl
  | cons h t ih =>
    intro b
    rw [getLastD_cons_eq, List.length_cons, List.getElem?_cons_succ]
    exact ih h

/-- What one stage of `restrict` has done when it completes: the sets hold indices
of `b`, and the result is `extract(b, C) + R * extract(b, F)`. -/
theorem restrictStage_post (s : EliminationStage) (b b1 : Vector)
    (h : restrictStage s b = some b1) :
    (∀ e ∈ s.cSet, e < b.length) ∧ (∀ e ∈ s.fSet, e < b.length) ∧
      ∃ RbF, s.R.mulVec (extract b s.fSet) = some RbF ∧
        Vector.add (extract b s.cSet) RbF = some b1 := by
  rw [restrictStage_eq] at h
  split at h
  · rename_i hc
    obtain ⟨hC, hF, hR, hR2⟩ := hc
    refine ⟨hC, hF, _, Matrix.mulVec_eq _ _ (by rw [extract_length, hR]), ?_⟩
    rw [Vector.add_eq _ _ (by simp [extract_length, hR2])]
    exact h
  · cases h

/-- C3. Postcondition of restrict: whenever `restrict(bf)` returns, `bStages` has
length `m+1`, `bStages[0] = bf`, `bc = bStages[m]` and for every `k < m` the sets of
stage `k` hold indices of `bStages[k]` and
`bStages[k+1] = extract(bStages[k], C_k) + R_k * extract(bStages[k], F_k)`;
`restrict` returns exactly when the sets of every stage hold indices of its
right-hand side and `R` has the dimensions of the sets, so on every level with
consistent dimensions; and without stages it returns `bc = bf` and
`bStages = [bf]`. -/
theorem restrict_postcondition (L : LevelElimination) (bf : Vector)
    (bStagesIn : List Vector) :
    (∀ bc bStages, L.restrict bf bStagesIn = some (bc, bStages) →
      bStages.length = L.coarseningStages.length + 1 ∧ bStages[0]? = some bf ∧
      bStages[L.coarseningStages.length]? = some bc ∧
      ∀ k (hk : k < L.coarseningStages.length), ∃ bk bk1 RbF,
        bStages[k]? = some bk ∧ bStages[k + 1]? = some bk1 ∧
        (∀ e ∈ L.coarseningStages[k].cSet, e < bk.length) ∧
        (∀ e ∈ L.coarseningStages[k].fSet, e < bk.length) ∧
        L.coarseningStages[k].R.mulVec (extract bk L.coarseningStages[k].fSet) = some RbF ∧
        Vector.add (extract bk L.coarseningStages[k].cSet) RbF = some bk1) ∧
    ((L.restrict bf bStagesIn).isSome ↔ RestrictDims L.coarseningStages bf.length) ∧
    (∀ nCoarse, ValidStages L.coarseningStages bf.length nCoarse →
      ∃ bc bStages, L.restrict bf bStagesIn = some (bc, bStages) ∧ bc.length = nCoarse) ∧
    (L.coarseningStages = [] → L.restrict bf bStagesIn = some (bf, [bf])) := by
  refine ⟨?_, ?_, ?_, ?_⟩
  · intro bc bStages h
    rw [restrict_eq] at h
    obtain ⟨bs, hbs, h⟩ := Option.map_eq_some'.mp h
    cases h
    obtain ⟨hlen, hstep⟩ := restrictStages_some L.coarseningStages bf bs hbs
    refine ⟨by simp [hlen], by simp, by rw [← hlen]; exact getElem?_length_cons bs bf, ?_⟩
    intro k hk
    obtain ⟨bk, bk1, h1, h2, h3⟩ := hstep k hk
    obtain ⟨hC, hF, RbF, h4, h5⟩ := restrictStage_post _ bk bk1 h3
    exact ⟨bk, bk1, RbF, h1, by simpa using h2, hC, hF, h4, h5⟩
  · rw [restrict_eq, ← restrictStages_isSome_iff]
    cases restrictStages L.coarseningStages bf <;> rfl
  · intro nCoarse hv
    obtain ⟨bs, hbs, -, hlast⟩ := restrictStages_valid L.coarseningStages bf nCoarse hv
    exact ⟨bs.getLastD bf, bf :: bs, by rw [restrict_eq, hbs]; rfl, hlast⟩
  · intro h0
    rw [restrict_eq, h0]
    rfl

/-- The instance of C3 on `exampleLevel` with the right-hand side `(1, -1)`. -/
theorem restrict_postcondition_witness :
    ValidStages exampleLevel.coarseningStages ([1, -1] : Vector).length 1 ∧
    ∃ bc bStages, exampleLevel.restrict [1, -1] [] = some (bc, bStages) ∧ bc.length = 1 :=
  ⟨by decide, (restrict_postcondition exampleLevel [1, -1] []).2.2.1 1 (by decide)⟩

/-! ## The postcondition of interpolate for one stage -/

/-- C4. Postcondition of interpolate for one stage `s` whose sets partition
`0..n-1`, a coarse vector of dimension `|C|` and `bStages[0]` of dimension `n`:
whenever `interpolate` returns, `xf` has dimension `n`,
`xf[F[i]] = (P * xc)[i] + q[i] * bStages[0][F[i]]` for every `i < |F|` and
`xf[C[i]] = xc[i]` for every `i < |C|`; every index below `n` is an `F[i]` or a
`C[i]`; and `interpolate` returns exactly when `P` is `|F| x |C|` and `q` has an
entry for every F-index. -/
theorem interpolate_one_stage (L : LevelElimination) (s : EliminationStage)
    (hL : L.coarseningStages = [s]) (hpart : s.Partition)
    (xc xfIn b0 : Vector) (bStages : List Vector)
    (hxc : xc.length = s.cSet.length) (hb : bStages[0]? = some b0) (hb0 : b0.length = s.n) :
    (∀ xf, L.interpolate xc xfIn bStages = some xf →
      xf.length = s.n ∧
      (∃ Pxc, s.P.mulVec xc = some Pxc ∧ ∀ i (h : i < s.fSet.length),
        xf[s.fSet[i]]? = some (Pxc.getD i 0 + s.q.getD i 0 * b0.getD s.fSet[i] 0)) ∧
      (∀ i (h : i < s.cSet.length), xf[s.cSet[i]]? = some (xc.getD i 0))) ∧
    (∀ j, j < s.n →
      (∃ i, ∃ _ : i < s.fSet.length, s.fSet[i] = j) ∨
        (∃ i, ∃ _ : i < s.cSet.length, s.cSet[i] = j)) ∧
    ((L.interpolate xc xfIn bStages).isSome ↔
      s.P.numberOfRows = s.fSet.length ∧ s.P.numberOfColumns = s.cSet.length ∧
        s.fSet.length ≤ s.q.length) := by
  have heq : L.interpolate xc xfIn bStages = interpolateStage s xc b0 := by
    rw [interpolate_eq, hL]
    cases bStages with
    | nil => simp at hb
    | cons b bs =>
      simp only [List.getElem?_cons_zero, Option.some.injEq] at hb
      subst hb
      simp [interpolateStages]
  rw [heq]
  refine ⟨?_, hpart.mem_cases, ?_⟩
  · intro xf hxf
    obtain ⟨hP1, hP2, hq⟩ := interpolateStage_dims s xc b0 xf hxf
    obtain ⟨xf1, hxf1, hlen, hF, hC⟩ :=
      interpolateStage_valid s xc b0 hpart hP1 (by omega) hq hxc hb0
    rw [hxf] at hxf1
    cases hxf1
    refine ⟨hlen, ⟨_, Matrix.mulVec_eq _ _ hP2, fun i hi => ?_⟩, hC⟩
    have hPi : ((List.range s.P.numberOfRows).map (s.P.rowDot xc)).getD i 0 =
        s.P.rowDot xc i := by
      rw [List.getD_eq_getElem?_getD, List.getElem?_map,
        List.getElem?_range (by omega : i < s.P.numberOfRows)]
      rfl
    rw [hF i hi, hPi]
  · constructor
    · intro h
      obtain ⟨xf, hxf⟩ := Option.isSome_iff_exists.mp h
      obtain ⟨hP1, hP2, hq⟩ := interpolateStage_dims s xc b0 xf hxf
      exact ⟨hP1, by omega, hq⟩
    · rintro ⟨hP1, hP2, hq⟩
      obtain ⟨xf, hxf, -⟩ := interpolateStage_valid s xc b0 hpart hP1 hP2 hq hxc hb0
      rw [hxf]
      rfl

/-- The instance of C4 on `exampleLevel` with `xc = (5)` and `bStages[0] = (1, -1)`. -/
theorem interpolate_one_stage_witness :
    exampleLevel.coarseningStages = [exampleStage] ∧ exampleStage.Partition ∧
    ([5] : Vector).length = exampleStage.cSet.length ∧
    ([[1, -1]] : List Vector)[0]? = some ([1, -1] : Vector) ∧
    ([1, -1] : Vector).length = exampleStage.n ∧
    ((exampleLevel.interpolate [5] [] [[1, -1]]).isSome ↔
      exampleStage.P.numberOfRows = exampleStage.fSet.length ∧
        exampleStage.P.numberOfColumns = exampleStage.cSet.length ∧
        exampleStage.fSet.length ≤ exampleStage.q.length) :=
  ⟨rfl, by decide, rfl, by simp, rfl,
    (interpolate_one_stage exampleLevel exampleStage rfl (by decide) [5] [] [1, -1]
      [[1, -1]] rfl (by simp) rfl).2.2⟩

/-! ## The order of the stages -/

theorem singleStageRestrict_eq (L : LevelElimination) (s : EliminationStage) (b : Vector) :
    singleStageRestrict L s b = restrictStage s b := by
  simp only [singleStageRestrict, restrict_eq, LevelElimination.withStage, restrictStages,
    Option.bind_eq_bind, Option.pure_def]
  rcases restrictStage s b with _ | b1 <;> simp [List.getLastD]

theorem singleStageInterpolate_eq (L : LevelElimination) (s : EliminationStage)
    (x b : Vector) : singleStageInterpolate L s x b = interpolateStage s x b := by
  simp [singleStageInterpolate, interpolate_eq, LevelElimination.withStage, interpolateStages]

theorem composedRestrict_eq (L : LevelElimination) (stages : List EliminationStage) :
    ∀ b : Vector, composedRestrict L stages b =
      (restrictStages stages b).map (fun bs => (bs.getLastD b, b :: bs)) := by
  induction stages with
  | nil => intro b; rfl
  | cons s ss ih =>
    intro b
    simp only [composedRestrict, restrictStages, singleStageRestrict_eq, Option.bind_eq_bind,
      Option.pure_def, ih]
    rcases restrictStage s b with _ | b1
    · rfl
    · simp only [Option.some_bind]
      rcases restrictStages ss b1 with _ | bs
      · rfl
      · simp only [Option.map_some', Option.some_bind, getLastD_cons_eq]

theorem composedInterpolate_eq (L : LevelElimination) (stages : List EliminationStage) :
    ∀ (xc : Vector) (bStages : List Vector),
      composedInterpolate L stages xc bStages = interpolateStages stages xc bStages := by
  induction stages with
  | nil => intro xc bStages; rfl
  | cons s ss ih =>
    intro xc bStages
    simp only [composedInterpolate, interpolateStages, singleStageInterpolate_eq, ih]

theorem interpolateStages_take (stages : List EliminationStage) :
    ∀ (xc : Vector) (bStages : List Vector),
      interpolateStages stages xc (bStages.take stages.length) =
        interpolateStages stages xc bStages := by
  induction stages with
  | nil => intro xc bStages; rfl
  | cons s ss ih =>
    intro xc bStages
    cases bStages with
    | nil => rfl
    | cons b bs =>
      simp only [interpolateStages, List.length_cons, List.take_succ_cons, List.tail_cons,
        List.head?_cons, ih]

/-- C5 as stated fails on a level without stages: `interpolate` leaves `xf` as it was
on entry (here the empty vector), while the composition of no single-stage
interpolation is `xc`. -/
theorem interpolate_no_stage_counterexample :
    emptyLevel.interpolate [1] [] [[1]] = some [] ∧
    composedInterpolate emptyLevel emptyLevel.coarseningStages [1] [[1]] = some [1] ∧
    emptyLevel.interpolate [1] [] [[1]] ≠
      composedInterpolate emptyLevel emptyLevel.coarseningStages [1] [[1]] := by
  refine ⟨rfl, rfl, ?_⟩
  show (some [] : Option Vector) ≠ some [1]
  simp

/-- C5, amended. Stage order: `restrict` equals the single-stage restrictions applied
in the order `s_0, .., s_{m-1}`; on a level with at least one stage `interpolate`
equals the composition of the single-stage interpolations in the reverse order,
stage `k` reading `bStages[k]`; the result of `interpolate` does not depend on
`bStages[m]` or any later entry. -/
theorem stage_order (L : LevelElimination) :
    (∀ (bf : Vector) (bStagesIn : List Vector),
      L.restrict bf bStagesIn = composedRestrict L L.coarseningStages bf) ∧
    (L.coarseningStages ≠ [] → ∀ (xc xfIn : Vector) (bStages : List Vector),
      L.interpolate xc xfIn bStages =
        composedInterpolate L L.coarseningStages xc bStages) ∧
    (∀ (xc xfIn : Vector) (bStages bStages1 : List Vector),
      bStages.take L.coarseningStages.length = bStages1.take L.coarseningStages.length →
      L.interpolate xc xfIn bStages = L.interpolate xc xfIn bStages1) := by
  refine ⟨?_, ?_, ?_⟩
  · intro bf bStagesIn
    rw [restrict_eq, composedRestrict_eq]
  · intro hne xc xfIn bStages
    rw [interpolate_eq, composedInterpolate_eq, if_neg]
    simpa using hne
  · intro xc xfIn bStages bStages1 h
    rw [interpolate_eq, interpolate_eq, ← interpolateStages_take _ xc bStages, h,
      interpolateStages_take]

/-- The instance of the amended C5 on `exampleLevel`. -/
theorem stage_order_witness :
    exampleLevel.coarseningStages ≠ [] ∧
    exampleLevel.interpolate [5] [] [[1, -1], [0]] =
      composedInterpolate exampleLevel exampleLevel.coarseningStages [5] [[1, -1], [0]] :=
  ⟨by simp [exampleLevel],
    (stage_order exampleLevel).2.1 (by simp [exampleLevel]) [5] [] [[1, -1], [0]]⟩

/-! ## coarseType -/

/-- C6. `coarseType` is an unweighted index lookup through all stages: on a
constructed level, whenever `coarseType(xf)` returns it has the coarse dimension
and its entry `i` is the entry `C_0[C_1[..C_{m-1}[i]..]]` of `xf`; and when the
C-sets fit the dimensions it returns the sub-vector extracted stage by stage in
construction order. -/
theorem coarseType_lookup (A : Matrix) (stages : List EliminationStage)
    (L : LevelElimination) (hL : LevelElimination.new A stages = some L) (xf : Vector) :
    (∀ r, L.coarseType xf = some r →
      r.length = A.numberOfRows ∧
      ∀ i, i < A.numberOfRows →
        ∃ j, compIndex stages i = some j ∧ j < xf.length ∧ r[i]? = xf[j]?) ∧
    (CSetChain stages xf.length A.numberOfRows →
      L.coarseType xf = some (extractStages stages xf)) := by
  obtain ⟨hA, -, hlen, hci⟩ := new_some A stages L hL
  refine ⟨?_, ?_⟩
  · intro r hr
    rw [coarseType_iff, hA] at hr
    obtain ⟨h1, h2⟩ := hr
    refine ⟨h1, fun i hi => ?_⟩
    have h3 := h2 i hi
    rw [hci i hi, List.getElem?_eq_getElem (by omega : i < r.length)] at h3
    obtain ⟨j, hj, hxj⟩ := Option.bind_eq_some.mp h3
    refine ⟨j, hj, (List.getElem?_eq_some.mp hxj).1, ?_⟩
    rw [hxj, List.getElem?_eq_getElem (by omega : i < r.length)]
  · intro hcs
    obtain ⟨e1, e2⟩ := extractStages_valid stages xf A.numberOfRows hcs
    rw [coarseType_iff, hA]
    exact ⟨e1, fun i hi => by rw [hci i hi, e2 i hi]⟩

theorem exampleLevel_new :
    LevelElimination.new exampleCoarse [exampleStage] = some exampleLevel := by
  rfl

/-- The instance of C6 on `exampleLevel` with the fine vector `(4, 9)`. -/
theorem coarseType_lookup_witness :
    LevelElimination.new exampleCoarse [exampleStage] = some exampleLevel ∧
    CSetChain [exampleStage] ([4, 9] : Vector).length exampleCoarse.numberOfRows ∧
    exampleLevel.coarseType [4, 9] = some (extractStages [exampleStage] [4, 9]) :=
  ⟨exampleLevel_new, by decide,
    (coarseType_lookup exampleCoarse [exampleStage] exampleLevel exampleLevel_new [4, 9]).2
      (by decide)⟩

/-! ## LinearSolver: parallelSolve and setupConnected -/

theorem forUpE_succ_first {σ : Type} (n : Nat) (body : Nat → σ → Except Error σ) :
    ∀ s, forUpE (n + 1) body s = (body 0 s).bind (forUpE n (fun i => body (i + 1))) := by
  induction n with
  | zero =>
    intro s
    show body 0 s = (body 0 s).bind (fun s => Except.ok s)
    cases body 0 s <;> rfl
  | succ n ih =>
    intro s
    show (forUpE (n + 1) body s).bind (body (n + 1)) = _
    rw [ih]
    cases body 0 s <;> rfl

theorem parallelSolveBody_succ {S : Type} (slv : LinearSolver S) (b x0 : Vector)
    (rhs xs : List Vector) (t it i : Nat) (solver : S) :
    slv.parallelSolveBody (b :: rhs) t it (i + 1) (x0 :: xs, solver) =
      (slv.parallelSolveBody rhs t it i (xs, solver)).map (fun r => (x0 :: r.1, r.2)) := by
  simp only [LinearSolver.parallelSolveBody, readAt, List.getElem?_cons_succ]
  cases rhs[i]? with
  | none => rfl
  | some bi =>
    cases xs[i]? with
    | none => rfl
    | some xi =>
      show (slv.solve bi xi t it solver).bind _ = Except.map _ ((slv.solve bi xi t it solver).bind _)
      cases slv.solve bi xi t it solver <;> rfl

theorem forUpE_parallelSolveBody_cons {S : Type} (slv : LinearSolver S) (b x0 : Vector)
    (rhs : List Vector) (t it : Nat) (n : Nat) :
    ∀ (xs : List Vector) (solver : S),
      forUpE n (fun i => slv.parallelSolveBody (b :: rhs) t it (i + 1)) (x0 :: xs, solver) =
        (forUpE n (slv.parallelSolveBody rhs t it) (xs, solver)).map
          (fun r => (x0 :: r.1, r.2)) := by
  induction n with
  | zero => intro xs solver; rfl
  | succ n ih =>
    intro xs solver
    show (forUpE n _ (x0 :: xs, solver)).bind _ =
      Except.map _ ((forUpE n _ (xs, solver)).bind _)
    rw [ih]
    cases forUpE n (slv.parallelSolveBody rhs t it) (xs, solver) with
    | error e => rfl
    | ok r =>
      obtain ⟨xs1, solver1⟩ := r
      exact parallelSolveBody_succ slv b x0 rhs xs1 t it n solver1

theorem parallelSolve_eq_solveEach {S : Type} (slv : LinearSolver S) (t it : Nat)
    (rhs : List Vector) :
    ∀ (results : List Vector) (solver : S),
      slv.parallelSolve rhs results t it solver = slv.solveEach t it rhs results solver := by
  induction rhs with
  | nil => intro results solver; rfl
  | cons b rhs ih =>
    intro results solver
    unfold LinearSolver.parallelSolve
    rw [List.length_cons, forUpE_succ_first]
    cases results with
    | nil =>
      simp only [LinearSolver.parallelSolveBody, readAt, List.getElem?_cons_zero,
        List.getElem?_nil, LinearSolver.solveEach]
      rfl
    | cons x xs =>
      have h0 : slv.parallelSolveBody (b :: rhs) t it 0 (x :: xs, solver) =
          (slv.solve b x t it solver).bind (fun r => .ok (r.2.1 :: xs, r.2.2)) := by
        simp only [LinearSolver.parallelSolveBody, readAt, List.getElem?_cons_zero]
        show (slv.solve b x t it solver).bind _ = _
        cases slv.solve b x t it solver <;> rfl
      rw [h0]
      simp only [LinearSolver.solveEach]
      show _ = (slv.solve b x t it solver).bind _
      cases slv.solve b x t it solver with
      | error e => rfl
      | ok r =>
        obtain ⟨status, x1, solver1⟩ := r
        show forUpE rhs.length _ (x1 :: xs, solver1) = _
        rw [forUpE_parallelSolveBody_cons]
        have := ih xs solver1
        unfold LinearSolver.parallelSolve at this
        rw [this]
        show Except.map (fun r => (x1 :: r.1, r.2)) (slv.solveEach t it rhs xs solver1) =
          (slv.solveEach t it rhs xs solver1).bind (fun r => Except.ok (x1 :: r.1, r.2))
        cases slv.solveEach t it rhs xs solver1 <;> rfl

theorem solveEach_ok {S : Type} (slv : LinearSolver S) (t it : Nat) (rhs : List Vector) :
    ∀ (results results1 : List Vector) (solver solver1 : S),
      slv.solveEach t it rhs results solver = .ok (results1, solver1) →
      results1.length = results.length ∧ rhs.length ≤ results.length ∧
        ∀ i, rhs.length ≤ i → results1[i]? = results[i]? := by
  induction rhs with
  | nil =>
    intro results results1 solver solver1 h
    simp only [LinearSolver.solveEach, Except.ok.injEq, Prod.mk.injEq] at h
    obtain ⟨rfl, rfl⟩ := h
    simp
  | cons b rhs ih =>
    intro results results1 solver solver1 h
    cases results with
    | nil => simp [LinearSolver.solveEach] at h
    | cons x xs =>
      simp only [LinearSolver.solveEach] at h
      cases hs : slv.solve b x t it solver with
      | error e => rw [hs] at h; cases h
      | ok r =>
        obtain ⟨status, x1, solver2⟩ := r
        rw [hs] at h
        cases hr : slv.solveEach t it rhs xs solver2 with
        | error e =>
          have h' : (Except.error e : Except Error (List Vector × S)) =
              .ok (results1, solver1) := by
            have : slv.solveEach t it rhs xs solver2 = Except.error e := hr
            simp only [bind, Except.bind, this] at h
            exact h
          cases h'
        | ok r2 =>
          obtain ⟨xs1, solver3⟩ := r2
          have h' : (Except.ok (x1 :: xs1, solver3) : Except Error (List Vector × S)) =
              .ok (results1, solver1) := by
            have : slv.solveEach t it rhs xs solver2 = Except.ok (xs1, solver3) := hr
            simp only [bind, Except.bind, this] at h
            exact h
          simp only [Except.ok.injEq, Prod.mk.injEq] at h'
          obtain ⟨rfl, rfl⟩ := h'
          obtain ⟨h1, h2, h3⟩ := ih xs xs1 solver2 solver3 hr
          refine ⟨by simp [h1], by simp; omega, fun i hi => ?_⟩
          cases i with
          | zero => simp at hi
          | succ i =>
            simp only [List.getElem?_cons_succ]
            exact h3 i (by simp at hi; omega)

/-- C7. The default `parallelSolve` is the sequential loop: it has the same effect as
calling `solve(rhs[i], results[i], t, it)` for `i = 0, 1, .., k-1` in increasing
order with the same `t` and `it`, each call on the solver as the previous one left
it; when it returns, `results` has kept its length, which is at least `k`, and its
entries at the indices `>= k`; with an empty `rhs` nothing is called: `results` and
the solver are unchanged. -/
theorem parallelSolve_sequential {S : Type} (slv : LinearSolver S) (rhs results : List Vector)
    (t it : Nat) (solver : S) :
    slv.parallelSolve rhs results t it solver = slv.solveEach t it rhs results solver ∧
    (∀ results1 solver1, slv.parallelSolve rhs results t it solver = .ok (results1, solver1) →
      results1.length = results.length ∧ rhs.length ≤ results.length ∧
        ∀ i, rhs.length ≤ i → results1[i]? = results[i]?) ∧
    (rhs = [] → slv.parallelSolve rhs results t it solver = .ok (results, solver)) := by
  refine ⟨parallelSolve_eq_solveEach slv t it rhs results solver, ?_, ?_⟩
  · intro results1 solver1 h
    rw [parallelSolve_eq_solveEach] at h
    exact solveEach_ok slv t it rhs results results1 solver solver1 h
  · intro h
    subst h
    rfl

/-- The instance of C7 on `recordingSolver` with two right-hand sides and three
entries of `results`: the calls are made in increasing order and the third entry is
untouched. -/
theorem parallelSolve_sequential_witness :
    recordingSolver.parallelSolve [[1], [2]] [[0], [0], [7]] 5 5 ([], []) =
      .ok ([[1], [2], [7]], ([], [[1], [2]])) ∧
    ([[1], [2], [7]] : List Vector).length = ([[0], [0], [7]] : List Vector).length :=
  ⟨rfl, ((parallelSolve_sequential recordingSolver [[1], [2]] [[0], [0], [7]] 5 5
    ([], [])).2.1 [[1], [2], [7]] ([], [[1], [2]]) rfl).1⟩

/-- C8 as stated fails: on the graph with two isolated nodes (two connected
components) `setupConnected(graph)` raises no error; it hands the Laplacian on to
`setupConnected(matrix)`, which here records it and sets the solver up. -/
theorem setupConnected_disconnected_counterexample :
    twoIsolatedNodes.numberOfComponents = 2 ∧
    recordingSolver.setupConnectedGraph twoIsolatedNodes ([], []) =
      .ok ([Matrix.laplacianMatrix twoIsolatedNodes], []) :=
  ⟨by decide, rfl⟩

/-- C8, amended. `setupConnected(graph)` makes no connectivity check of its own: for
every graph, connected or not, it hands the Laplacian of the graph on to
`setupConnected(matrix)` and returns or fails exactly as that call does. -/
theorem setupConnected_delegates {S : Type} (slv : LinearSolver S) (graph : Graph) (st : S) :
    slv.setupConnectedGraph graph st = slv.setupConnected (Matrix.laplacianMatrix graph) st ∧
    (∀ e, slv.setupConnectedGraph graph st = .error e ↔
      slv.setupConnected (Matrix.laplacianMatrix graph) st = .error e) :=
  ⟨rfl, fun _ => Iff.rfl⟩

/-! ## The run/query protocol of the algorithms -/

theorem resize_length {α : Type} (v : List α) (n : Nat) (d : α) : (resize v n d).length = n := by
  simp [resize]
  omega

/-- A completed `AlgebraicPageRank::run` leaves the other members alone, sets
`hasRun` and leaves one score per row of `M`. -/
theorem pageRank_run_some (p p1 : AlgebraicPageRank) (fuel : Nat)
    (h : p.run fuel = some p1) :
    p1.hasRun = true ∧ p1.scoreData.length = p.M.numberOfRows ∧ p1.M = p.M := by
  simp only [AlgebraicPageRank.run, Option.bind_eq_bind, Option.pure_def] at h
  obtain ⟨rank, -, h⟩ := Option.bind_eq_some.mp h
  obtain ⟨sd, h2, h⟩ := Option.bind_eq_some.mp h
  cases h
  obtain ⟨hlen, -, -, -⟩ := forUp_fill_some
    (fun i => (rank[i]?).bind (fun x => some (double.div x (rank.foldl (· + ·) 0))))
    _ (resize p.scoreData p.M.numberOfRows 0)
    (fun i r _ => by
      show (rank[i]?.bind fun x => writeAt r i (double.div x (rank.foldl (· + ·) 0))) =
        (rank[i]?.bind fun x => some (double.div x (rank.foldl (· + ·) 0))).bind
          fun x => writeAt r i x
      simp only [Option.bind_assoc, Option.some_bind]) _ sd h2
  exact ⟨rfl, by rw [hlen, resize_length], rfl⟩

/-- A completed `AlgebraicTriangleCounting::run` sets `hasRun` and leaves one score
per row of `A`. -/
theorem triangleCounting_run_some (t t1 : AlgebraicTriangleCounting)
    (h : t.run = some t1) :
    t1.hasRun = true ∧ t1.nodeScores.length = t.A.numberOfRows ∧ t1.A = t.A := by
  simp only [AlgebraicTriangleCounting.run, Option.bind_eq_bind, Option.pure_def] at h
  obtain ⟨AA, -, h⟩ := Option.bind_eq_some.mp h
  obtain ⟨powA, -, h⟩ := Option.bind_eq_some.mp h
  obtain ⟨ns, h2, h⟩ := Option.bind_eq_some.mp h
  cases h
  obtain ⟨hlen, -, -, -⟩ := forUp_fill_some
    (fun i => some (toCount (if t.directed then powA.entry i i else powA.entry i i / 2)))
    _ (List.replicate t.A.numberOfRows 0) (fun i r _ => rfl) _ ns h2
  exact ⟨rfl, by rw [hlen, List.length_replicate], rfl⟩

/-- C9. Result queries before a run fail: a freshly constructed AlgebraicPageRank,
AlgebraicTriangleCounting or NeighborhoodFunctionApproximation has `hasRun = false`;
with `hasRun = false` each of `scores`, `ranking`, `score`, `score`, `getScores` and
`getNeighborhoodFunction` raises the runtime error and returns no data; after a
completed `run()` none of them raises for a node in range. -/
theorem queries_need_run :
    ((∀ graph damp tol, (AlgebraicPageRank.new graph damp tol).hasRun = false) ∧
      (∀ graph, (AlgebraicTriangleCounting.new graph).hasRun = false) ∧
      (∀ G k r nfa, NeighborhoodFunctionApproximation.new G k r = .ok nfa →
        nfa.hasRun = false)) ∧
    ((∀ p : AlgebraicPageRank, p.hasRun = false →
        (∀ moveOut, p.scores moveOut = .error (.runtime_error "Call run method first")) ∧
        p.ranking = .error (.runtime_error "Call run method first") ∧
        (∀ v, p.score v = .error (.runtime_error "Call run method first"))) ∧
      (∀ t : AlgebraicTriangleCounting, t.hasRun = false →
        (∀ u, t.score u = .error (.runtime_error
          "AlgebraicTriangleCounting::score(node u): Call run() method first.")) ∧
        (∀ moveOut, t.getScores moveOut = .error (.runtime_error
          "AlgebraicTriangleCounting::getScores(): Call run() method first."))) ∧
      (∀ nfa : NeighborhoodFunctionApproximation, nfa.hasRun = false →
        nfa.getNeighborhoodFunction = .error (.runtime_error "Call run()-function first."))) ∧
    ((∀ (p p1 : AlgebraicPageRank) (fuel : Nat), p.run fuel = some p1 →
        (∀ moveOut, ∃ r, p1.scores moveOut = .ok r) ∧ (∃ r, p1.ranking = .ok r) ∧
        (∀ v, v < p.M.numberOfRows → ∃ x, p1.score v = .ok x)) ∧
      (∀ t t1 : AlgebraicTriangleCounting, t.run = some t1 →
        (∀ u, u < t.A.numberOfRows → ∃ x, t1.score u = .ok x) ∧
        (∀ moveOut, ∃ r, t1.getScores moveOut = .ok r)) ∧
      (∀ (nfa : NeighborhoodFunctionApproximation) (estimates : List Nat),
        ∃ r, (nfa.run estimates).getNeighborhoodFunction = .ok r)) := by
  refine ⟨⟨fun _ _ _ => rfl, fun _ => rfl, ?_⟩, ⟨?_, ?_, ?_⟩, ⟨?_, ?_, ?_⟩⟩
  · intro G k r nfa h
    unfold NeighborhoodFunctionApproximation.new at h
    split at h
    · cases h
    · split at h
      · cases h
      · cases h
        rfl
  · intro p hp
    simp [AlgebraicPageRank.scores, AlgebraicPageRank.ranking, AlgebraicPageRank.score, hp]
  · intro t ht
    simp [AlgebraicTriangleCounting.score, AlgebraicTriangleCounting.getScores, ht]
  · intro nfa h
    simp [NeighborhoodFunctionApproximation.getNeighborhoodFunction, h]
  · intro p p1 fuel h
    obtain ⟨h1, h2, -⟩ := pageRank_run_some p p1 fuel h
    refine ⟨fun moveOut => ⟨_, by simp [AlgebraicPageRank.scores, h1]; rfl⟩,
      ⟨_, by simp [AlgebraicPageRank.ranking, h1]; rfl⟩, fun v hv => ?_⟩
    refine ⟨p1.scoreData[v], ?_⟩
    simp [AlgebraicPageRank.score, h1, List.getElem?_eq_getElem (h2 ▸ hv)]
  · intro t t1 h
    obtain ⟨h1, h2, h3⟩ := triangleCounting_run_some t t1 h
    refine ⟨fun u hu => ⟨t1.nodeScores[u], ?_⟩,
      fun moveOut => ⟨_, by simp [AlgebraicTriangleCounting.getScores, h1]; rfl⟩⟩
    simp [AlgebraicTriangleCounting.score, h1, h3, hu, readAt,
      List.getElem?_eq_getElem (h2 ▸ hu)]
  · intro nfa estimates
    exact ⟨_, rfl⟩

theorem oneNode_pageRank_run :
    (AlgebraicPageRank.new oneNode 0 0).run 1 =
      some { AlgebraicPageRank.new oneNode 0 0 with scoreData := [1], hasRun := true } := by
  simp [AlgebraicPageRank.run, AlgebraicPageRank.new, AlgebraicPageRank.iterate, Matrix.mulVec,
    Matrix.adjacencyMatrix, oneNode, Matrix.rowDot, Vector.sub, Vector.lengthGreater, resize,
    forUp, writeAt, List.range_succ, double.div]
  rfl

theorem oneNode_triangle_run :
    (AlgebraicTriangleCounting.new oneNode).run =
      some { AlgebraicTriangleCounting.new oneNode with nodeScores := [0], hasRun := true } := by
  have floor0 : Rat.floor 0 = 0 := rfl
  simp [AlgebraicTriangleCounting.run, AlgebraicTriangleCounting.new, Matrix.mul,
    Matrix.adjacencyMatrix, oneNode, forUp, writeAt, toCount, Graph.weight, List.range_succ,
    floor0]

/-- The instance of C9 on the graph with one node: before `run()` the ranking of a
fresh AlgebraicPageRank raises the error; after `run()` the score of node 0 is
returned. -/
theorem queries_need_run_witness :
    (AlgebraicPageRank.new oneNode 0 0).hasRun = false ∧
    (AlgebraicPageRank.new oneNode 0 0).ranking =
      .error (.runtime_error "Call run method first") ∧
    (AlgebraicPageRank.new oneNode 0 0).run 1 =
      some { AlgebraicPageRank.new oneNode 0 0 with scoreData := [1], hasRun := true } ∧
    ∃ x, ({ AlgebraicPageRank.new oneNode 0 0 with scoreData := [1], hasRun := true } :
      AlgebraicPageRank).score 0 = .ok x :=
  ⟨rfl, (queries_need_run.2.1.1 (AlgebraicPageRank.new oneNode 0 0) rfl).2.1,
    oneNode_pageRank_run,
    (queries_need_run.2.2.1 (AlgebraicPageRank.new oneNode 0 0) _ 1 oneNode_pageRank_run).2.2
      0 (by decide)⟩

/-- C10. `moveOut` resets the has-run state: called with `hasRun = true` (after
`run()`), `scores(moveOut)` and `getScores(moveOut)` return the computed scores and
leave `hasRun = not moveOut`; with `moveOut = false` the object is unchanged, so the
call can be repeated with the same result; with `moveOut = true` every later result
query raises the call-run-first error, and after another completed `run()` the
queries return again. -/
theorem moveOut_resets_hasRun :
    (∀ (p : AlgebraicPageRank) (moveOut : Bool), p.hasRun = true →
      ∃ p1, p.scores moveOut = .ok (p.scoreData, p1) ∧ p1.hasRun = !moveOut ∧
        (moveOut = false → p1 = p) ∧
        (moveOut = true →
          (∀ m, p1.scores m = .error (.runtime_error "Call run method first")) ∧
          p1.ranking = .error (.runtime_error "Call run method first") ∧
          (∀ v, p1.score v = .error (.runtime_error "Call run method first")) ∧
          ∀ fuel p2, p1.run fuel = some p2 →
            p2.hasRun = true ∧ ∀ m, ∃ r, p2.scores m = .ok r)) ∧
    (∀ (t : AlgebraicTriangleCounting) (moveOut : Bool), t.hasRun = true →
      ∃ t1, t.getScores moveOut = .ok (t.nodeScores, t1) ∧ t1.hasRun = !moveOut ∧
        (moveOut = false → t1 = t) ∧
        (moveOut = true →
          (∀ m, t1.getScores m = .error (.runtime_error
            "AlgebraicTriangleCounting::getScores(): Call run() method first.")) ∧
          (∀ u, t1.score u = .error (.runtime_error
            "AlgebraicTriangleCounting::score(node u): Call run() method first.")) ∧
          ∀ t2, t1.run = some t2 →
            t2.hasRun = true ∧ ∀ m, ∃ r, t2.getScores m = .ok r)) := by
  constructor
  · intro p moveOut hp
    refine ⟨{ p with hasRun := !moveOut, scoreData := if moveOut then [] else p.scoreData },
      by simp [AlgebraicPageRank.scores, hp], rfl, ?_, ?_⟩
    · intro hm
      subst hm
      cases p
      simp_all
    · intro hm
      subst hm
      refine ⟨fun m => by simp [AlgebraicPageRank.scores],
        by simp [AlgebraicPageRank.ranking], fun v => by simp [AlgebraicPageRank.score],
        fun fuel p2 h2 => ?_⟩
      obtain ⟨h1, -, -⟩ := pageRank_run_some _ p2 fuel h2
      exact ⟨h1, fun m => ⟨_, by simp [AlgebraicPageRank.scores, h1]; rfl⟩⟩
  · intro t moveOut ht
    refine ⟨{ t with hasRun := !moveOut, nodeScores := if moveOut then [] else t.nodeScores },
      by simp [AlgebraicTriangleCounting.getScores, ht], rfl, ?_, ?_⟩
    · intro hm
      subst hm
      cases t
      simp_all
    · intro hm
      subst hm
      refine ⟨fun m => by simp [AlgebraicTriangleCounting.getScores],
        fun u => by simp [AlgebraicTriangleCounting.score], fun t2 h2 => ?_⟩
      obtain ⟨h1, -, -⟩ := triangleCounting_run_some _ t2 h2
      exact ⟨h1, fun m => ⟨_, by simp [AlgebraicTriangleCounting.getScores, h1]; rfl⟩⟩

/-- The instance of C10 on the AlgebraicPageRank of the graph with one node after
`run()`: `scores(true)` returns the score `(1)` and leaves `hasRun = false`. -/
theorem moveOut_resets_hasRun_witness :
    ({ AlgebraicPageRank.new oneNode 0 0 with scoreData := [1], hasRun := true } :
      AlgebraicPageRank).hasRun = true ∧
    ∃ p1, ({ AlgebraicPageRank.new oneNode 0 0 with scoreData := [1], hasRun := true } :
        AlgebraicPageRank).scores true = .ok ([1], p1) ∧ p1.hasRun = false :=
  ⟨rfl, by
    obtain ⟨p1, h1, h2, -, -⟩ := moveOut_resets_hasRun.1
      { AlgebraicPageRank.new oneNode 0 0 with scoreData := [1], hasRun := true } true rfl
    exact ⟨p1, h1, h2⟩⟩

/-! ## Comparisons of `double` values -/

theorem double.not_nan_le (x : double) : ¬ double.nan ≤ x := by
  show ¬ double.le .nan x = true
  simp [double.le]

theorem double.not_le_nan (x : double) : ¬ x ≤ double.nan := by
  show ¬ double.le x .nan = true
  cases x <;> simp [double.le]

theorem double.finite_lt_finite (a b : ℚ) : double.finite a < double.finite b ↔ a < b := by
  show double.lt (.finite a) (.finite b) = true ↔ a < b
  simp [double.lt]

theorem double.not_nan_lt (x : double) : ¬ double.nan < x := by
  show ¬ double.lt .nan x = true
  simp [double.lt]

theorem double.not_lt_iff_le (x y : double) (hx : x ≠ .nan) (hy : y ≠ .nan) :
    ¬ x < y ↔ y ≤ x := by
  show ¬ double.lt x y = true ↔ double.le y x = true
  cases x <;> cases y <;> simp_all [double.lt, double.le]

theorem double.le_total_of_ne_nan (x y : double) (hx : x ≠ .nan) (hy : y ≠ .nan) :
    x ≤ y ∨ y ≤ x := by
  show double.le x y = true ∨ double.le y x = true
  cases x <;> cases y <;> simp_all [double.le]
  exact le_total _ _

theorem double.le_of_le_of_le (x y z : double) (hxy : x ≤ y) (hyz : y ≤ z) : x ≤ z := by
  have h1 : double.le x y = true := hxy
  have h2 : double.le y z = true := hyz
  show double.le x z = true
  cases x <;> cases y <;> cases z <;> simp_all [double.le]
  exact le_trans h1 h2

/-! ## Insertion sort for a relation that is total on the elements of the list -/

theorem pairwise_orderedInsert {α : Type} (r : α → α → Prop) [DecidableRel r] (P : α → Prop)
    (htot : ∀ a b, P a → P b → r a b ∨ r b a)
    (htr : ∀ a b c, P a → P b → P c → r a b → r b c → r a c)
    (a : α) (ha : P a) (l : List α) (hl : ∀ x ∈ l, P x) (hs : l.Pairwise r) :
    (l.orderedInsert r a).Pairwise r := by
  induction l with
  | nil => simp
  | cons b l ih =>
    rw [List.pairwise_cons] at hs
    rw [List.orderedInsert]
    split
    · rename_i hab
      rw [List.pairwise_cons]
      refine ⟨fun x hx => ?_, List.pairwise_cons.mpr hs⟩
      rcases List.mem_cons.mp hx with rfl | hx
      · exact hab
      · exact htr _ _ _ ha (hl b (List.mem_cons_self _ _))
          (hl x (List.mem_cons_of_mem _ hx)) hab (hs.1 x hx)
    · rename_i hab
      have hba : r b a := by
        rcases htot a b ha (hl b (List.mem_cons_self _ _)) with h | h
        · exact absurd h hab
        · exact h
      rw [List.pairwise_cons]
      refine ⟨fun x hx => ?_, ih (fun x hx => hl x (List.mem_cons_of_mem _ hx)) hs.2⟩
      rcases (List.mem_orderedInsert r).mp hx with rfl | hx
      · exact hba
      · exact hs.1 x hx

theorem pairwise_insertionSort {α : Type} (r : α → α → Prop) [DecidableRel r] (P : α → Prop)
    (htot : ∀ a b, P a → P b → r a b ∨ r b a)
    (htr : ∀ a b c, P a → P b → P c → r a b → r b c → r a c)
    (l : List α) (hl : ∀ x ∈ l, P x) : (l.insertionSort r).Pairwise r := by
  induction l with
  | nil => simp
  | cons a l ih =>
    rw [List.insertionSort]
    exact pairwise_orderedInsert r P htot htr a (hl a (List.mem_cons_self _ _)) _
      (fun x hx => hl x (List.mem_cons_of_mem _
        ((List.perm_insertionSort r l).mem_iff.mp hx)))
      (ih (fun x hx => hl x (List.mem_cons_of_mem _ hx)))

/-! ## AlgebraicPageRank: what `run` stores -/

theorem new_numberOfRows (graph : Graph) (damp tol : ℚ) :
    (AlgebraicPageRank.new graph damp tol).M.numberOfRows = graph.n := rfl

/-- What `run` computes from the rank vector that its loop leaves: every entry
divided by the sum of the entries. -/
theorem run_of_iterate (p : AlgebraicPageRank) (fuel : Nat) (rank : Vector)
    (hiter : AlgebraicPageRank.iterate p.M ((1 - p.damp) / (p.M.numberOfRows : ℚ)) p.tol fuel
      (List.replicate p.M.numberOfRows (1 / (p.M.numberOfRows : ℚ))) = some rank)
    (hlen : rank.length = p.M.numberOfRows) :
    p.run fuel =
      some { p with scoreData := rank.map (fun x => double.div x rank.sum), hasRun := true } := by
  have hfill := forUp_fill_eq
    (fun i => (rank[i]?).bind (fun x => some (double.div x (rank.foldl (· + ·) 0))))
    (fun i => double.div (rank.getD i 0) (rank.foldl (· + ·) 0))
    (fun i scoreData =>
      (rank[i]?).bind (fun x => writeAt scoreData i (double.div x (rank.foldl (· + ·) 0))))
    (resize p.scoreData p.M.numberOfRows 0)
    (fun i r _ => by
      dsimp only
      cases rank[i]? <;> rfl)
    (fun i hi => by
      rw [resize_length] at hi
      have hi2 : i < rank.length := by omega
      simp [List.getElem?_eq_getElem hi2, List.getD_eq_getElem?_getD])
  rw [resize_length] at hfill
  have hmap : (List.range p.M.numberOfRows).map
      (fun i => double.div (rank.getD i 0) (rank.foldl (· + ·) 0)) =
      rank.map (fun x => double.div x rank.sum) := by
    apply List.ext_getElem
    · simp [hlen]
    · intro i h1 h2
      simp [List.getD_eq_getElem?_getD, List.sum_eq_foldl,
        List.getElem?_eq_getElem (show i < rank.length by simpa using h2)]
  rw [hmap] at hfill
  simp only [AlgebraicPageRank.run, Option.bind_eq_bind, Option.pure_def, hiter,
    Option.some_bind]
  rw [hlen, hfill]
  rfl

/-! ## AlgebraicPageRank: the ranking -/

/-- For every object that has run and holds no NaN score, `ranking()` returns one
pair per score, the nodes of the pairs are the indices of the scores, each once, each
pair `(v, s)` has `s = score(v)`, and no pair stands behind one with a smaller
score. -/
theorem ranking_of_numbers (q : AlgebraicPageRank) (hq : q.hasRun = true)
    (hnum : ∀ s ∈ q.scoreData, s ≠ double.nan) :
    ∃ r, q.ranking = .ok r ∧ r.length = q.scoreData.length ∧
      (r.map Prod.fst).Perm (List.range q.scoreData.length) ∧
      (∀ x ∈ r, q.score x.1 = .ok x.2) ∧
      r.Pairwise (fun x y => x.2 ≥ y.2) ∧
      List.Chain' (fun x y => x.2 ≥ y.2) r := by
  have hperm := List.perm_insertionSort (fun x y : Nat × double => ¬ y.2 > x.2)
    ((List.range q.scoreData.length).zip q.scoreData)
  have hzip : ∀ x ∈ (List.range q.scoreData.length).zip q.scoreData, x.2 ≠ double.nan :=
    fun x hx => hnum x.2 (List.of_mem_zip hx).2
  have hsorted0 : (((List.range q.scoreData.length).zip q.scoreData).insertionSort
      (fun x y : Nat × double => ¬ y.2 > x.2)).Pairwise (fun x y => ¬ y.2 > x.2) :=
    pairwise_insertionSort _ (fun x : Nat × double => x.2 ≠ double.nan)
      (fun a b ha hb => by
        rcases double.le_total_of_ne_nan a.2 b.2 ha hb with h | h
        · exact Or.inr ((double.not_lt_iff_le b.2 a.2 hb ha).mpr h)
        · exact Or.inl ((double.not_lt_iff_le a.2 b.2 ha hb).mpr h))
      (fun a b c ha hb hc hab hbc =>
        (double.not_lt_iff_le a.2 c.2 ha hc).mpr (double.le_of_le_of_le c.2 b.2 a.2
          ((double.not_lt_iff_le b.2 c.2 hb hc).mp hbc)
          ((double.not_lt_iff_le a.2 b.2 ha hb).mp hab)))
      _ hzip
  have hsorted : (((List.range q.scoreData.length).zip q.scoreData).insertionSort
      (fun x y : Nat × double => ¬ y.2 > x.2)).Pairwise (fun x y => x.2 ≥ y.2) :=
    List.Pairwise.imp_of_mem (fun {a b} ha hb hab =>
      (double.not_lt_iff_le a.2 b.2 (hzip a (hperm.mem_iff.mp ha))
        (hzip b (hperm.mem_iff.mp hb))).mp hab) hsorted0
  refine ⟨_, ?_, ?_, ?_, ?_, hsorted, hsorted.chain'⟩
  · simp [AlgebraicPageRank.ranking, hq]
  · rw [List.Perm.length_eq hperm]
    simp
  · have := List.Perm.map Prod.fst hperm
    rw [List.map_fst_zip _ _ (by simp)] at this
    exact this
  · intro x hx
    have hx1 := (List.Perm.mem_iff hperm).mp hx
    obtain ⟨i, hi, hxi⟩ := List.mem_iff_getElem.mp hx1
    rw [List.getElem_zip] at hxi
    have hi2 : i < q.scoreData.length := by simpa using hi
    subst hxi
    simp [AlgebraicPageRank.score, hq, List.getElem?_eq_getElem hi2]

/-- C11, for scores that are numbers. After a completed `run()` on a graph with `n`
nodes that leaves no score NaN, `ranking()` returns exactly `n` pairs, the nodes of
the pairs are `0..n-1`, each once, each pair `(v, s)` has `s = score(v)`, no pair
stands behind one with a smaller score, and the scores of consecutive pairs are
non-increasing. The same holds whatever `n` scores without NaN the object holds after
`run()`: the values that the model computes without rounding play no part. -/
theorem ranking_sorted_descending (graph : Graph) (damp tol : ℚ) (fuel : Nat)
    (p1 : AlgebraicPageRank)
    (hrun : (AlgebraicPageRank.new graph damp tol).run fuel = some p1)
    (hnum : ∀ s ∈ p1.scoreData, s ≠ double.nan) :
    (∃ r, p1.ranking = .ok r ∧ r.length = graph.n ∧
      (r.map Prod.fst).Perm (List.range graph.n) ∧
      (∀ x ∈ r, p1.score x.1 = .ok x.2) ∧
      r.Pairwise (fun x y => x.2 ≥ y.2) ∧
      List.Chain' (fun x y => x.2 ≥ y.2) r) ∧
    ∀ scoreData : List double, scoreData.length = graph.n →
      (∀ s ∈ scoreData, s ≠ double.nan) →
      ∃ r, ({ p1 with scoreData := scoreData } : AlgebraicPageRank).ranking = .ok r ∧
        r.length = graph.n ∧
        (r.map Prod.fst).Perm (List.range graph.n) ∧
        (∀ x ∈ r,
          ({ p1 with scoreData := scoreData } : AlgebraicPageRank).score x.1 = .ok x.2) ∧
        r.Pairwise (fun x y => x.2 ≥ y.2) ∧
        List.Chain' (fun x y => x.2 ≥ y.2) r := by
  obtain ⟨h1, h2, -⟩ := pageRank_run_some _ p1 fuel hrun
  rw [new_numberOfRows] at h2
  refine ⟨?_, fun scoreData hlen hnum2 => ?_⟩
  · have h := ranking_of_numbers p1 h1 hnum
    rw [h2] at h
    exact h
  · have h := ranking_of_numbers { p1 with scoreData := scoreData } h1 hnum2
    simp only [hlen] at h
    exact h

theorem oneArc_iterate_half :
    AlgebraicPageRank.iterate (AlgebraicPageRank.new oneArc (1 / 2) (1 / 4)).M
      ((1 - 1 / 2) / ((3 : Nat) : ℚ)) (1 / 4) 1
      (List.replicate 3 (1 / ((3 : Nat) : ℚ))) = some [1 / 6, 1 / 3, 1 / 6] := by
  simp [AlgebraicPageRank.iterate, AlgebraicPageRank.new, Matrix.mulVec, Matrix.adjacencyMatrix,
    oneArc, Matrix.rowDot, Vector.sub, Vector.lengthGreater, Graph.weight, rowReduce,
    List.range_succ, List.replicate]
  norm_num

/-- On the directed graph with the nodes 0, 1, 2 and the edge from 0 to 1, with
`damp = 1/2` and `tol = 1/4`, `run()` stops after one pass with the ranks
`1/6, 1/3, 1/6` and stores the scores `1/4, 1/2, 1/4`. -/
theorem oneArc_run_half :
    (AlgebraicPageRank.new oneArc (1 / 2) (1 / 4)).run 1 =
      some oneArcRanked := by
  unfold oneArcRanked
  rw [run_of_iterate (AlgebraicPageRank.new oneArc (1 / 2) (1 / 4)) 1 _ oneArc_iterate_half rfl]
  simp [double.div]
  norm_num

/-- The ranking of the scores `1/4, 1/2, 1/4`: node 1 comes first. -/
theorem oneArc_ranking :
    oneArcRanked.ranking =
      .ok [(1, .finite (1 / 2)), (0, .finite (1 / 4)), (2, .finite (1 / 4))] := by
  simp only [oneArcRanked, AlgebraicPageRank.ranking, Bool.not_true, Bool.false_eq_true, if_false,
    List.length_cons, List.length_nil, List.range_succ, List.range_zero, List.nil_append,
    List.cons_append, List.zip_cons_cons, List.zip_nil_right, List.insertionSort,
    List.orderedInsert, gt_iff_lt]
  have h1 : double.finite (1 / 4) < double.finite (1 / 2) := by
    rw [double.finite_lt_finite]
    norm_num
  have h2 : ¬ double.finite (1 / 4) < double.finite (1 / 4) := by
    rw [double.finite_lt_finite]
    exact lt_irrefl _
  have h3 : ¬ double.finite (1 / 2) < double.finite (1 / 4) := by
    rw [double.finite_lt_finite]
    norm_num
  simp only [List.orderedInsert, h1, h2, h3, not_true_eq_false, not_false_eq_true, if_true,
    if_false]

/-- The instance of C11 on the directed graph with the nodes 0, 1, 2 and the edge
from 0 to 1, with `damp = 1/2` and `tol = 1/4`: the scores `1/4, 1/2, 1/4` are
numbers, and the ranking has to put node 1 first. -/
theorem ranking_sorted_descending_witness :
    (AlgebraicPageRank.new oneArc (1 / 2) (1 / 4)).run 1 = some oneArcRanked ∧
    (∀ s ∈ oneArcRanked.scoreData, s ≠ double.nan) ∧
    (∃ r, oneArcRanked.ranking = .ok r ∧ r.length = oneArc.n ∧
      (r.map Prod.fst).Perm (List.range oneArc.n) ∧
      (∀ x ∈ r, oneArcRanked.score x.1 = .ok x.2) ∧
      r.Pairwise (fun x y => x.2 ≥ y.2) ∧
      List.Chain' (fun x y => x.2 ≥ y.2) r) ∧
    ∀ scoreData : List double, scoreData.length = oneArc.n →
      (∀ s ∈ scoreData, s ≠ double.nan) →
      ∃ r, ({ oneArcRanked with scoreData := scoreData } : AlgebraicPageRank).ranking = .ok r ∧
        r.length = oneArc.n ∧
        (r.map Prod.fst).Perm (List.range oneArc.n) ∧
        (∀ x ∈ r,
          ({ oneArcRanked with scoreData := scoreData } : AlgebraicPageRank).score x.1 =
            .ok x.2) ∧
        r.Pairwise (fun x y => x.2 ≥ y.2) ∧
        List.Chain' (fun x y => x.2 ≥ y.2) r :=
  have hnum : ∀ s ∈ oneArcRanked.scoreData, s ≠ double.nan := by
    intro s hs
    simp only [oneArcRanked, List.mem_cons, List.mem_singleton, List.not_mem_nil,
      or_false] at hs
    rcases hs with rfl | rfl | rfl <;> exact double.noConfusion
  ⟨oneArc_run_half, hnum,
    ranking_sorted_descending oneArc (1 / 2) (1 / 4) 1 oneArcRanked oneArc_run_half hnum⟩

theorem twoIsolatedNodes_iterate :
    AlgebraicPageRank.iterate (AlgebraicPageRank.new twoIsolatedNodes 1 0).M
      ((1 - 1) / ((2 : Nat) : ℚ)) 0 2
      (List.replicate 2 (1 / ((2 : Nat) : ℚ))) = some [0, 0] := by
  simp [AlgebraicPageRank.iterate, AlgebraicPageRank.new, Matrix.mulVec, Matrix.adjacencyMatrix,
    twoIsolatedNodes, Matrix.rowDot, Vector.sub, Vector.lengthGreater, Graph.weight, rowReduce,
    List.range_succ, List.replicate]

/-- C11 as stated fails when a score is NaN: on the graph with the two nodes 0 and 1
and no edge, with `damp = 1` and `tol = 0`, the loop of `run()` stops after two
passes with the ranks `0, 0`, whose sum is 0, and line 118 stores `0.0 / 0.0`, NaN,
for both nodes. NaN is not greater than or equal to NaN, so in whatever order a sort
leaves the two pairs, the scores of the consecutive pairs are not non-increasing. -/
theorem ranking_nan_counterexample :
    ∃ p1, (AlgebraicPageRank.new twoIsolatedNodes 1 0).run 2 = some p1 ∧
      p1.scoreData = [double.nan, double.nan] ∧
      p1.ranking = .ok [(0, double.nan), (1, double.nan)] ∧
      ¬ (double.nan ≥ double.nan) ∧
      ∀ r : List (Nat × double), r.Perm [(0, double.nan), (1, double.nan)] →
        ¬ List.Chain' (fun x y => x.2 ≥ y.2) r := by
  have hrun := run_of_iterate (AlgebraicPageRank.new twoIsolatedNodes 1 0) 2 _
    twoIsolatedNodes_iterate rfl
  have hnan : ¬ (double.nan ≥ double.nan) := double.not_nan_le _
  refine ⟨_, hrun, by simp [double.div], ?_, hnan, ?_⟩
  · simp only [AlgebraicPageRank.ranking, Bool.not_true, Bool.false_eq_true, if_false,
      List.length_cons, List.length_nil, List.length_map, List.map_cons, List.map_nil,
      List.range_succ, List.range_zero, List.nil_append, List.cons_append,
      List.zip_cons_cons, List.zip_nil_right, List.insertionSort, List.orderedInsert,
      gt_iff_lt]
    simp [double.div, double.not_nan_lt]
  · intro r hperm hchain
    have hlen := hperm.length_eq
    rcases r with _ | ⟨a, _ | ⟨b, _ | ⟨c, r⟩⟩⟩
    · simp at hlen
    · simp at hlen
    · have ha : a.2 = double.nan := by
        have := hperm.mem_iff.mp (List.mem_cons_self a [b])
        simp at this
        rcases this with rfl | rfl <;> rfl
      have hab : a.2 ≥ b.2 := by
        simpa using hchain
      rw [ha] at hab
      exact double.not_le_nan _ hab
    · simp at hlen

/-! ## AlgebraicPageRank: the normalised scores -/

theorem sum_ite_eq_length_filter {α : Type} (l : List α) (p : α → Bool) :
    (l.map (fun x => if p x then (1 : ℚ) else 0)).sum = ((l.filter p).length : ℚ) := by
  induction l with
  | nil => simp
  | cons a l ih =>
    by_cases h : p a
    · simp [h, ih]
      ring
    · simp [h, ih]

theorem sum_symmetric_eq_twice (f : Nat → Nat → ℚ) (hsymm : ∀ k l, f k l = f l k)
    (hdiag : ∀ k, f k k = 0) (n : Nat) :
    ∑ k ∈ Finset.range n, ∑ l ∈ Finset.range n, f l k =
      2 * ∑ k ∈ Finset.range n, ∑ l ∈ Finset.range k, f l k := by
  induction n with
  | zero => simp
  | succ n ih =>
    rw [Finset.sum_range_succ (fun k => ∑ l ∈ Finset.range k, f l k), mul_add, ← ih,
      Finset.sum_range_succ]
    simp only [Finset.sum_range_succ, Finset.sum_add_distrib, hdiag]
    have h1 : ∑ k ∈ Finset.range n, f n k = ∑ l ∈ Finset.range n, f l n :=
      Finset.sum_congr rfl (fun k _ => hsymm n k)
    rw [h1]
    ring

/-- In a simple graph at most one edge joins two given nodes. -/
theorem Graph.Simple.filter_length_le {G : Graph} (h : G.Simple) (u v : Nat) :
    (G.edges.filter (fun e =>
      (e.1 == u && e.2.1 == v) || (!G.directed && e.1 == v && e.2.1 == u))).length ≤ 1 := by
  obtain ⟨hd, -, hp⟩ := h
  rw [hd]
  generalize G.edges = es at hp
  induction es with
  | nil => simp
  | cons e es ih =>
    rw [List.pairwise_cons] at hp
    by_cases he : ((e.1 == u && e.2.1 == v) || (!false && e.1 == v && e.2.1 == u)) = true
    · simp only [List.filter_cons, he, ↓reduceIte]
      have hnil : es.filter (fun e =>
          (e.1 == u && e.2.1 == v) || (!false && e.1 == v && e.2.1 == u)) = [] := by
        rw [List.filter_eq_nil_iff]
        intro f hf hfm
        apply hp.1 f hf
        simp only [Bool.not_false, Bool.true_and, Bool.or_eq_true, Bool.and_eq_true,
          beq_iff_eq] at he hfm
        rcases he with ⟨h1, h2⟩ | ⟨h1, h2⟩ <;> rcases hfm with ⟨h3, h4⟩ | ⟨h3, h4⟩
        · exact Or.inl ⟨by omega, by omega⟩
        · exact Or.inr ⟨by omega, by omega⟩
        · exact Or.inr ⟨by omega, by omega⟩
        · exact Or.inl ⟨by omega, by omega⟩
      rw [hnil]
      rfl
    · simp only [List.filter_cons, he, ↓reduceIte]
      exact ih hp.2

/-- The adjacency matrix of a simple graph has the entries 0 and 1. -/
theorem Graph.Simple.weight_eq {G : Graph} (h : G.Simple) (u v : Nat) :
    G.weight u v = if G.hasEdge u v then 1 else 0 := by
  have hlen := h.filter_length_le u v
  have hone : ∀ l : List (Nat × Nat × ℚ), (∀ e ∈ l, e.2.2 = 1) →
      (l.map (fun e => e.2.2)).sum = (l.length : ℚ) := by
    intro l hl
    induction l with
    | nil => simp
    | cons a l ih =>
      simp [hl a (List.mem_cons_self _ _), ih (fun e he => hl e (List.mem_cons_of_mem _ he))]
      ring
  unfold Graph.weight Graph.hasEdge
  rw [hone _ (fun e he => (h.2.1 e (List.mem_filter.mp he).1).1)]
  rcases hf : G.edges.filter (fun e =>
      (e.1 == u && e.2.1 == v) || (!G.directed && e.1 == v && e.2.1 == u)) with _ | ⟨a, l⟩
  · have hany : G.edges.any (fun e =>
        (e.1 == u && e.2.1 == v) || (!G.directed && e.1 == v && e.2.1 == u)) = false := by
      rw [List.any_eq_false]
      exact List.filter_eq_nil_iff.mp hf
    rw [hany]
    simpa using hf
  · have hany : G.edges.any (fun e =>
        (e.1 == u && e.2.1 == v) || (!G.directed && e.1 == v && e.2.1 == u)) = true := by
      rw [List.any_eq_true]
      have ha : a ∈ G.edges.filter (fun e =>
          (e.1 == u && e.2.1 == v) || (!G.directed && e.1 == v && e.2.1 == u)) := by
        rw [hf]
        exact List.mem_cons_self _ _
      exact ⟨a, (List.mem_filter.mp ha).1, (List.mem_filter.mp ha).2⟩
    rw [hf] at hlen
    have hl : l = [] := by
      rcases l with _ | ⟨b, l⟩
      · rfl
      · simp at hlen
    simp only [hany, hf, hl]
    simp

theorem Graph.Simple.hasEdge_symm {G : Graph} (h : G.Simple) (u v : Nat) :
    G.hasEdge u v = G.hasEdge v u := by
  unfold Graph.hasEdge
  rw [h.1]
  congr 1
  funext e
  simp only [Bool.not_false, Bool.true_and]
  exact Bool.or_comm _ _

theorem Graph.Simple.hasEdge_self {G : Graph} (h : G.Simple) (u : Nat) :
    G.hasEdge u u = false := by
  unfold Graph.hasEdge
  rw [List.any_eq_false]
  intro e he hm
  apply (h.2.1 e he).2
  simp only [Bool.or_eq_true, Bool.and_eq_true, beq_iff_eq] at hm
  rcases hm with ⟨h1, h2⟩ | ⟨⟨-, h1⟩, h2⟩
  · omega
  · omega

/-- The diagonal entry `(A^3)(u, u)` of the adjacency matrix of a simple graph is
twice the number of triangles that contain `u`. -/
theorem Graph.Simple.cube_diag {G : Graph} (h : G.Simple) (u : Nat) :
    ((List.range G.n).map (fun k =>
      ((List.range G.n).map (fun l => G.weight u l * G.weight l k)).sum * G.weight k u)).sum =
      2 * (G.triangles u : ℚ) := by
  have hws : ∀ a b, G.weight a b = G.weight b a := by
    intro a b
    rw [h.weight_eq, h.weight_eq, h.hasEdge_symm]
  have hwd : ∀ a, G.weight a a = 0 := by
    intro a
    rw [h.weight_eq, h.hasEdge_self]
    rfl
  have hf : ∀ l k, G.weight u l * G.weight l k * G.weight k u =
      if (G.hasEdge u l && G.hasEdge u k && G.hasEdge l k) then 1 else 0 := by
    intro l k
    rw [h.weight_eq u l, h.weight_eq l k, h.weight_eq k u, h.hasEdge_symm k u]
    cases G.hasEdge u l <;> cases G.hasEdge u k <;> cases G.hasEdge l k <;> simp
  rw [list_sum_range]
  simp only [list_sum_range, Finset.sum_mul]
  rw [sum_symmetric_eq_twice (fun l k => G.weight u l * G.weight l k * G.weight k u)
    (fun k l => by
      show G.weight u k * G.weight k l * G.weight l u = G.weight u l * G.weight l k * G.weight k u
      rw [hws u k, hws k l, hws l u]
      ring)
    (fun k => by
      show G.weight u k * G.weight k k * G.weight k u = 0
      rw [hwd k]
      ring)]
  congr 1
  unfold Graph.triangles
  rw [Nat.cast_list_sum, List.map_map, list_sum_range]
  apply Finset.sum_congr rfl
  intro k _
  simp only [hf]
  rw [← list_sum_range, sum_ite_eq_length_filter]
  rfl

/-- What `AlgebraicTriangleCounting::run` computes for a square matrix `A`: the
diagonal of `A * A * A`, halved for an undirected graph. -/
theorem triangle_run_eq (t : AlgebraicTriangleCounting)
    (hsq : t.A.numberOfColumns = t.A.numberOfRows) :
    t.run = some { t with
      nodeScores := (List.range t.A.numberOfRows).map (fun i =>
        toCount (if t.directed then
          ((List.range t.A.numberOfColumns).map (fun k =>
            ((List.range t.A.numberOfColumns).map (fun l =>
              t.A.entry i l * t.A.entry l k)).sum * t.A.entry k i)).sum
        else
          ((List.range t.A.numberOfColumns).map (fun k =>
            ((List.range t.A.numberOfColumns).map (fun l =>
              t.A.entry i l * t.A.entry l k)).sum * t.A.entry k i)).sum / 2)),
      hasRun := true } := by
  have hfill := forUp_fill_eq
    (fun i => some (toCount (if t.directed then
          ((List.range t.A.numberOfColumns).map (fun k =>
            ((List.range t.A.numberOfColumns).map (fun l =>
              t.A.entry i l * t.A.entry l k)).sum * t.A.entry k i)).sum
        else
          ((List.range t.A.numberOfColumns).map (fun k =>
            ((List.range t.A.numberOfColumns).map (fun l =>
              t.A.entry i l * t.A.entry l k)).sum * t.A.entry k i)).sum / 2)))
    (fun i => toCount (if t.directed then
          ((List.range t.A.numberOfColumns).map (fun k =>
            ((List.range t.A.numberOfColumns).map (fun l =>
              t.A.entry i l * t.A.entry l k)).sum * t.A.entry k i)).sum
        else
          ((List.range t.A.numberOfColumns).map (fun k =>
            ((List.range t.A.numberOfColumns).map (fun l =>
              t.A.entry i l * t.A.entry l k)).sum * t.A.entry k i)).sum / 2))
    (fun i nodeScores => writeAt nodeScores i (toCount (if t.directed then
          ((List.range t.A.numberOfColumns).map (fun k =>
            ((List.range t.A.numberOfColumns).map (fun l =>
              t.A.entry i l * t.A.entry l k)).sum * t.A.entry k i)).sum
        else
          ((List.range t.A.numberOfColumns).map (fun k =>
            ((List.range t.A.numberOfColumns).map (fun l =>
              t.A.entry i l * t.A.entry l k)).sum * t.A.entry k i)).sum / 2)))
    (List.replicate t.A.numberOfRows 0) (fun i r _ => rfl) (fun i _ => rfl)
  rw [List.length_replicate] at hfill
  simp only [AlgebraicTriangleCounting.run, Matrix.mul, hsq, if_true, Option.bind_eq_bind,
    Option.some_bind, Option.pure_def]
  rw [hsq] at hfill
  rw [hfill]
  rfl

theorem readAt_of_getElem? {α : Type} {v : List α} {i : Nat} {x : α} (h : v[i]? = some x) :
    readAt v i = .ok x := by
  unfold readAt
  rw [h]

/-- C12. Triangle counts on undirected graphs: for every undirected, unweighted graph
without self-loops or multi-edges, `run()` returns and then, for every node `u`,
`score(u)` is the number of unordered pairs `{v, w}` of distinct neighbours of `u`
that are adjacent to each other; it is `(A^3)(u, u) / 2` for the adjacency matrix
`A`. -/
theorem triangle_count_undirected (G : Graph) (hG : G.Simple) :
    ∃ t1, (AlgebraicTriangleCounting.new G).run = some t1 ∧
      (∀ u, u < G.n → t1.score u = .ok (G.triangles u)) ∧
      ∃ powA, ((Matrix.adjacencyMatrix G).mul (Matrix.adjacencyMatrix G)).bind
          (fun AA => AA.mul (Matrix.adjacencyMatrix G)) = some powA ∧
        ∀ u, powA.entry u u / 2 = (G.triangles u : ℚ) := by
  have hhalf : ∀ u, ((List.range G.n).map (fun k =>
      ((List.range G.n).map (fun l => G.weight u l * G.weight l k)).sum * G.weight k u)).sum / 2 =
      (G.triangles u : ℚ) := by
    intro u
    rw [hG.cube_diag u]
    ring
  refine ⟨_, triangle_run_eq (AlgebraicTriangleCounting.new G) rfl, ?_, ?_⟩
  · intro u hu
    have hd : (AlgebraicTriangleCounting.new G).directed = false := hG.1
    simp only [AlgebraicTriangleCounting.score, Bool.not_true, Bool.false_eq_true, if_false,
      hd]
    have hu2 : u < (AlgebraicTriangleCounting.new G).A.numberOfRows := hu
    rw [if_pos hu2]
    have hget : ((List.range G.n).map (fun i => toCount
        (((List.range G.n).map (fun k =>
          ((List.range G.n).map (fun l => G.weight i l * G.weight l k)).sum *
            G.weight k i)).sum / 2)))[u]? = some (G.triangles u) := by
      rw [List.getElem?_map, List.getElem?_range hu, Option.map_some', hhalf u]
      rfl
    exact readAt_of_getElem? hget
  · refine ⟨⟨G.n, G.n, fun i j => ((List.range G.n).map (fun k =>
      ((List.range G.n).map (fun l => G.weight i l * G.weight l k)).sum * G.weight k j)).sum⟩,
      ?_, hhalf⟩
    simp [Matrix.mul, Matrix.adjacencyMatrix]

/-- The instance of C12 on the undirected triangle 0 - 1 - 2. -/
theorem triangle_count_undirected_witness :
    triangleGraph.Simple ∧
    ∃ t1, (AlgebraicTriangleCounting.new triangleGraph).run = some t1 ∧
      (∀ u, u < triangleGraph.n → t1.score u = .ok (triangleGraph.triangles u)) ∧
      ∃ powA, ((Matrix.adjacencyMatrix triangleGraph).mul
          (Matrix.adjacencyMatrix triangleGraph)).bind
          (fun AA => AA.mul (Matrix.adjacencyMatrix triangleGraph)) = some powA ∧
        ∀ u, powA.entry u u / 2 = (triangleGraph.triangles u : ℚ) :=
  have hs : triangleGraph.Simple := by simp [Graph.Simple, triangleGraph]
  ⟨hs, triangle_count_undirected triangleGraph hs⟩

theorem triangleGraph_triangles : triangleGraph.triangles 0 = 1 := by decide

theorem completeDigraph_weight (u v : Nat) (hu : u < 3) (hv : v < 3) :
    completeDigraph.weight u v = if u = v then 0 else 1 := by
  interval_cases u <;> interval_cases v <;>
    simp [Graph.weight, completeDigraph]

/-- C13 on the directed graph with the six edges between the nodes 0, 1, 2: the graph
is unweighted and has no self-loop, the node set `{0, 1, 2}` is the only one that
forms a triangle, and after `run()` the score of every node is 2, one for each of
the orientations `0 - 1 - 2 - 0` and `0 - 2 - 1 - 0`. -/
theorem directed_triangle_counted_twice :
    (∀ e ∈ completeDigraph.edges, e.2.2 = 1 ∧ e.1 ≠ e.2.1) ∧
    completeDigraph.triangleSets 0 = 1 ∧
    ∃ t1, (AlgebraicTriangleCounting.new completeDigraph).run = some t1 ∧
      t1.getScores false = .ok ([2, 2, 2], t1) ∧ t1.score 0 = .ok 2 := by
  have floor2 : Rat.floor 2 = 2 := rfl
  have hrun : (AlgebraicTriangleCounting.new completeDigraph).run =
      some { AlgebraicTriangleCounting.new completeDigraph with
        nodeScores := [2, 2, 2], hasRun := true } := by
    rw [triangle_run_eq _ rfl]
    have hn : completeDigraph.n = 3 := rfl
    have h3 : List.range 3 = [0, 1, 2] := rfl
    simp [AlgebraicTriangleCounting.new, Matrix.adjacencyMatrix, hn, h3,
      completeDigraph_weight, toCount]
    norm_num [floor2]
    rfl
  refine ⟨?_, by decide, _, hrun, ?_, ?_⟩
  · intro e he
    simp [completeDigraph] at he
    rcases he with rfl | rfl | rfl | rfl | rfl | rfl <;> simp
  · simp [AlgebraicTriangleCounting.getScores]
  · simp [AlgebraicTriangleCounting.score, AlgebraicTriangleCounting.new, Matrix.adjacencyMatrix,
      completeDigraph, readAt]

/-! ## PartitionHubDominance -/

/-- C16 on the graph with the two nodes 0 and 1 and no edge, partitioned into the
clusters `{0}` and `{1}`: every node has a cluster, `run()` returns with the values
`1, 1`, for which the average weighted by the cluster sizes is `(1 * 1 + 1 * 1) / 2 = 1`,
but it leaves `weightedAverage = 1 / 2`: line 59 assigns `dominance * clusterSizes[i]`
of the last cluster instead of adding it. -/
theorem weightedAverage_keeps_last_cluster :
    1 ≤ twoIsolatedNodes.n ∧ twoSingletons.data.length = twoIsolatedNodes.n ∧
    (∀ x ∈ twoSingletons.data, x ≠ none) ∧
    ∃ p1, (PartitionHubDominance.mk twoIsolatedNodes twoSingletons 0 0 0 0 [] false).run =
        some p1 ∧
      p1.values = [1, 1] ∧ p1.sizeWeightedAverage = 1 ∧ p1.weightedAverage = 1 / 2 ∧
      p1.weightedAverage ≠ p1.sizeWeightedAverage := by
  have hrun : (PartitionHubDominance.mk twoIsolatedNodes twoSingletons 0 0 0 0 [] false).run =
      some ⟨twoIsolatedNodes, twoSingletons, 1 / 2, 1, 1, 1, [1, 1], true⟩ := by
    simp [PartitionHubDominance.run, PartitionHubDominance.nodeBody,
      PartitionHubDominance.clusterBody, twoIsolatedNodes, twoSingletons, forUp, forEach,
      Graph.neighbors, writeAt, resize, doubleLowest, doubleMax]
    norm_num
  refine ⟨by decide, rfl, by decide, _, hrun, rfl, ?_, rfl, ?_⟩
  · simp [PartitionHubDominance.sizeWeightedAverage, Partition.subsetSize, twoSingletons,
      twoIsolatedNodes, List.range_succ]
  · simp [PartitionHubDominance.sizeWeightedAverage, Partition.subsetSize, twoSingletons,
      twoIsolatedNodes, List.range_succ]

/-! ## LAMGGTest::randZeroSum -/

theorem forEach_cons {α σ : Type} (a : α) (l : List α) (body : α → σ → Option σ) (s : σ) :
    forEach (a :: l) body s = (body a s).bind (forEach l body) := rfl

theorem getMembers_nodup (P : Partition) (id : Nat) : (P.getMembers id).Nodup :=
  List.Nodup.filter _ (List.nodup_range _)

theorem mem_getMembers (P : Partition) (id e : Nat) :
    e ∈ P.getMembers id ↔ P.data[e]? = some (some id) := by
  unfold Partition.getMembers
  rw [List.mem_filter, List.mem_range, decide_eq_true_iff]
  constructor
  · exact fun h => h.2
  · intro h
    refine ⟨?_, h⟩
    by_contra hlt
    rw [List.getElem?_eq_none (by omega)] at h
    cases h

theorem getSubsetIds_nodup (P : Partition) : P.getSubsetIds.Nodup :=
  (List.perm_insertionSort _ _).nodup_iff.mpr (List.nodup_dedup _)

theorem mem_getSubsetIds (P : Partition) (id : Nat) :
    id ∈ P.getSubsetIds ↔ some id ∈ P.data := by
  unfold Partition.getSubsetIds
  rw [(List.perm_insertionSort _ _).mem_iff, List.mem_dedup, List.mem_filterMap]
  constructor
  · rintro ⟨x, hx, rfl⟩
    exact hx
  · intro h
    exact ⟨some id, h, rfl⟩

/-- The inner loop of `randZeroSum` over distinct indices of `b`: it returns, the
entries outside the indices are left alone, and the sum grows by the sum of the new
entries at the indices. -/
theorem randZeroSumInner_loop (rand : Nat → ℚ) (indexes : List Nat) :
    ∀ (b : Vector) (s : ℚ) (k : Nat), indexes.Nodup → (∀ e ∈ indexes, e < b.length) →
      ∃ b1 : Vector, forEach indexes (randZeroSumInner rand) (b, s, k) =
          some (b1, s + (extract b1 indexes).sum, k + indexes.length) ∧
        b1.length = b.length ∧ ∀ e, e ∉ indexes → b1[e]? = b[e]? := by
  induction indexes with
  | nil =>
    intro b s k _ _
    exact ⟨b, by simp [forEach, extract], rfl, fun _ _ => rfl⟩
  | cons a l ih =>
    intro b s k hnd hlt
    rw [List.nodup_cons] at hnd
    have ha : a < b.length := hlt a (List.mem_cons_self _ _)
    obtain ⟨b1, hb1, hlen1, hout1⟩ := ih (b.set a (rand k)) (s + rand k) (k + 1) hnd.2
      (fun e he => by
        rw [List.length_set]
        exact hlt e (List.mem_cons_of_mem _ he))
    refine ⟨b1, ?_, by rw [hlen1, List.length_set], ?_⟩
    · have hstep : randZeroSumInner rand a (b, s, k) =
          some (b.set a (rand k), s + rand k, k + 1) := by
        simp [randZeroSumInner, writeAt, ha]
      rw [forEach_cons, hstep, Option.some_bind, hb1]
      have hget : b1.getD a 0 = rand k := by
        rw [List.getD_eq_getElem?_getD, hout1 a hnd.1, List.getElem?_set_self ha]
        rfl
      simp only [extract, List.map_cons, List.sum_cons, hget, List.length_cons]
      have h1 : s + rand k + (List.map (fun e => b1.getD e 0) l).sum =
          s + (rand k + (List.map (fun e => b1.getD e 0) l).sum) := by ring
      have h2 : k + 1 + l.length = k + (l.length + 1) := by omega
      rw [h1, h2]
    · intro e he
      rw [List.mem_cons, not_or] at he
      rw [hout1 e he.2, List.getElem?_set_ne (Ne.symm he.1)]

theorem extract_congr (b1 b2 : Vector) (S : List Nat) (h : ∀ e ∈ S, b1[e]? = b2[e]?) :
    extract b1 S = extract b2 S := by
  unfold extract
  apply List.map_congr_left
  intro e he
  rw [List.getD_eq_getElem?_getD, List.getD_eq_getElem?_getD, h e he]

/-- One pass of the loop over the components of `randZeroSum`, for a component with
members inside `b`: it returns, the entries outside the component are left alone, and
the entries of the component sum to zero. -/
theorem randZeroSumBody_step (comps : Partition) (rand : Nat → ℚ) (id : Nat) (b : Vector)
    (k : Nat) (hne : comps.getMembers id ≠ [])
    (hlt : ∀ e ∈ comps.getMembers id, e < b.length) :
    ∃ (b1 : Vector) (k1 : Nat), randZeroSumBody comps rand id (b, k) = some (b1, k1) ∧
      b1.length = b.length ∧ (∀ e, e ∉ comps.getMembers id → b1[e]? = b[e]?) ∧
      (extract b1 (comps.getMembers id)).sum = 0 := by
  have hnd := getMembers_nodup comps id
  obtain ⟨b2, hb2, hlen2, hout2⟩ :=
    randZeroSumInner_loop rand (comps.getMembers id) b 0 k hnd hlt
  rcases hm : comps.getMembers id with _ | ⟨first, rest⟩
  · exact absurd hm hne
  · rw [hm] at hb2 hnd hlt hout2
    rw [List.nodup_cons] at hnd
    have hfirst : first < b2.length := by
      rw [hlen2]
      exact hlt first (List.mem_cons_self _ _)
    refine ⟨b2.set first (b2[first] - (0 + (extract b2 (first :: rest)).sum)),
      k + (first :: rest).length, ?_, by rw [List.length_set, hlen2], ?_, ?_⟩
    · simp only [randZeroSumBody, hm, assertThat, Option.bind_eq_bind, Option.pure_def]
      rw [if_pos (List.cons_ne_nil _ _), Option.some_bind, hb2, Option.some_bind]
      simp [writeAt, hfirst, List.getElem?_eq_getElem hfirst]
    · intro e he
      have he2 := he
      rw [List.mem_cons, not_or] at he2
      rw [List.getElem?_set_ne (Ne.symm he2.1), hout2 e he]
    · have hrest : extract (b2.set first (b2[first] - (0 + (extract b2 (first :: rest)).sum)))
          rest = extract b2 rest := by
        apply extract_congr
        intro e he
        rw [List.getElem?_set_ne]
        rintro rfl
        exact hnd.1 he
      have hhead : (b2.set first (b2[first] - (0 + (extract b2 (first :: rest)).sum))).getD
          first 0 = b2[first] - (0 + (extract b2 (first :: rest)).sum) := by
        rw [List.getD_eq_getElem?_getD, List.getElem?_set_self hfirst]
        rfl
      have hx : b2.getD first 0 = b2[first] := by
        rw [List.getD_eq_getElem?_getD, List.getElem?_eq_getElem hfirst]
        rfl
      have hsplit : ∀ v : Vector, (extract v (first :: rest)).sum =
          v.getD first 0 + (extract v rest).sum := fun v => by
        simp [extract]
      rw [hsplit, hhead, hrest, hsplit, hx]
      ring

theorem getMembers_lt (comps : Partition) (id e : Nat) (he : e ∈ comps.getMembers id) :
    e < comps.data.length :=
  List.mem_range.mp (List.mem_filter.mp he).1

theorem getMembers_ne_nil (comps : Partition) (id : Nat) (h : id ∈ comps.getSubsetIds) :
    comps.getMembers id ≠ [] := by
  rw [mem_getSubsetIds, List.mem_iff_getElem?] at h
  obtain ⟨e, he⟩ := h
  exact List.ne_nil_of_mem ((mem_getMembers comps id e).mpr he)

/-- The loop over the components of `randZeroSum`, for distinct components in use: it
returns, the entries outside the components are left alone, and the entries of every
component sum to zero. -/
theorem randZeroSumBody_loop (comps : Partition) (rand : Nat → ℚ) (ids : List Nat) :
    ∀ (b : Vector) (k : Nat), ids.Nodup → (∀ id ∈ ids, comps.getMembers id ≠ []) →
      b.length = comps.data.length →
      ∃ (b1 : Vector) (k1 : Nat),
        forEach ids (randZeroSumBody comps rand) (b, k) = some (b1, k1) ∧
        b1.length = b.length ∧
        (∀ e, (∀ id ∈ ids, e ∉ comps.getMembers id) → b1[e]? = b[e]?) ∧
        ∀ id ∈ ids, (extract b1 (comps.getMembers id)).sum = 0 := by
  induction ids with
  | nil =>
    intro b k _ _ _
    exact ⟨b, k, rfl, rfl, fun _ _ => rfl, fun id hid => absurd hid (List.not_mem_nil _)⟩
  | cons a l ih =>
    intro b k hnd hne hlen
    rw [List.nodup_cons] at hnd
    obtain ⟨b2, k2, hb2, hlen2, hout2, hzero2⟩ := randZeroSumBody_step comps rand a b k
      (hne a (List.mem_cons_self _ _))
      (fun e he => by
        rw [hlen]
        exact getMembers_lt comps a e he)
    obtain ⟨b1, k1, hb1, hlen1, hout1, hzero1⟩ := ih b2 k2 hnd.2
      (fun id hid => hne id (List.mem_cons_of_mem _ hid)) (by rw [hlen2, hlen])
    refine ⟨b1, k1, ?_, by rw [hlen1, hlen2], ?_, ?_⟩
    · rw [forEach_cons, hb2, Option.some_bind, hb1]
    · intro e he
      rw [hout1 e (fun id hid => he id (List.mem_cons_of_mem _ hid)),
        hout2 e (he a (List.mem_cons_self _ _))]
    · intro id hid
      rcases List.mem_cons.mp hid with rfl | hid
      · rw [extract_congr b1 b2 _ (fun e he => hout1 e (fun id2 hid2 he2 => by
          rw [mem_getMembers] at he he2
          rw [he] at he2
          have : id = id2 := Option.some.inj (Option.some.inj he2)
          exact hnd.1 (this ▸ hid2)))]
        exact hzero2
      · exact hzero1 id hid

/-- A sum over the elements of a partition, taken subset by subset; the elements
without subset contribute nothing. -/
theorem sum_by_subsets (comps : Partition) (g : Nat → ℚ)
    (h0 : ∀ e, e < comps.data.length → (∀ id, comps.data[e]? ≠ some (some id)) → g e = 0) :
    ((List.range comps.data.length).map g).sum =
      (comps.getSubsetIds.map (fun id => ((comps.getMembers id).map g).sum)).sum := by
  have hmem : ∀ id, (comps.getMembers id).toFinset =
      (Finset.range comps.data.length).filter (fun e => comps.data[e]? = some (some id)) := by
    intro id
    ext e
    rw [List.mem_toFinset, Finset.mem_filter, Finset.mem_range, mem_getMembers]
    constructor
    · intro h
      refine ⟨?_, h⟩
      by_contra hlt
      rw [List.getElem?_eq_none (by omega)] at h
      cases h
    · exact fun h => h.2
  rw [list_sum_range, ← List.sum_toFinset _ (getSubsetIds_nodup comps)]
  have hF : ∀ id, ((comps.getMembers id).map g).sum =
      ∑ e ∈ Finset.range comps.data.length,
        if comps.data[e]? = some (some id) then g e else 0 := by
    intro id
    rw [← List.sum_toFinset _ (getMembers_nodup comps id), hmem, Finset.sum_filter]
  simp only [hF]
  rw [Finset.sum_comm]
  apply Finset.sum_congr rfl
  intro e he
  rw [Finset.mem_range] at he
  rcases hd : comps.data[e]? with _ | _ | id0
  · rw [List.getElem?_eq_none_iff] at hd
    omega
  · rw [h0 e he (fun id => by rw [hd]; simp)]
    simp
  · have hin : id0 ∈ comps.getSubsetIds.toFinset := by
      rw [List.mem_toFinset, mem_getSubsetIds]
      exact List.getElem?_mem hd
    simp only [Option.some.injEq]
    rw [Finset.sum_ite_eq, if_pos hin]

theorem vector_eq_map_range (b : Vector) :
    b = (List.range b.length).map (fun e => b.getD e 0) := by
  apply List.ext_getElem
  · simp
  · intro i h1 h2
    simp [List.getD_eq_getElem?_getD, List.getElem?_eq_getElem h1]

theorem zipWith_eq_map_range (b y : Vector) (h : y.length = b.length) :
    List.zipWith (· * ·) b y =
      (List.range b.length).map (fun e => b.getD e 0 * y.getD e 0) := by
  apply List.ext_getElem
  · simp [h]
  · intro i h1 h2
    have hb : i < b.length := by simpa [h] using h1
    have hy : i < y.length := by omega
    simp [List.getD_eq_getElem?_getD, List.getElem?_eq_getElem hb, List.getElem?_eq_getElem hy]

/-- C17. The test right-hand side is zero-sum on every component: for every graph,
every partition `comps` of its nodes that `con.getPartition()` returns and every
sequence `rand` of drawn values, `randZeroSum` returns a vector `b` of dimension `n`,
the entries of `b` over the members of each subset of `comps` sum to zero, so `b`
sums to zero and is orthogonal to every vector that is constant on each subset. -/
theorem randZeroSum_zero_sum (G : Graph) (comps : Partition) (rand : Nat → ℚ)
    (hlen : comps.data.length = G.n) :
    ∃ b : Vector, randZeroSum G comps rand = some b ∧ b.length = G.n ∧
      (∀ id, (extract b (comps.getMembers id)).sum = 0) ∧
      b.sum = 0 ∧
      ∀ y : Vector, y.length = G.n →
        (∀ u v id, comps.data[u]? = some (some id) → comps.data[v]? = some (some id) →
          y.getD u 0 = y.getD v 0) →
        (List.zipWith (· * ·) b y).sum = 0 := by
  obtain ⟨b, k, hb, hblen, hout, hzero⟩ :=
    randZeroSumBody_loop comps rand comps.getSubsetIds (List.replicate G.n 0) 0
      (getSubsetIds_nodup comps) (fun id hid => getMembers_ne_nil comps id hid)
      (by rw [List.length_replicate, hlen])
  rw [List.length_replicate] at hblen
  have hall : ∀ id, (extract b (comps.getMembers id)).sum = 0 := by
    intro id
    by_cases hid : id ∈ comps.getSubsetIds
    · exact hzero id hid
    · have hnil : comps.getMembers id = [] := by
        rw [List.eq_nil_iff_forall_not_mem]
        intro e he
        apply hid
        rw [mem_getSubsetIds]
        exact List.getElem?_mem ((mem_getMembers comps id e).mp he)
      rw [hnil]
      rfl
  have hfree : ∀ e, e < comps.data.length → (∀ id, comps.data[e]? ≠ some (some id)) →
      b.getD e 0 = 0 := by
    intro e he hno
    rw [List.getD_eq_getElem?_getD,
      hout e (fun id _ hmem => hno id ((mem_getMembers comps id e).mp hmem)),
      List.getElem?_replicate, if_pos (by omega)]
    rfl
  have hbn : b.length = comps.data.length := by rw [hblen, hlen]
  refine ⟨b, ?_, hblen, hall, ?_, ?_⟩
  · simp only [randZeroSum, Option.bind_eq_bind, Option.pure_def, hb, Option.some_bind]
  · rw [vector_eq_map_range b, hbn,
      sum_by_subsets comps (fun e => b.getD e 0) hfree]
    apply List.sum_eq_zero
    intro x hx
    obtain ⟨id, -, rfl⟩ := List.mem_map.mp hx
    exact hall id
  · intro y hy hconst
    rw [zipWith_eq_map_range b y (by rw [hy, hblen]), hbn,
      sum_by_subsets comps (fun e => b.getD e 0 * y.getD e 0)
        (fun e he hno => by
          show b.getD e 0 * y.getD e 0 = 0
          rw [hfree e he hno, zero_mul])]
    apply List.sum_eq_zero
    intro x hx
    obtain ⟨id, -, rfl⟩ := List.mem_map.mp hx
    have hsame : (comps.getMembers id).map (fun e => b.getD e 0 * y.getD e 0) =
        (comps.getMembers id).map
          (fun e => b.getD e 0 * y.getD ((comps.getMembers id).headD 0) 0) := by
      apply List.map_congr_left
      intro e he
      have hhead : (comps.getMembers id).headD 0 ∈ comps.getMembers id := by
        rcases hm : comps.getMembers id with _ | ⟨a, l⟩
        · rw [hm] at he
          cases he
        · exact List.mem_cons_self _ _
      rw [hconst e _ id ((mem_getMembers comps id e).mp he)
        ((mem_getMembers comps id _).mp hhead)]
    show ((comps.getMembers id).map (fun e => b.getD e 0 * y.getD e 0)).sum = 0
    rw [hsame, List.sum_map_mul_right]
    have := hall id
    unfold extract at this
    rw [this, zero_mul]

/-- The instance of C17 on the graph with the two nodes 0 and 1 and the edge between
them, with its one component `{0, 1}` and the drawn values `1, 2, ..`. -/
theorem randZeroSum_zero_sum_witness :
    (ConnectedComponents.getPartition oneEdge).data.length = oneEdge.n ∧
    ∃ b : Vector, randZeroSum oneEdge
        (ConnectedComponents.getPartition oneEdge) (fun k => (k : ℚ) + 1) = some b ∧
      b.length = oneEdge.n ∧
      (∀ id, (extract b ((ConnectedComponents.getPartition oneEdge).getMembers id)).sum = 0) ∧
      b.sum = 0 ∧
      ∀ y : Vector, y.length = oneEdge.n →
        (∀ u v id,
          (ConnectedComponents.getPartition oneEdge).data[u]? = some (some id) →
          (ConnectedComponents.getPartition oneEdge).data[v]? = some (some id) →
          y.getD u 0 = y.getD v 0) →
        (List.zipWith (· * ·) b y).sum = 0 :=
  ⟨rfl, randZeroSum_zero_sum oneEdge
    (ConnectedComponents.getPartition oneEdge) (fun k => (k : ℚ) + 1) rfl⟩

/-- On the graph with the two nodes 0 and 1 and the edge between them, with the drawn
values `1, 2`, `randZeroSum` returns `(1 - 3, 2)`. -/
theorem randZeroSum_oneEdge :
    ConnectedComponents.getPartition oneEdge = ⟨[some 0, some 0], 2⟩ ∧
    randZeroSum oneEdge (ConnectedComponents.getPartition oneEdge)
      (fun k => (k : ℚ) + 1) = some [-2, 2] := by
  have hp : ConnectedComponents.getPartition oneEdge = ⟨[some 0, some 0], 2⟩ := rfl
  refine ⟨hp, ?_⟩
  rw [hp]
  have hids : (Partition.mk [some 0, some 0] 2).getSubsetIds = [0] := by decide
  have hm0 : (Partition.mk [some 0, some 0] 2).getMembers 0 = [0, 1] := by decide
  simp [randZeroSum, randZeroSumBody, randZeroSumInner, hids, hm0, forEach, assertThat,
    writeAt, oneEdge]
  norm_num

end NetworKit
